import Mathlib

/-!
# tab: the `cut` / `grep` built-ins and the stack virtual machine

A shallow embedding of `src/funcs/cutgrep.h` and `src/exec.h`.

* `std::string` is a `List Char`; `std::vector<std::string>` is a `List (List Char)`.
* `size_t` and `UInt` values are natural numbers, every arithmetic step on them is
  reduced modulo `2 ^ 64`.
* A C++ loop that is not bounded by its syntax is run with a fuel argument; running
  out of fuel is the distinguished outcome `Res.timeout`.
-/

namespace Tab

/-! ## Outcomes -/

/-- Outcome of running a piece of the program: a value, a C++ exception with its
message, undefined behaviour (out-of-range access, bad cast, division trap), or
fuel exhausted before the code returned. -/
inductive Res (α : Type) where
  | ok (a : α)
  | error (msg : String)
  | ub
  | timeout
  deriving Repr, DecidableEq

/-- Sequencing of outcomes: the first failure aborts the rest. -/
def Res.bind {α β : Type} (x : Res α) (f : α → Res β) : Res β :=
  match x with
  | .ok a => f a
  | .error m => .error m
  | .ub => .ub
  | .timeout => .timeout

/-- Modulus of `size_t` and of `UInt` arithmetic. -/
def WORD : Nat := 2 ^ 64

/-! ## `cut` and `cutn` (src/funcs/cutgrep.h) -/

/-- The inner loop `for (size_t j = 0; j < M; ++j)` of `cut` and `cutn`, started at `j`
with `todo` iterations left (`todo = M - j`): the value of `matched` when the loop
is left. -/
def matchLoop (str del : List Char) (i : Nat) : Nat → Nat → Bool
  | 0, _ => true
  | todo + 1, j =>
    if (i + j) % WORD < str.length ∧ str[(i + j) % WORD]? = del[j]? then
      matchLoop str del i todo ((j + 1) % WORD)
    else
      false

/-- The flag `matched` computed at scan index `i`. -/
def matched (str del : List Char) (i : Nat) : Bool :=
  matchLoop str del i del.length 0

/-- The range constructor `std::string(str.begin() + a, str.begin() + b)`. -/
def slice (str : List Char) (a b : Nat) : List Char :=
  (str.drop a).take (b - a)

/-- Loop variables of `cut`: the scan index `i`, the start `prev` of the current
piece, and the output vector `v`. -/
structure CutState where
  i : Nat
  prev : Nat
  v : List (List Char)
  deriving Repr, DecidableEq

/-- One iteration of the outer loop of `cut`, the `++i` of the loop header included. -/
def cutBody (str del : List Char) (s : CutState) : CutState :=
  let s1 : CutState :=
    if matched str del s.i then
      let i1 := (s.i + del.length) % WORD
      { v := s.v ++ [slice str s.prev s.i], prev := i1, i := (i1 + (WORD - 1)) % WORD }
    else s
  { s1 with i := (s1.i + 1) % WORD }

/-- The outer loop `for (size_t i = 0; i < N; ++i)` of `cut`. -/
def cutLoop (str del : List Char) : Nat → CutState → Res CutState
  | 0, _ => .timeout
  | fuel + 1, s =>
    if s.i < str.length then cutLoop str del fuel (cutBody str del s) else .ok s

/-- The function `cut`: the array written to `out`. -/
def cut (fuel : Nat) (str del : List Char) : Res (List (List Char)) :=
  (cutLoop str del fuel { i := 0, prev := 0, v := [] }).bind
    fun s => .ok (s.v ++ [slice str s.prev str.length])

/-- Loop variables of `cutn`. -/
structure CutnState where
  i : Nat
  prev : Nat
  nmatch : Nat
  deriving Repr, DecidableEq

/-- The outer loop of `cutn`; `Sum.inl` is the early `return` with the piece found,
`Sum.inr` the state in which the loop is left. -/
def cutnLoop (str del : List Char) (nth : Nat) : Nat → CutnState → Res (List Char ⊕ CutnState)
  | 0, _ => .timeout
  | fuel + 1, s =>
    if s.i < str.length then
      if matched str del s.i then
        if nth = s.nmatch then
          .ok (.inl (slice str s.prev s.i))
        else
          let i1 := (s.i + del.length) % WORD
          cutnLoop str del nth fuel
            { nmatch := (s.nmatch + 1) % WORD, prev := i1,
              i := ((i1 + (WORD - 1)) % WORD + 1) % WORD }
      else
        cutnLoop str del nth fuel { s with i := (s.i + 1) % WORD }
    else .ok (.inr s)

/-- The function `cutn`: the string written to `out`, or the exception thrown. -/
def cutn (fuel : Nat) (str del : List Char) (nth : Nat) : Res (List Char) :=
  (cutnLoop str del nth fuel { i := 0, prev := 0, nmatch := 0 }).bind fun r =>
    match r with
    | .inl piece => .ok piece
    | .inr s =>
      if nth = s.nmatch then .ok (slice str s.prev str.length)
      else .error "Substring not found in 'cut'"

/-! ## `grep` and `grepif` (src/funcs/cutgrep.h)

The regex engine is `std::regex` of the C++ standard library. It enters as a
parameter: which patterns compile, and for a compiled pattern and a subject string
the successive matches that `std::sregex_iterator` enumerates. -/

/-- One `std::smatch` of a successful search: sub-match 0 (the full match) and the
sub-matches of the capture groups 1..k in order; a group that took no part in the
match has the empty string as its `str()`. -/
structure Match where
  full : List Char
  groups : List (List Char)
  deriving Repr, DecidableEq

/-- The member `size()` of a match: the number of marked groups plus one. -/
def Match.size (m : Match) : Nat := m.groups.length + 1

/-- The range `begin() .. end()` of a match: all sub-matches, the full match first. -/
def Match.subs (m : Match) : List (List Char) := m.full :: m.groups

/-- The regex engine. `compile` is the constructor `std::regex(pattern, optimize)`,
`none` when it throws `std::regex_error`; `findAll re str` lists the matches an
`sregex_iterator` over `str` steps through before it equals the end iterator. -/
structure RegexLib where
  Regex : Type
  compile : List Char → Option Regex
  findAll : Regex → List Char → List Match

/-- The call `std::regex_search(str, r)`: whether a first match exists. An
`sregex_iterator` is constructed by that same search and equals the end iterator
exactly when the search fails. -/
def regex_search (lib : RegexLib) (re : lib.Regex) (str : List Char) : Bool :=
  !(lib.findAll re str).isEmpty

/-- The function-local `static std::unordered_map<std::string, std::regex> _cache`. -/
abbrev RegexCache (lib : RegexLib) : Type := List (List Char × lib.Regex)

/-- The lookup `_cache.find(regex)` followed, when the pattern is absent, by the
construction of the regex and its insertion: the regex used and the cache after. -/
def cacheGet (lib : RegexLib) (cache : RegexCache lib) (regex : List Char) :
    Res (lib.Regex × RegexCache lib) :=
  match cache.lookup regex with
  | some re => .ok (re, cache)
  | none =>
    match lib.compile regex with
    | some re => .ok (re, (regex, re) :: cache)
    | none => .error "regex_error"

/-- Every cached regex is the one compiled from its key. -/
def RegexCache.Valid (lib : RegexLib) (cache : RegexCache lib) : Prop :=
  ∀ key re, cache.lookup key = some re → lib.compile key = some re

/-- The inner loop `while (subi != sube)` of `grep` over the sub-matches left. -/
def grepSubLoop (v : List (List Char)) : List (List Char) → List (List Char)
  | [] => v
  | sub :: rest => grepSubLoop (v ++ [sub]) rest

/-- The loop `while (iter != end)` of `grep` over the matches left. -/
def grepLoop (v : List (List Char)) : List Match → List (List Char)
  | [] => v
  | m :: rest =>
    let v1 :=
      if m.size = 1 then v ++ [m.full]
      else if m.size > 1 then grepSubLoop v (m.subs.drop 1)
      else v
    grepLoop v1 rest

/-- The function `grep`: the array written to `out` and the cache after the call. -/
def grep (lib : RegexLib) (cache : RegexCache lib) (str regex : List Char) :
    Res (List (List Char) × RegexCache lib) :=
  (cacheGet lib cache regex).bind fun (re, cache1) =>
    .ok (grepLoop [] (lib.findAll re str), cache1)

/-- The function `grepif`: the number written to `out` and the cache after the call. -/
def grepif (lib : RegexLib) (cache : RegexCache lib) (str regex : List Char) :
    Res (Nat × RegexCache lib) :=
  (cacheGet lib cache regex).bind fun (re, cache1) =>
    let found := regex_search lib re str
    .ok (if found then 1 else 0, cache1)

/-- What `grep` is specified to write for one match: the full match when the regex
has no capture group, the capture groups in order otherwise. -/
def grepYield (m : Match) : List (List Char) :=
  if m.groups = [] then [m.full] else m.groups

/-- A regex engine that knows the pattern `([a-z])=([0-9])` only and reports for it, on
the subject `x=1 y=2`, the two matches `x=1` and `y=2` with their two groups each. -/
def scenarioLib : RegexLib where
  Regex := Unit
  compile := fun pattern => if pattern = "([a-z])=([0-9])".toList then some () else none
  findAll := fun _ str =>
    if str = "x=1 y=2".toList then
      [{ full := "x=1".toList, groups := ["x".toList, "1".toList] },
       { full := "y=2".toList, groups := ["y".toList, "2".toList] }]
    else []

/-! ## Object model and commands (src/exec.h) -/

/-- An object pointer `obj::Object*`: the index of a heap cell, or the null pointer. -/
abbrev Ptr := Option Nat

/-- Modelled from the spec: the tags of a `Type`, "tag in {ATOM, INT, UINT, REAL, STRING,
TUP, ARR, MAP, SEQ, NONE}". -/
inductive Tag where
  | ATOM | INT | UINT | REAL | STRING | TUP | ARR | MAP | SEQ | NONE
  deriving Repr, DecidableEq

/-- Modelled from the spec: the class `Type`, "a tagged value" with "an ordered sequence
of child Types". -/
inductive TabType where
  | mk (tag : Tag) (children : List TabType)

/-- Modelled from the spec: the class `Atom` of the immediate `Command::arg`, "one of
{INT i64, UINT u64, REAL f64, STRING interned-id}", with the field names `inte`, `uint`,
`real`, `str` that `execute_init` reads. -/
inductive Atom where
  | INT (inte : Int)
  | UINT (uint : Nat)
  | REAL (real : Float)
  | STRING (str : Nat)

/-- The opcodes `Command::VAL`, `Command::VAW`, ... that the `switch` statements of
`execute_init` and `execute_run` name. -/
inductive Opcode where
  | VAL | VAW | VAR | FUN | IDX | TUP | SEQ | GEN | ARR | MAP | FLAT
  | EXP | MUL_R | DIV_R | ADD_R | SUB_R
  | MUL_I | DIV_I | MOD | ADD_I | SUB_I
  | NOT | AND | OR | XOR
  | I2R_1 | I2R_2 | U2R_1 | U2R_2
  deriving Repr, DecidableEq

mutual
/-- The record `Command` with the fields that `exec.h` reads and writes: `cmd`, `arg`,
`type`, `closure`, `object` and `function` (here the number of a native callable). -/
inductive Command where
  | mk (cmd : Opcode) (arg : Atom) (type : TabType) (closure : List Closure)
      (object : Ptr) (function : Nat)
/-- The record `Command::Closure` with its fields `code` and `type`. -/
inductive Closure where
  | mk (code : List Command) (type : TabType)
end

def Command.cmd : Command → Opcode | .mk c _ _ _ _ _ => c
def Command.arg : Command → Atom | .mk _ a _ _ _ _ => a
def Command.type : Command → TabType | .mk _ _ t _ _ _ => t
def Command.closure : Command → List Closure | .mk _ _ _ cl _ _ => cl
def Command.object : Command → Ptr | .mk _ _ _ _ o _ => o
def Command.function : Command → Nat | .mk _ _ _ _ _ f => f
def Closure.code : Closure → List Command | .mk c _ => c
def Closure.type : Closure → TabType | .mk _ t => t

/-- Modelled from the spec: which sequencer class a sequencer object is, `Sequencer`
itself or one of `SequencerFlatten` and `SequencerFile`, which `exec.h` casts to
`Sequencer` as well. -/
inductive SeqKind where
  | plain | flatten | file
  deriving Repr, DecidableEq

/-- The producer `Sequencer::v`, "a producer function of signature (holder, &ok) ->
Object", by cases on where it was made. `gen` is the lambda built by `GEN` in
`execute_run`, with its captures `seq`, `c` (of which it reads `c.arg`; `owner` is
`c.object`, kept to name the closure in the trace) and `closure0`; the capture `r` is
the runtime the producer is run in. The other producers belong to the object model:
`empty` is the producer of a sequencer that has none yet, `iter` steps through the
cells of the elements left, `flatten` through the elements of the sequencers that an
outer sequencer yields. -/
inductive Producer where
  | empty
  | gen (seq : Nat) (arg : Atom) (owner : Ptr) (closure0 : Closure)
  | iter (rest : List Nat)
  | flatten (outer : Ptr) (inner : Ptr)

/-- Modelled from the spec: the runtime values `obj::Object`, one heap cell each: `Int`,
`UInt`, `Real`, `String`, `Tuple` ("ordered list of child Object references"), `Array`
and `Map` (the cells of their elements), and the sequencers ("a producer closure plus
a holder cell"). -/
inductive Obj where
  | int (v : Int)
  | uint (v : Nat)
  | real (v : Float)
  | str (v : List Char)
  | tuple (fields : List Ptr)
  | arr (elems : List Nat)
  | map (entries : List (Nat × Nat))
  | seq (kind : SeqKind) (holder : Ptr) (v : Producer)

/-- The objects that pointers refer to, by cell index. -/
abbrev Heap := List Obj

/-- What is observed of a run: calls of `Sequencer::next` on the sequencer in a given
cell, calls of `_exec_closure` on closure `idx` of the command whose result object is
`owner`, and removals of operands from the stack (`pop_back`, or the consumption of
its fields by a tuple) that leave the stack at a given height. -/
inductive Event where
  | next (seq : Nat)
  | closure (owner : Ptr) (idx : Nat)
  | pop (height : Nat)
  deriving Repr, DecidableEq

/-- The struct `Runtime` (`vars`, `stack`; the top of the stack is the last element),
together with the heap its pointers point into and the trace of events so far. -/
structure Runtime where
  vars : List Ptr
  stack : List Ptr
  heap : Heap
  trace : List Event

/-- The part of the object model that `execute_init` and `execute_run` call into, that
is not part of the sources at hand and that enters as a parameter: `obj::make(type)`,
the virtual `index(type, key, out)`, the native callables behind `Command::function`,
and the string interner `strings().get(id)`. -/
structure ObjModel where
  make : TabType → Heap → Ptr × Heap
  index : TabType → Heap → Ptr → Ptr → Ptr → Res Heap
  call : Nat → Heap → Ptr → Ptr → Res Heap
  strings : Nat → List Char

/-- The member `Runtime::set_var`. -/
def Runtime.set_var (r : Runtime) (ix : Nat) (o : Ptr) : Res Runtime :=
  if ix < r.vars.length then .ok { r with vars := r.vars.set ix o } else .ub

/-- The member `Runtime::get_var`. -/
def Runtime.get_var (r : Runtime) (ix : Nat) : Res Ptr :=
  match r.vars[ix]? with
  | some p => .ok p
  | none => .ub

/-- The call `r.stack.back()`. -/
def Runtime.back (r : Runtime) : Res Ptr :=
  match r.stack.getLast? with
  | some p => .ok p
  | none => .ub

/-- The call `r.stack.pop_back()`. -/
def Runtime.pop_back (r : Runtime) : Res Runtime :=
  if r.stack = [] then .ub
  else .ok { r with stack := r.stack.dropLast,
                    trace := r.trace ++ [.pop (r.stack.length - 1)] }

/-- The call `r.stack.push_back(p)`. -/
def Runtime.push_back (r : Runtime) (p : Ptr) : Runtime :=
  { r with stack := r.stack ++ [p] }

/-- Appending an event to the trace. -/
def Runtime.log (r : Runtime) (e : Event) : Runtime :=
  { r with trace := r.trace ++ [e] }

/-- Overwriting the object in cell `n`. -/
def Runtime.store (r : Runtime) (n : Nat) (o : Obj) : Runtime :=
  { r with heap := r.heap.set n o }

/-- The field `arg.uint` of an immediate. -/
def Atom.asUInt : Atom → Res Nat
  | .UINT u => .ok u
  | _ => .ub

/-- The cast `obj::get<obj::Int>(p)`: the cell and the value `v` in it. -/
def getInt (heap : Heap) (p : Ptr) : Res (Nat × Int) :=
  match p with
  | some n => match heap[n]? with
    | some (.int v) => .ok (n, v)
    | _ => .ub
  | none => .ub

/-- The cast `obj::get<obj::UInt>(p)`. -/
def getUInt (heap : Heap) (p : Ptr) : Res (Nat × Nat) :=
  match p with
  | some n => match heap[n]? with
    | some (.uint v) => .ok (n, v)
    | _ => .ub
  | none => .ub

/-- The cast `obj::get<obj::Real>(p)`. -/
def getReal (heap : Heap) (p : Ptr) : Res (Nat × Float) :=
  match p with
  | some n => match heap[n]? with
    | some (.real v) => .ok (n, v)
    | _ => .ub
  | none => .ub

/-- The cast `obj::get<obj::Sequencer>(p)`: the cell, which holds a sequencer of any
of the three classes. -/
def getSequencer (heap : Heap) (p : Ptr) : Res Nat :=
  match p with
  | some n => match heap[n]? with
    | some (.seq _ _ _) => .ok n
    | _ => .ub
  | none => .ub

/-- The cast `obj::get<obj::SequencerFlatten>(p)`. -/
def getSequencerFlatten (heap : Heap) (p : Ptr) : Res Nat :=
  match p with
  | some n => match heap[n]? with
    | some (.seq .flatten _ _) => .ok n
    | _ => .ub
  | none => .ub

/-- Reduction of an integer to the range of a signed 64-bit value. -/
def wrap64 (x : Int) : Int := (x + 2 ^ 63) % 2 ^ 64 - 2 ^ 63

/-- The interpreter functions that a piece of the interpreter re-enters: `execute_run`
on a closure block, the producer `v(holder, ok)` of the sequencer in a cell, and
the rest of the drain loop of `fill`. -/
structure Sem where
  run : List Command → Runtime → Res Runtime
  produce : Nat → Runtime → Res (Runtime × Ptr × Bool)
  fill : Nat → List Nat → Runtime → Res (Runtime × List Nat)

/-- Modelled from the spec: the member `Sequencer::next(ok)`, which is missing from the
sources. It "returns the next element or sets ok=false" by calling the producer; the
result is the runtime after, the pointer returned and the value of `ok`. -/
def Sem.next (rec : Sem) (n : Nat) (r : Runtime) : Res (Runtime × Ptr × Bool) :=
  rec.produce n (r.log (.next n))

/-- The function `_exec_closure`, on closure `idx` of the command with result object
`owner`. -/
def _exec_closure (run : List Command → Runtime → Res Runtime) (owner : Ptr) (idx : Nat)
    (r : Runtime) (closure : Closure) : Res (Runtime × Ptr) :=
  let mark := r.stack.length
  (run closure.code (r.log (.closure owner idx))).bind fun r1 =>
    r1.back.bind fun o =>
      if mark ≤ r1.stack.length then .ok ({ r1 with stack := r1.stack.take mark }, o)
      else .ub

/-- The lambda that `GEN` assigns to `dst.v` in `execute_run`: `seq.next(ok)`, then
`r.set_var(c.arg.uint, next)`, then `_exec_closure(r, closure0)`, whose value is
returned; `ok` is what the call of `seq.next` left in it. -/
def genLambda (rec : Sem) (seq : Nat) (arg : Atom) (owner : Ptr) (closure0 : Closure)
    (r : Runtime) : Res (Runtime × Ptr × Bool) :=
  (rec.next seq r).bind fun (r1, next, ok) =>
    arg.asUInt.bind fun slot =>
      (r1.set_var slot next).bind fun r2 =>
        (_exec_closure rec.run owner 0 r2 closure0).bind fun (r3, val) =>
          .ok (r3, val, ok)

/-- Modelled from the spec: the call `v(holder, ok)` of the producer of the sequencer in
cell `n`. A generator runs its lambda. Of the producers of the object model, `iter`
yields the cells of the elements left one by one (the elements of a wrapped
container, the lines of the input), `flatten` advances "the inner until exhausted and
then" pulls "the next inner"; "when no more elements exist, the producer sets
ok=false". -/
def produce (rec : Sem) (n : Nat) (r : Runtime) : Res (Runtime × Ptr × Bool) :=
  match r.heap[n]? with
  | some (.seq kind holder p) =>
    match p with
    | .empty => .error "bad_function_call"
    | .gen seq arg owner closure0 => genLambda rec seq arg owner closure0 r
    | .iter [] => .ok (r, holder, false)
    | .iter (x :: rest) => .ok (r.store n (.seq kind holder (.iter rest)), some x, true)
    | .flatten outer none =>
      match outer with
      | some o =>
        (rec.next o r).bind fun (r1, inner, ok) =>
          if ok then rec.produce n (r1.store n (.seq kind holder (.flatten outer inner)))
          else .ok (r1, holder, false)
      | none => .ub
    | .flatten outer (some i) =>
      (rec.next i r).bind fun (r1, x, ok) =>
        if ok then .ok (r1, x, true)
        else rec.produce n (r1.store n (.seq kind holder (.flatten outer none)))
  | _ => .ub

/-- Modelled from the spec: one round of the loop of `fill(seq)`, which "drains the
sequencer and populates the container": call `next`; when `ok` is false the loop is
left with the element cells collected, otherwise the element is copied into a cell
of its own and the loop goes on. -/
def fillLoop (rec : Sem) (seq : Nat) (acc : List Nat) (r : Runtime) :
    Res (Runtime × List Nat) :=
  (rec.next seq r).bind fun (r1, x, ok) =>
    if ok then
      match x.bind (fun n => r1.heap[n]?) with
      | some o => rec.fill seq (acc ++ [r1.heap.length]) { r1 with heap := r1.heap ++ [o] }
      | none => .ub
    else .ok (r1, acc)

/-- Modelled from the spec: the virtual `dst->fill(seq)` of arrays and maps. A map takes
each element as a pair of a key and a value. -/
def fill (rec : Sem) (dst : Ptr) (seq : Nat) (r : Runtime) : Res Runtime :=
  match dst with
  | some d =>
    match r.heap[d]? with
    | some (.arr _) =>
      (fillLoop rec seq [] r).bind fun (r1, cells) => .ok (r1.store d (.arr cells))
    | some (.map _) =>
      (fillLoop rec seq [] r).bind fun (r1, cells) =>
        let pairs : List (Nat × Nat) := cells.filterMap fun (c : Nat) =>
          match r1.heap[c]? with
          | some (Obj.tuple [some k, some v]) => some (k, v)
          | _ => none
        if pairs.length = cells.length then .ok (r1.store d (.map pairs)) else .ub
    | _ => .ub
  | none => .ub

/-- Modelled from the spec: `Sequencer::wrap(source)`, which "adopts a source": the
sequencer in cell `n` is set to step through the elements of the container. -/
def wrap (n : Nat) (src : Ptr) (r : Runtime) : Res Runtime :=
  match r.heap[n]?, src.bind (fun s => r.heap[s]?) with
  | some (.seq kind holder _), some (.arr elems) =>
    .ok (r.store n (.seq kind holder (.iter elems)))
  | some (.seq kind holder _), some (.map entries) =>
    let cells := List.range' r.heap.length entries.length
    let pairs : List Obj := entries.map fun kv => Obj.tuple [some kv.1, some kv.2]
    .ok (Runtime.store { r with heap := r.heap ++ pairs } n (.seq kind holder (.iter cells)))
  | _, _ => .ub

/-- Modelled from the spec: `Tuple::set(stack)`, which "consumes exactly the top-N
elements whose count equals the tuple's field count", the fields read "in push
order". -/
def tupleSet (o : Ptr) (r : Runtime) : Res Runtime :=
  match o with
  | some n =>
    match r.heap[n]? with
    | some (.tuple fields) =>
      let k := fields.length
      if k ≤ r.stack.length then
        .ok (Runtime.store
          { r with stack := r.stack.take (r.stack.length - k),
                   trace := r.trace ++ [.pop (r.stack.length - k)] } n
          (.tuple (r.stack.drop (r.stack.length - k))))
      else .ub
    | _ => .ub
  | none => .ub

/-- The shared shape of the binary operators on `Int`: `a` is read from the top of
the stack and popped, `b` is the new top, and `b.v` is overwritten with the result. -/
def binInt (op : Int → Int → Res Int) (r : Runtime) : Res Runtime :=
  r.back.bind fun pa =>
    (getInt r.heap pa).bind fun (_, a) =>
      r.pop_back.bind fun r1 =>
        r1.back.bind fun pb =>
          (getInt r1.heap pb).bind fun (nb, b) =>
            (op b a).bind fun v => .ok (r1.store nb (.int v))

/-- The shared shape of the binary operators on `Real`. -/
def binReal (op : Float → Float → Float) (r : Runtime) : Res Runtime :=
  r.back.bind fun pa =>
    (getReal r.heap pa).bind fun (_, a) =>
      r.pop_back.bind fun r1 =>
        r1.back.bind fun pb =>
          (getReal r1.heap pb).bind fun (nb, b) =>
            .ok (r1.store nb (.real (op b a)))

/-- Signed 64-bit division `b / a`: a zero divisor, and the quotient of the least
value by `-1`, are undefined in C++ and trap on the usual hardware. -/
def divInt (b a : Int) : Res Int :=
  if a = 0 then .ub
  else if b = -(2 ^ 63) ∧ a = -1 then .ub
  else .ok (Int.tdiv b a)

/-- Signed 64-bit remainder `b % a`, undefined where the division is. -/
def modInt (b a : Int) : Res Int :=
  if a = 0 then .ub
  else if b = -(2 ^ 63) ∧ a = -1 then .ub
  else .ok (Int.tmod b a)

/-- The storing of a converted number into the `Real` result cell of the command. -/
def storeReal (object : Ptr) (v : Float) (r : Runtime) : Res Runtime :=
  (getReal r.heap object).bind fun (nb, _) => .ok (r.store nb (.real v))

/-- One pass through the `switch` in the loop of `execute_run`, for the command `c`. -/
def step (M : ObjModel) (rec : Sem) (c : Command) (r : Runtime) : Res Runtime :=
  match c.cmd with
  | .FUN =>
    match c.closure[0]? with
    | some closure =>
      (_exec_closure rec.run c.object 0 r closure).bind fun (r1, arg) =>
        (M.call c.function r1.heap arg c.object).bind fun heap =>
          .ok (Runtime.push_back { r1 with heap := heap } c.object)
    | none => .ub
  | .VAR =>
    c.arg.asUInt.bind fun ix => (r.get_var ix).bind fun p => .ok (r.push_back p)
  | .VAW =>
    c.arg.asUInt.bind fun ix =>
      r.back.bind fun p => (r.set_var ix p).bind fun r1 => r1.pop_back
  | .VAL => .ok (r.push_back c.object)
  | .IDX =>
    match c.closure[0]? with
    | some closure =>
      (_exec_closure rec.run c.object 0 r closure).bind fun (r1, key) =>
        r1.back.bind fun cont =>
          (M.index closure.type r1.heap cont key c.object).bind fun heap =>
            (Runtime.pop_back { r1 with heap := heap }).bind fun r2 =>
              .ok (r2.push_back c.object)
    | none => .ub
  | .TUP => (tupleSet c.object r).bind fun r1 => .ok (r1.push_back c.object)
  | .SEQ =>
    r.back.bind fun src =>
      r.pop_back.bind fun r1 =>
        (getSequencer r1.heap c.object).bind fun n =>
          (wrap n src r1).bind fun r2 => .ok (r2.push_back c.object)
  | .GEN =>
    match c.closure[1]?, c.closure[0]? with
    | some closure1, some closure0 =>
      (_exec_closure rec.run c.object 1 r closure1).bind fun (r1, p) =>
        (getSequencer r1.heap p).bind fun seq =>
          (getSequencer r1.heap c.object).bind fun dst =>
            match r1.heap[dst]? with
            | some (.seq kind holder _) =>
              .ok ((r1.store dst
                (.seq kind holder (.gen seq c.arg c.object closure0))).push_back c.object)
            | _ => .ub
    | _, _ => .ub
  | .ARR =>
    r.back.bind fun p =>
      (getSequencer r.heap p).bind fun seq =>
        r.pop_back.bind fun r1 =>
          (fill rec c.object seq r1).bind fun r2 => .ok (r2.push_back c.object)
  | .MAP =>
    r.back.bind fun p =>
      (getSequencer r.heap p).bind fun seq =>
        r.pop_back.bind fun r1 =>
          (fill rec c.object seq r1).bind fun r2 => .ok (r2.push_back c.object)
  | .FLAT =>
    r.back.bind fun p =>
      (getSequencer r.heap p).bind fun seq =>
        r.pop_back.bind fun r1 =>
          (getSequencerFlatten r1.heap c.object).bind fun f =>
            match r1.heap[f]? with
            | some (.seq kind holder _) =>
              .ok ((r1.store f
                (.seq kind holder (.flatten (some seq) none))).push_back c.object)
            | _ => .ub
  | .EXP => binReal Float.pow r
  | .MUL_R => binReal (· * ·) r
  | .MUL_I => binInt (fun b a => .ok (wrap64 (b * a))) r
  | .DIV_R => binReal (· / ·) r
  | .DIV_I => binInt divInt r
  | .MOD => binInt modInt r
  | .ADD_R => binReal (· + ·) r
  | .ADD_I => binInt (fun b a => .ok (wrap64 (b + a))) r
  | .SUB_R => binReal (· - ·) r
  | .SUB_I => binInt (fun b a => .ok (wrap64 (b - a))) r
  | .I2R_1 =>
    r.back.bind fun pa =>
      (getInt r.heap pa).bind fun (_, a) =>
        r.pop_back.bind fun r1 =>
          (storeReal c.object (Float.ofInt a) r1).bind fun r2 => .ok (r2.push_back c.object)
  | .I2R_2 =>
    r.back.bind fun x =>
      r.pop_back.bind fun r0 =>
        r0.back.bind fun pa =>
          (getInt r0.heap pa).bind fun (_, a) =>
            r0.pop_back.bind fun r1 =>
              (storeReal c.object (Float.ofInt a) r1).bind fun r2 =>
                .ok ((r2.push_back c.object).push_back x)
  | .U2R_1 =>
    r.back.bind fun pa =>
      (getUInt r.heap pa).bind fun (_, a) =>
        r.pop_back.bind fun r1 =>
          (storeReal c.object (Float.ofNat a) r1).bind fun r2 => .ok (r2.push_back c.object)
  | .U2R_2 =>
    r.back.bind fun x =>
      r.pop_back.bind fun r0 =>
        r0.back.bind fun pa =>
          (getUInt r0.heap pa).bind fun (_, a) =>
            r0.pop_back.bind fun r1 =>
              (storeReal c.object (Float.ofNat a) r1).bind fun r2 =>
                .ok ((r2.push_back c.object).push_back x)
  | .NOT =>
    r.back.bind fun p =>
      (getInt r.heap p).bind fun (n, v) => .ok (r.store n (.int (Int.not v)))
  | .AND => binInt (fun b a => .ok (Int.land b a)) r
  | .OR => binInt (fun b a => .ok (Int.lor b a)) r
  | .XOR => binInt (fun b a => .ok (Int.xor b a)) r

/-- The loop `for (Command& c : commands)` of `execute_run`. -/
def runLoop (M : ObjModel) (rec : Sem) : List Command → Runtime → Res Runtime
  | [], r => .ok r
  | c :: rest, r => (step M rec c r).bind (runLoop M rec rest)

/-- The interpreter with `fuel` levels of re-entry left: level 0 does not return, and
level `fuel + 1` runs its own loops and re-enters at level `fuel`. -/
def sem (M : ObjModel) : Nat → Sem
  | 0 => { run := fun _ _ => .timeout, produce := fun _ _ => .timeout,
           fill := fun _ _ _ => .timeout }
  | fuel + 1 =>
    { run := runLoop M (sem M fuel), produce := produce (sem M fuel),
      fill := fillLoop (sem M fuel) }

/-- The function `execute_run`. -/
def execute_run (M : ObjModel) (fuel : Nat) (commands : List Command) (r : Runtime) :
    Res Runtime :=
  (sem M fuel).run commands r


/-! ## The init pass and `execute` (src/exec.h) -/

/-- The expression `new T(...)`: the object goes into a cell of its own at the end of
the heap. -/
def alloc (heap : Heap) (o : Obj) : Ptr × Heap := (some heap.length, heap ++ [o])

/-- The object that `VAL` allocates for the literal in `arg`: `new obj::String(
strings().get(c.arg.str))`, `new obj::Int(c.arg.inte)`, `new obj::UInt(c.arg.uint)` or
`new obj::Real(c.arg.real)`. -/
def literalObj (M : ObjModel) : Atom → Obj
  | .STRING str => .str (M.strings str)
  | .INT inte => .int inte
  | .UINT uint => .uint uint
  | .REAL real => .real real

mutual
/-- The function `execute_init`: the commands with their `object` fields filled in, and
the heap with the objects allocated. -/
def execute_init (M : ObjModel) : List Command → Heap → List Command × Heap
  | [], heap => ([], heap)
  | c :: rest, heap =>
    let (c1, heap1) := initCommand M c heap
    let (rest1, heap2) := execute_init M rest heap1
    (c1 :: rest1, heap2)
/-- The body of the loop `for (auto& c : commands)` of `execute_init`: the closure
blocks first, then the `switch` on `c.cmd`. The constructor `SequencerFlatten(c.type)`
is modelled from the spec: "FLAT allocates a SequencerFlatten". -/
def initCommand (M : ObjModel) : Command → Heap → Command × Heap
  | .mk cmd arg type closure object function, heap =>
    let (closure1, heap1) := initClosures M closure heap
    match cmd with
    | .VAL =>
      let (p, heap2) := alloc heap1 (literalObj M arg)
      (.mk cmd arg type closure1 p function, heap2)
    | .VAW => (.mk cmd arg type closure1 object function, heap1)
    | .FLAT =>
      let (p, heap2) := alloc heap1 (.seq .flatten none .empty)
      (.mk cmd arg type closure1 p function, heap2)
    | _ =>
      let (p, heap2) := M.make type heap1
      (.mk cmd arg type closure1 p function, heap2)
/-- The loop `for (auto& cloptr : c.closure)` of `execute_init`. -/
def initClosures (M : ObjModel) : List Closure → Heap → List Closure × Heap
  | [], heap => ([], heap)
  | .mk code type :: rest, heap =>
    let (code1, heap1) := execute_init M code heap
    let (rest1, heap2) := initClosures M rest heap1
    (.mk code1 type :: rest1, heap2)
end

/-- Modelled from the spec: `new obj::SequencerFile(inputs)`, which "emits one String
per input line until EOF": the lines of the input, one `String` cell each, and the
sequencer that steps through them. -/
def newSequencerFile (inputs : List (List Char)) (heap : Heap) : Ptr × Heap :=
  alloc (heap ++ inputs.map Obj.str)
    (.seq .file none (.iter (List.range' heap.length inputs.length)))

/-- The first part of `execute`: the runtime with `nvars` variables, the top-level
sequencer over the input in variable 0, and the init pass. -/
def executeSetup (M : ObjModel) (commands : List Command) (nvars : Nat)
    (inputs : List (List Char)) : Res (List Command × Runtime) :=
  let rt : Runtime := { vars := List.replicate nvars none, stack := [], heap := [], trace := [] }
  let (toplevel, heap0) := newSequencerFile inputs rt.heap
  (Runtime.set_var { rt with heap := heap0 } 0 toplevel).bind fun rt1 =>
    let (commands1, heap1) := execute_init M commands rt1.heap
    .ok (commands1, { rt1 with heap := heap1 })

/-- The function `execute`: what is written to standard output. `print` stands for the
virtual `Object::print` of the object model, which is not part of the sources at
hand; the parameter `type` is not used by the source either. -/
def execute (M : ObjModel) (print : Heap → Nat → List Char) (fuel : Nat)
    (commands : List Command) (_type : TabType) (nvars : Nat) (inputs : List (List Char)) :
    Res (List Char) :=
  (executeSetup M commands nvars inputs).bind fun (commands1, rt) =>
    (execute_run M fuel commands1 rt).bind fun rt2 =>
      if rt2.stack.length ≠ 1 then .error "Sanity error: did not produce result"
      else
        match rt2.stack[0]? with
        | some (some res) => .ok (print rt2.heap res ++ ['\n'])
        | _ => .ub

mutual
/-- The property `P` holds of every command of the sequence and of every command in
the closure blocks of these, recursively. -/
def AllCommands (P : Command → Prop) : List Command → Prop
  | [] => True
  | c :: rest => AllCommand P c ∧ AllCommands P rest
/-- The property `P` holds of the command and of every command nested in it. -/
def AllCommand (P : Command → Prop) : Command → Prop
  | .mk cmd arg type closure object function =>
    P (.mk cmd arg type closure object function) ∧ AllClosures P closure
/-- The property `P` holds of every command in the closure blocks. -/
def AllClosures (P : Command → Prop) : List Closure → Prop
  | [] => True
  | .mk code _ :: rest => AllCommands P code ∧ AllClosures P rest
end

mutual
/-- The command sequence with every `object` field cleared: what is left are the
opcodes, the immediates, the types, the functions and the nesting of the closures. -/
def stripCommands : List Command → List Command
  | [] => []
  | c :: rest => stripCommand c :: stripCommands rest
/-- The command with its `object` field, and those nested in it, cleared. -/
def stripCommand : Command → Command
  | .mk cmd arg type closure _ function => .mk cmd arg type (stripClosures closure) none function
/-- The closure blocks with every `object` field cleared. -/
def stripClosures : List Closure → List Closure
  | [] => []
  | .mk code type :: rest => .mk (stripCommands code) type :: stripClosures rest
end

/-- What the init pass is to have done for a command, read in the heap `heap`: a `VAW`
has no object; a `VAL` has a cell that holds its literal; a `FLAT` has a cell that
holds a `SequencerFlatten`; every other command has the object that `obj::make` gave
for its type, made on a heap `pre` that the heap `heap` extends. -/
def Inited (M : ObjModel) (heap : Heap) (c : Command) : Prop :=
  match c.cmd with
  | .VAW => c.object = none
  | .VAL => ∃ n, c.object = some n ∧ heap[n]? = some (literalObj M c.arg)
  | .FLAT => ∃ n, c.object = some n ∧ heap[n]? = some (.seq .flatten none .empty)
  | _ => ∃ pre, c.object = (M.make c.type pre).1 ∧ (M.make c.type pre).2 <+: heap

/-! ## The command line (src/tab.cc) -/

/-- The variables `debuglevel`, `program` and `infile` of `main`. -/
structure CmdLine where
  debuglevel : Nat
  program : List Char
  infile : List Char
  deriving Repr, DecidableEq

/-- The loop `for (int i = 1; i < argc; ++i)` of `main`, over the arguments from
`argv[i]` on. -/
def argLoop : List (List Char) → CmdLine → Res CmdLine
  | [], st => .ok st
  | [arg], st =>
    if arg = "-v".toList then .ok { st with debuglevel := 1 }
    else if arg = "-vv".toList then .ok { st with debuglevel := 2 }
    else if arg = "-vvv".toList then .ok { st with debuglevel := 3 }
    else if arg = "-f".toList then
      .error "The '-f' command line argument expects a filename argument."
    else
      let program := if st.program.length > 0 then st.program ++ [' '] else st.program
      .ok { st with program := program ++ arg }
  | arg :: next :: rest, st =>
    if arg = "-v".toList then argLoop (next :: rest) { st with debuglevel := 1 }
    else if arg = "-vv".toList then argLoop (next :: rest) { st with debuglevel := 2 }
    else if arg = "-vvv".toList then argLoop (next :: rest) { st with debuglevel := 3 }
    else if arg = "-f".toList then argLoop rest { st with infile := next }
    else
      let program := if st.program.length > 0 then st.program ++ [' '] else st.program
      argLoop (next :: rest) { st with program := program ++ arg }

/-- The part of `main` up to the call of `parse`: the values of `debuglevel`, `program`
and `infile`; `argv` is the whole argument vector, the name of the executable
first. -/
def commandLine (argv : List (List Char)) : Res CmdLine :=
  if argv.length < 2 then .error "Usage: <expression>"
  else argLoop (argv.drop 1) { debuglevel := 0, program := [], infile := [] }

/-- The positional arguments in the words of the spec: all arguments other than `-v`,
`-vv`, `-vvv`, and `-f` together with the filename that follows it. -/
def positional : List (List Char) → List (List Char)
  | [] => []
  | [arg] =>
    if arg = "-v".toList ∨ arg = "-vv".toList ∨ arg = "-vvv".toList ∨ arg = "-f".toList
    then [] else [arg]
  | arg :: next :: rest =>
    if arg = "-v".toList ∨ arg = "-vv".toList ∨ arg = "-vvv".toList
    then positional (next :: rest)
    else if arg = "-f".toList then positional rest
    else arg :: positional (next :: rest)

/-- The text that the loop of `main` builds when the arguments `xs` are appended to
the text `text` one after the other: a space goes in front of an argument when the
text so far is not empty. -/
def appendArgs (text : List Char) (xs : List (List Char)) : List Char :=
  xs.foldl (fun acc a => (if acc.length > 0 then acc ++ [' '] else acc) ++ a) text

/-! ## Integer operators in the words of the spec -/

/-- The value `L op R` of a binary integer operator on 64-bit signed operands, left
operand first, where the machine defines one: sums, differences and products wrap
around, quotient and remainder truncate and have no value for a zero divisor or for
the least value divided by `-1`. -/
def intResult (op : Opcode) (L R : Int) : Option Int :=
  match op with
  | .ADD_I => some (wrap64 (L + R))
  | .SUB_I => some (wrap64 (L - R))
  | .MUL_I => some (wrap64 (L * R))
  | .DIV_I => if R = 0 ∨ (L = -(2 ^ 63) ∧ R = -1) then none else some (Int.tdiv L R)
  | .MOD => if R = 0 ∨ (L = -(2 ^ 63) ∧ R = -1) then none else some (Int.tmod L R)
  | .AND => some (Int.land L R)
  | .OR => some (Int.lor L R)
  | .XOR => some (Int.xor L R)
  | _ => none

/-! ## What a step needs to run to its end -/

/-- The pointer refers to an `Int`. -/
def IsInt (heap : Heap) (p : Ptr) : Prop := ∃ n v, p = some n ∧ heap[n]? = some (.int v)

/-- The pointer refers to a `UInt`. -/
def IsUInt (heap : Heap) (p : Ptr) : Prop := ∃ n v, p = some n ∧ heap[n]? = some (.uint v)

/-- The pointer refers to a `Real`. -/
def IsReal (heap : Heap) (p : Ptr) : Prop := ∃ n v, p = some n ∧ heap[n]? = some (.real v)

/-- The pointer refers to a sequencer, of any of the three classes. -/
def IsSeq (heap : Heap) (p : Ptr) : Prop :=
  ∃ n kind holder v, p = some n ∧ heap[n]? = some (.seq kind holder v)

/-- The pointer refers to a `SequencerFlatten`. -/
def IsFlatten (heap : Heap) (p : Ptr) : Prop :=
  ∃ n holder v, p = some n ∧ heap[n]? = some (.seq .flatten holder v)

/-- The pointer refers to an array or a map, the sources that a sequencer wraps. -/
def IsContainer (heap : Heap) (p : Ptr) : Prop :=
  ∃ n, p = some n ∧ ((∃ elems, heap[n]? = some (.arr elems)) ∨
    (∃ entries, heap[n]? = some (.map entries)))

/-- What the case of the command `c` in `execute_run` needs of the runtime `r` to run to
its end. The stack holds the operands that the case reads, of the variants that it
casts them to; the variable slot of `VAR` and `VAW` exists; the result cell of the
command is of the variant that the case casts it to; the division of `DIV_I` and `MOD`
is defined; and what the case hands control to returns: the closure block and the
native callable of `FUN`, the closure block and `index` of `IDX`, the source block of
`GEN`, the drain of the sequencer by `fill` for `ARR` and `MAP`. -/
def Ready (M : ObjModel) (rec : Sem) (c : Command) (r : Runtime) : Prop :=
  match c.cmd with
  | .VAL => True
  | .VAR => ∃ ix, c.arg = .UINT ix ∧ ix < r.vars.length
  | .VAW => ∃ ix, c.arg = .UINT ix ∧ ix < r.vars.length ∧ r.stack ≠ []
  | .TUP => ∃ n fields, c.object = some n ∧ r.heap[n]? = some (.tuple fields) ∧
      fields.length ≤ r.stack.length
  | .SEQ => ∃ s src, r.stack = s ++ [src] ∧ IsContainer r.heap src ∧ IsSeq r.heap c.object
  | .FLAT => ∃ s p, r.stack = s ++ [p] ∧ IsSeq r.heap p ∧ IsFlatten r.heap c.object
  | .EXP | .MUL_R | .DIV_R | .ADD_R | .SUB_R =>
    ∃ s pl pr, r.stack = s ++ [pl, pr] ∧ IsReal r.heap pl ∧ IsReal r.heap pr
  | .MUL_I | .ADD_I | .SUB_I | .AND | .OR | .XOR =>
    ∃ s pl pr, r.stack = s ++ [pl, pr] ∧ IsInt r.heap pl ∧ IsInt r.heap pr
  | .DIV_I | .MOD =>
    ∃ s pl pr L R, r.stack = s ++ [some pl, some pr] ∧ r.heap[pl]? = some (.int L) ∧
      r.heap[pr]? = some (.int R) ∧ R ≠ 0 ∧ ¬ (L = -(2 ^ 63) ∧ R = -1)
  | .NOT => ∃ s p, r.stack = s ++ [p] ∧ IsInt r.heap p
  | .I2R_1 => ∃ s p, r.stack = s ++ [p] ∧ IsInt r.heap p ∧ IsReal r.heap c.object
  | .U2R_1 => ∃ s p, r.stack = s ++ [p] ∧ IsUInt r.heap p ∧ IsReal r.heap c.object
  | .I2R_2 => ∃ s p x, r.stack = s ++ [p, x] ∧ IsInt r.heap p ∧ IsReal r.heap c.object
  | .U2R_2 => ∃ s p x, r.stack = s ++ [p, x] ∧ IsUInt r.heap p ∧ IsReal r.heap c.object
  | .FUN => ∃ closure ra arg heap, c.closure[0]? = some closure ∧
      _exec_closure rec.run c.object 0 r closure = .ok (ra, arg) ∧
      M.call c.function ra.heap arg c.object = .ok heap
  | .IDX => ∃ closure ra key cont heap, c.closure[0]? = some closure ∧
      _exec_closure rec.run c.object 0 r closure = .ok (ra, key) ∧
      ra.stack.getLast? = some cont ∧
      M.index closure.type ra.heap cont key c.object = .ok heap
  | .GEN => ∃ closure1 closure0 ra p, c.closure[1]? = some closure1 ∧
      c.closure[0]? = some closure0 ∧
      _exec_closure rec.run c.object 1 r closure1 = .ok (ra, p) ∧
      IsSeq ra.heap p ∧ IsSeq ra.heap c.object
  | .ARR | .MAP => ∃ s n r2, r.stack = s ++ [some n] ∧ IsSeq r.heap (some n) ∧
      fill rec c.object n { r with stack := s, trace := r.trace ++ [.pop s.length] } = .ok r2

/-! ## Stepping and draining a generator -/

/-- Calling `next` on the sequencer in cell `n` `k` times in a row: the pointers
returned, each with the value of `ok`. -/
def pull (rec : Sem) (n : Nat) : Nat → Runtime → Res (Runtime × List (Ptr × Bool))
  | 0, r => .ok (r, [])
  | k + 1, r =>
    (rec.next n r).bind fun (r1, x, ok) =>
      (pull rec n k r1).bind fun (r2, rest) => .ok (r2, (x, ok) :: rest)

/-- The runtime in which the lambda of the generator in cell `dst` begins the
evaluation of its body, when `next` is called on the generator in the runtime `r` and
the source, in cell `src` with holder `hs`, has the element cells `xs` left: both
calls of `next` are in the trace, the source is stepped, and the loop slot holds the
element, or the holder of the source when no element is left. -/
def bodyEntry (dst src slot : Nat) (ks : SeqKind) (hs : Ptr) (xs : List Nat) (r : Runtime) :
    Runtime :=
  match xs with
  | [] =>
    { vars := r.vars.set slot hs, stack := r.stack, heap := r.heap,
      trace := r.trace ++ [Event.next dst, Event.next src] }
  | x :: rest =>
    { vars := r.vars.set slot (some x), stack := r.stack,
      heap := r.heap.set src (.seq ks hs (.iter rest)),
      trace := r.trace ++ [Event.next dst, Event.next src] }

/-- The body closure `body` of the generator in cell `dst` leaves the generator and its
source in cell `src` alone during a drain, in the runtimes that the drain passes
through. `Inv xs r` describes the runtimes `r` at the head of the drain loop when the
source has the element cells `xs` left: there the generator and the source are in
their cells and the loop slot exists. From such a runtime the body, run at any level
from `fb` on in the runtime `bodyEntry`, returns; besides the one evaluation of the
body being run it neither steps `src` nor evaluates the body of `dst`; and when the
source had an element left, the body returns an object, and the runtime in which the
drain goes on, with that object copied into a cell of its own at the end of the heap,
is again one that `Inv` describes, for the elements that are left. -/
def DrainInvariant (M : ObjModel) (fb dst src slot : Nat) (body : Closure)
    (kd ks : SeqKind) (hd hs : Ptr) (Inv : List Nat → Runtime → Prop) : Prop :=
  ∀ (f : Nat) (xs : List Nat) (r : Runtime), fb ≤ f → Inv xs r →
    r.heap[dst]? = some (.seq kd hd (.gen src (.UINT slot) (some dst) body)) ∧
    r.heap[src]? = some (.seq ks hs (.iter xs)) ∧ slot < r.vars.length ∧
    ∃ r1 v, _exec_closure (sem M f).run (some dst) 0
        (bodyEntry dst src slot ks hs xs r) body = .ok (r1, v) ∧
      (∃ ev, r1.trace = (bodyEntry dst src slot ks hs xs r).trace
          ++ Event.closure (some dst) 0 :: ev ∧
        Event.next src ∉ ev ∧ Event.closure (some dst) 0 ∉ ev) ∧
      (∀ x rest, xs = x :: rest →
        ∃ y o, v = some y ∧ r1.heap[y]? = some o ∧
          Inv rest { r1 with heap := r1.heap ++ [o] })

/-- The runtimes at the head of a drain of the generator in cell `dst`, with the
element cells `xs` left in the source: generator and source are in their cells, the
loop slot exists, and the elements left are cells of the heap. -/
def cellsInv (dst src slot : Nat) (body : Closure) (kd ks : SeqKind) (hd hs : Ptr)
    (xs : List Nat) (r : Runtime) : Prop :=
  r.heap[dst]? = some (.seq kd hd (.gen src (.UINT slot) (some dst) body)) ∧
  r.heap[src]? = some (.seq ks hs (.iter xs)) ∧ slot < r.vars.length ∧
  ∀ x ∈ xs, x < r.heap.length

/-- The runtimes at the head of a drain in which, moreover, the elements left and the
holder of the source are `Int`s. -/
def intCellsInv (dst src slot : Nat) (body : Closure) (kd ks : SeqKind) (hd hs : Ptr)
    (xs : List Nat) (r : Runtime) : Prop :=
  r.heap[dst]? = some (.seq kd hd (.gen src (.UINT slot) (some dst) body)) ∧
  r.heap[src]? = some (.seq ks hs (.iter xs)) ∧ slot < r.vars.length ∧
  (∀ x ∈ xs, IsInt r.heap (some x)) ∧ IsInt r.heap hs

/-! ## A small program: a generator over a two-element source, collected -/

/-- An object model in which nothing can be made, indexed or called. -/
def bareModel : ObjModel where
  make := fun _ heap => (none, heap)
  index := fun _ _ _ _ _ => .ub
  call := fun _ _ _ _ => .ub
  strings := fun _ => []

/-- A type to fill the `type` fields of the example commands. -/
def seqOfInt : TabType := .mk .SEQ [.mk .INT []]

/-- The command `VAR(slot)`. -/
def varCmd (slot : Nat) : Command := .mk .VAR (.UINT slot) (.mk .INT []) [] none 0

/-- The command `GEN(1)` with body `[VAR 1]` and source `[VAR 0]`, its result sequencer
in cell 3. -/
def genCmd : Command :=
  .mk .GEN (.UINT 1) seqOfInt
    [.mk [varCmd 1] (.mk .INT []), .mk [varCmd 0] seqOfInt] (some 3) 0

/-- The command `ARR` with its result array in cell 4. -/
def arrCmd : Command := .mk .ARR (.UINT 0) (.mk .ARR [.mk .INT []]) [] (some 4) 0

/-- A runtime for the example: two `Int` cells, in cell 2 a sequencer that yields them,
the result cells of `genCmd` and `arrCmd`, and two variables, the first holding the
source sequencer. -/
def demoRuntime : Runtime where
  vars := [some 2, none]
  stack := []
  heap := [.int 10, .int 20, .seq .plain none (.iter [0, 1]), .seq .plain none .empty,
    .arr []]
  trace := []

/-- The runtime of the example after `GEN` has been executed. -/
def demoAfterGen : Runtime where
  vars := [some 2, none]
  stack := []
  heap := [.int 10, .int 20, .seq .plain none (.iter [0, 1]),
    .seq .plain none (.gen 2 (.UINT 1) (some 3) (.mk [varCmd 1] (.mk .INT []))), .arr []]
  trace := [Event.closure (some 3) 1]

/-! ## Small programs on integers -/

/-- The command `VAL` with an `Int` literal, as the compiler emits it. -/
def valCmd (v : Int) : Command := .mk .VAL (.INT v) (.mk .INT []) [] none 0

/-- A command without immediate and closures, of type `Int`, as the compiler emits
it. -/
def opCmd (op : Opcode) : Command := .mk op (.UINT 0) (.mk .INT []) [] none 0

/-- The program of scenario 2, `2 + 3 * 4`. -/
def arithProgram : List Command :=
  [valCmd 2, valCmd 3, valCmd 4, opCmd .MUL_I, opCmd .ADD_I]

/-- The program of scenario 8, `10 / 0`. -/
def divZeroProgram : List Command := [valCmd 10, valCmd 0, opCmd .DIV_I]

/-- A print function for the examples: the decimal digits of a small natural number,
nothing for any other object. -/
def printDigits (heap : Heap) (n : Nat) : List Char :=
  match heap[n]? with
  | some (.int v) => if 0 ≤ v ∧ v < 100 then (Nat.toDigits 10 v.toNat) else []
  | _ => []

/-! ## A plain object model and a program for the init pass -/

/-- Modelled from the spec: an object model in which `obj::make` allocates "a default
Object for" the "declared type" (zero, the empty string, a tuple with one empty field
per field type, an empty container, a sequencer without producer) and nothing can be
indexed or called. -/
def plainModel : ObjModel where
  make := fun t heap =>
    match t with
    | .mk .INT _ => alloc heap (.int 0)
    | .mk .UINT _ => alloc heap (.uint 0)
    | .mk .REAL _ => alloc heap (.real 0)
    | .mk .STRING _ => alloc heap (.str [])
    | .mk .TUP children => alloc heap (.tuple (children.map fun _ => none))
    | .mk .ARR _ => alloc heap (.arr [])
    | .mk .MAP _ => alloc heap (.map [])
    | .mk .SEQ _ => alloc heap (.seq .plain none .empty)
    | _ => (none, heap)
  index := fun _ _ _ _ _ => .ub
  call := fun _ _ _ _ => .ub
  strings := fun _ => []

/-- The run from `r` to `r1` has only added to the trace, and has left alone every
part of the stack that no removal reached: for every height `m` that all removals of
the run stayed above, the lowest `m` elements of the stack are the same. -/
def Framed (r r1 : Runtime) : Prop :=
  ∃ ev, r1.trace = r.trace ++ ev ∧
    ∀ m, m ≤ r.stack.length → (∀ h, Event.pop h ∈ ev → m ≤ h) →
      r1.stack.take m = r.stack.take m ∧ m ≤ r1.stack.length

/-- Framed, and the stack as high as before. -/
def FramedEq (r r1 : Runtime) : Prop := Framed r r1 ∧ r1.stack.length = r.stack.length

/-- What the pieces of the interpreter that are re-entered keep: a run is framed, a
producer and a drain loop are framed and leave the stack as high as it was. -/
def SemOK (rec : Sem) : Prop :=
  (∀ cs r r1, rec.run cs r = .ok r1 → Framed r r1) ∧
  (∀ n r r1 p ok, rec.produce n r = .ok (r1, p, ok) → FramedEq r r1) ∧
  (∀ n acc r r1 cells, rec.fill n acc r = .ok (r1, cells) → FramedEq r r1)

/-- The count of elements that the case of an opcode itself takes off the stack, by
`pop_back` or by `Tuple::set`, before it pushes: the tuple at `c.object` takes as many
as it has fields. -/
def removed (heap : Heap) (c : Command) : Nat :=
  match c.cmd with
  | .VAL | .VAR | .FUN | .GEN | .NOT => 0
  | .I2R_2 | .U2R_2 => 2
  | .TUP =>
    match c.object.bind (fun n => heap[n]?) with
    | some (.tuple fields) => fields.length
    | _ => 0
  | _ => 1

/-- Whether the case of an opcode re-enters the interpreter: on a closure block, or
on the producer of a sequencer that it drains. -/
def reenters : Opcode → Bool
  | .FUN | .IDX | .GEN | .ARR | .MAP => true
  | _ => false

/-- The net stack effect of an opcode as the specification lists it: "+1 for VAL, VAR,
FUN and GEN; -1 for VAW and for every binary operator; 0 for IDX, SEQ, ARR, MAP, FLAT,
NOT, I2R_1, U2R_1, I2R_2 and U2R_2; and 1-N for TUP with N fields", the fields being
those of the tuple at `c.object`. -/
def stackDelta (heap : Heap) (c : Command) : Int :=
  match c.cmd with
  | .VAL | .VAR | .FUN | .GEN => 1
  | .VAW | .EXP | .MUL_R | .DIV_R | .ADD_R | .SUB_R
  | .MUL_I | .DIV_I | .MOD | .ADD_I | .SUB_I | .AND | .OR | .XOR => -1
  | .IDX | .SEQ | .ARR | .MAP | .FLAT | .NOT | .I2R_1 | .U2R_1 | .I2R_2 | .U2R_2 => 0
  | .TUP =>
    match c.object.bind (fun n => heap[n]?) with
    | some (.tuple fields) => 1 - fields.length
    | _ => 1

/-- What a step of the interpreter does to the stack: it takes off `n` elements that
are there, keeps the elements below them, ends `d` higher than it began, and is
framed. -/
def Effect (n : Nat) (d : Int) (r r1 : Runtime) : Prop :=
  n ≤ r.stack.length ∧
    r1.stack.take (r.stack.length - n) = r.stack.take (r.stack.length - n) ∧
    (r1.stack.length : Int) = r.stack.length + d ∧ Framed r r1

/-- The effect of the case of the command `c` from `r` to `r1`: the stack ends as much
higher as the opcode is listed with, the step is framed, and an opcode that does
not re-enter the interpreter takes off only its own operands, which are there, and
keeps the elements below them. -/
def StepEffect (c : Command) (r r1 : Runtime) : Prop :=
  (r1.stack.length : Int) = r.stack.length + stackDelta r.heap c ∧ Framed r r1 ∧
    (reenters c.cmd = false → removed r.heap c ≤ r.stack.length ∧
      r1.stack.take (r.stack.length - removed r.heap c)
        = r.stack.take (r.stack.length - removed r.heap c))

/-! ## Small programs for the stack -/

/-- The command `TUP` with its result tuple, of two fields, in cell 3. -/
def tupCmd : Command := .mk .TUP (.UINT 0) (.mk .TUP [.mk .INT [], .mk .INT []]) [] (some 3) 0

/-- A runtime with three `Int` cells on the stack and the result tuple of `tupCmd`. -/
def tupRuntime : Runtime where
  vars := []
  stack := [some 0, some 1, some 2]
  heap := [.int 1, .int 2, .int 3, .tuple [none, none]]
  trace := []

/-- The runtime `tupRuntime` after `tupCmd`. -/
def tupAfter : Runtime where
  vars := []
  stack := [some 0, some 3]
  heap := [.int 1, .int 2, .int 3, .tuple [some 1, some 2]]
  trace := [.pop 1]

/-- A closure block that pushes two literals, in cells 1 and 2, and adds them. -/
def sumClosure : Closure :=
  .mk [.mk .VAL (.INT 2) (.mk .INT []) [] (some 1) 0,
       .mk .VAL (.INT 3) (.mk .INT []) [] (some 2) 0, opCmd .ADD_I] (.mk .INT [])

/-- A runtime with one element on the stack and the cells of `sumClosure`. -/
def sumRuntime : Runtime where
  vars := []
  stack := [some 0]
  heap := [.int 1, .int 2, .int 3]
  trace := []

/-- The runtime `sumRuntime` after the run of the block of `sumClosure`. -/
def sumAfter : Runtime where
  vars := []
  stack := [some 0, some 1]
  heap := [.int 1, .int 5, .int 3]
  trace := [.closure none 0, .pop 2]

/-! ## `cut` with every access checked (src/funcs/cutgrep.h) -/

/-- The inner loop of `cut` with every access checked: `del[j]` and `str[i+j]` are read
where the source reads them (`str[i+j]` only behind the test `i+j < N`), and a read
outside the string is undefined behaviour. -/
def matchLoopChecked (str del : List Char) (i : Nat) : Nat → Nat → Res Bool
  | 0, _ => .ok true
  | todo + 1, j =>
    if (i + j) % WORD < str.length then
      match str[(i + j) % WORD]?, del[j]? with
      | some a, some b =>
        if a = b then matchLoopChecked str del i todo ((j + 1) % WORD) else .ok false
      | _, _ => .ub
    else .ok false

/-- The range constructor `std::string(str.begin() + a, str.begin() + b)` with its
precondition checked: the iterators must lie within the string and in order. -/
def sliceChecked (str : List Char) (a b : Nat) : Res (List Char) :=
  if a ≤ b ∧ b ≤ str.length then .ok (slice str a b) else .ub

/-- One iteration of the outer loop of `cut`, every access checked. -/
def cutBodyChecked (str del : List Char) (s : CutState) : Res CutState :=
  (matchLoopChecked str del s.i del.length 0).bind fun m =>
    if m then
      (sliceChecked str s.prev s.i).bind fun piece =>
        let i1 := (s.i + del.length) % WORD
        .ok { v := s.v ++ [piece], prev := i1, i := ((i1 + (WORD - 1)) % WORD + 1) % WORD }
    else .ok { s with i := (s.i + 1) % WORD }

/-- The outer loop of `cut`, every access checked. -/
def cutLoopChecked (str del : List Char) : Nat → CutState → Res CutState
  | 0, _ => .timeout
  | fuel + 1, s =>
    if s.i < str.length then (cutBodyChecked str del s).bind (cutLoopChecked str del fuel)
    else .ok s

/-- The function `cut`, every access checked. -/
def cutChecked (fuel : Nat) (str del : List Char) : Res (List (List Char)) :=
  (cutLoopChecked str del fuel { i := 0, prev := 0, v := [] }).bind fun s =>
    (sliceChecked str s.prev str.length).bind fun piece => .ok (s.v ++ [piece])

/-! ## Blocks of literals and integer operators -/

/-- The opcodes of a block "made only of VAL literals and integer operators". -/
def literalOrIntOp : Opcode → Bool
  | .VAL | .MUL_I | .DIV_I | .MOD | .ADD_I | .SUB_I | .NOT | .AND | .OR | .XOR => true
  | _ => false

/-- The stack of a block of literals and integer operators, told apart from the stack
it was entered with: how many of the elements found at entry have been taken off, and
the pointers that stand above the rest. `VAL` adds `c.object`, `NOT` leaves the stack
alone, a binary operator takes the top off. -/
def netStep (c : Command) (dp : Nat × List Ptr) : Nat × List Ptr :=
  match c.cmd with
  | .VAL => (dp.1, dp.2 ++ [c.object])
  | .NOT => dp
  | _ => if dp.2 = [] then (dp.1 + 1, []) else (dp.1, dp.2.dropLast)

/-- The stack of a block after all its commands, as `netStep` follows it. -/
def net : List Command → Nat × List Ptr → Nat × List Ptr
  | [], dp => dp
  | c :: rest, dp => net rest (netStep c dp)

/-- The block of `1 + 2` as the compiler emits it. -/
def onePlusTwo : List Command := [valCmd 1, valCmd 2, opCmd .ADD_I]

/-- The closure with the block of `1 + 2` after the init pass on the empty heap. -/
def onePlusTwoClosure : Closure :=
  .mk (execute_init plainModel onePlusTwo []).1 (.mk .INT [])

/-- A runtime with an empty stack on the heap that the init pass of `1 + 2` leaves. -/
def onePlusTwoRuntime : Runtime where
  vars := []
  stack := []
  heap := (execute_init plainModel onePlusTwo []).2
  trace := []

/-! ## `cut` with a bounded output vector (src/funcs/cutgrep.h) -/

/-- One iteration of the outer loop of `cut` when the output vector can hold `cap`
elements and no more: `v.emplace_back` on a vector of that size throws (the
`std::length_error` or `std::bad_alloc` of the library), with the text `what`. -/
def cutBodyBounded (cap : Nat) (what : String) (str del : List Char) (s : CutState) :
    Res CutState :=
  if matched str del s.i then
    if s.v.length < cap then
      let i1 := (s.i + del.length) % WORD
      .ok { v := s.v ++ [slice str s.prev s.i], prev := i1,
            i := ((i1 + (WORD - 1)) % WORD + 1) % WORD }
    else .error what
  else .ok { s with i := (s.i + 1) % WORD }

/-- The outer loop of `cut` with the bounded output vector. -/
def cutLoopBounded (cap : Nat) (what : String) (str del : List Char) :
    Nat → CutState → Res CutState
  | 0, _ => .timeout
  | fuel + 1, s =>
    if s.i < str.length then
      (cutBodyBounded cap what str del s).bind (cutLoopBounded cap what str del fuel)
    else .ok s

/-- The function `cut` with the bounded output vector. -/
def cutBounded (cap : Nat) (what : String) (fuel : Nat) (str del : List Char) :
    Res (List (List Char)) :=
  (cutLoopBounded cap what str del fuel { i := 0, prev := 0, v := [] }).bind fun s =>
    if s.v.length < cap then .ok (s.v ++ [slice str s.prev str.length]) else .error what

/-! ## More small programs -/

/-- A body that uses the loop variable as an `Int`: `[VAR 1, NOT]`. -/
def notBody : Closure := .mk [varCmd 1, opCmd .NOT] (.mk .INT [])

/-- A runtime for a drain with the body `notBody`: two `Int` cells, in cell 2 a
sequencer that yields them and whose holder is the `Int` in cell 5, in cell 3 the
generator over it, and two variables. -/
def demoNotRuntime : Runtime where
  vars := [some 2, none]
  stack := []
  heap := [.int 10, .int 20, .seq .plain (some 5) (.iter [0, 1]),
    .seq .plain none (.gen 2 (.UINT 1) (some 3) notBody), .arr [], .int 0]
  trace := []

/-- The runtime of the example before `ARR` is executed: the generator, in cell 3, is on
top of the stack, above one more element. -/
def demoBeforeArr : Runtime := { demoAfterGen with stack := [some 0, some 3] }

/-- A runtime with the two `Int` operands 10 and 0 on the stack, the divisor on top. -/
def divZeroRuntime : Runtime where
  vars := []
  stack := [some 0, some 1]
  heap := [.int 10, .int 0]
  trace := []

end Tab

namespace Tab

/-! ## Facts about the scan of `cut` -/

theorem matchLoop_true_iff (str del : List Char) (i : Nat)
    (hfit : i + del.length < WORD) :
    ∀ (todo j : Nat), j + todo = del.length →
      (matchLoop str del i todo j = true ↔
        ∀ k, j ≤ k → k < del.length → i + k < str.length ∧ str[i + k]? = del[k]?) := by
  intro todo
  induction todo with
  | zero =>
    intro j hj
    simp only [matchLoop, true_iff]
    intro k h1 h2
    omega
  | succ n ih =>
    intro j hj
    have hj1 : (i + j) % WORD = i + j := Nat.mod_eq_of_lt (by omega)
    have hj2 : (j + 1) % WORD = j + 1 := Nat.mod_eq_of_lt (by omega)
    simp only [matchLoop, hj1, hj2]
    by_cases hc : i + j < str.length ∧ str[i + j]? = del[j]?
    · rw [if_pos hc, ih (j + 1) (by omega)]
      constructor
      · intro h k h1 h2
        rcases Nat.eq_or_lt_of_le h1 with h3 | h3
        · subst h3; exact hc
        · exact h k h3 h2
      · intro h k h1 h2
        exact h k (by omega) h2
    · rw [if_neg hc]
      constructor
      · intro h; exact absurd h (by simp)
      · intro h; exact absurd (h j (le_refl j) (by omega)) hc

/-- The flag `matched` is set at `i` exactly when the delimiter is a prefix of the
rest of the string from `i` on. -/
theorem matched_iff_starts (str del : List Char) (i : Nat)
    (hfit : i + del.length < WORD) :
    matched str del i = true ↔ del <+: str.drop i := by
  unfold matched
  rw [matchLoop_true_iff str del i hfit del.length 0 (by omega)]
  constructor
  · intro h
    rw [List.prefix_iff_eq_take]
    apply List.ext_getElem?
    intro k
    by_cases hk : k < del.length
    · rw [List.getElem?_take_of_lt hk, List.getElem?_drop]
      exact ((h k (Nat.zero_le k) hk).2).symm
    · rw [List.getElem?_eq_none (by omega), List.getElem?_eq_none]
      simp only [List.length_take, List.length_drop]
      omega
  · intro h k _ hk
    obtain ⟨t, ht⟩ := h
    have hlen : (str.drop i).length = del.length + t.length := by
      rw [← ht, List.length_append]
    rw [List.length_drop] at hlen
    refine ⟨by omega, ?_⟩
    rw [← List.getElem?_drop, ← ht, List.getElem?_append_left hk]

theorem matched_length_le (str del : List Char) (i : Nat)
    (hfit : i + del.length < WORD) (hi : i ≤ str.length)
    (h : matched str del i = true) :
    i + del.length ≤ str.length := by
  obtain ⟨t, ht⟩ := (matched_iff_starts str del i hfit).1 h
  have hlen : (str.drop i).length = del.length + t.length := by
    rw [← ht, List.length_append]
  rw [List.length_drop] at hlen
  omega

theorem word_dec_inc (x : Nat) (hx : x < WORD) :
    ((x + (WORD - 1)) % WORD + 1) % WORD = x := by
  unfold WORD at *
  omega

/-- The loop body after a match: a piece is appended and both `i` and `prev` move
just past the delimiter (`--i` and the `++i` of the header cancel). -/
theorem cutBody_of_matched (str del : List Char) (s : CutState)
    (hfit : str.length + del.length < WORD) (hi : s.i < str.length)
    (hm : matched str del s.i = true) :
    cutBody str del s =
      { i := s.i + del.length, prev := s.i + del.length,
        v := s.v ++ [slice str s.prev s.i] } := by
  have hlt : s.i + del.length < WORD := by omega
  have h1 : (s.i + del.length) % WORD = s.i + del.length := Nat.mod_eq_of_lt hlt
  simp only [cutBody, hm, if_true, h1, word_dec_inc _ hlt]

/-- The loop body without a match: only `i` moves, by one. -/
theorem cutBody_of_unmatched (str del : List Char) (s : CutState)
    (hfit : str.length + del.length < WORD) (hi : s.i < str.length)
    (hm : matched str del s.i = false) :
    cutBody str del s = { s with i := s.i + 1 } := by
  have h1 : (s.i + 1) % WORD = s.i + 1 := Nat.mod_eq_of_lt (by omega)
  simp [cutBody, hm, h1]

/-- With a non-empty delimiter every iteration moves the scan index forward and
keeps it within the string. -/
theorem cutBody_progress (str del : List Char) (s : CutState)
    (hfit : str.length + del.length < WORD) (hd : del ≠ []) (hi : s.i < str.length) :
    s.i < (cutBody str del s).i ∧ (cutBody str del s).i ≤ str.length := by
  have hM : 0 < del.length := List.length_pos.2 hd
  cases hm : matched str del s.i with
  | true =>
    rw [cutBody_of_matched str del s hfit hi hm]
    have := matched_length_le str del s.i (by omega) (by omega) hm
    simp only
    omega
  | false =>
    rw [cutBody_of_unmatched str del s hfit hi hm]
    simp only
    omega

/-- Invariant rule for the outer loop: with a non-empty delimiter and more fuel than
characters left to scan, the loop is left with `i = N` in a state that satisfies
every property the body preserves. -/
theorem cutLoop_invariant (str del : List Char)
    (hfit : str.length + del.length < WORD) (hd : del ≠ [])
    (P : CutState → Prop)
    (hP : ∀ s, P s → s.i < str.length → P (cutBody str del s)) :
    ∀ (fuel : Nat) (s : CutState), P s → s.i ≤ str.length → str.length - s.i < fuel →
      ∃ s', cutLoop str del fuel s = .ok s' ∧ P s' ∧ s'.i = str.length := by
  intro fuel
  induction fuel with
  | zero => intro s _ _ h; omega
  | succ n ih =>
    intro s hs hle hf
    by_cases hi : s.i < str.length
    · have hp := cutBody_progress str del s hfit hd hi
      simp only [cutLoop, if_pos hi]
      exact ih (cutBody str del s) (hP s hs hi) hp.2 (by omega)
    · simp only [cutLoop, if_neg hi]
      exact ⟨s, rfl, hs, by omega⟩

theorem intercalate_concat (d : List Char) (v : List (List Char)) (p : List Char) :
    List.intercalate d (v ++ [p]) = (v.map (· ++ d)).flatten ++ p := by
  induction v with
  | nil => simp [List.intercalate]
  | cons a t ih =>
    cases t with
    | nil => simp [List.intercalate]
    | cons b t =>
      simp only [List.intercalate] at ih ⊢
      simp only [List.cons_append, List.intersperse, List.flatten_cons, List.map_cons] at ih ⊢
      have e : t.append [p] = t ++ [p] := rfl
      rw [e, ih]
      simp

theorem take_append_slice (str : List Char) (a b : Nat) (h : a ≤ b) :
    str.take a ++ slice str a b = str.take b := by
  unfold slice
  rw [List.take_drop]
  have e : a + (b - a) = b := by omega
  rw [e]
  have h2 : str.take a = (str.take b).take a := by
    rw [List.take_take, Nat.min_eq_left h]
  rw [h2, List.take_append_drop]

theorem take_append_of_starts (str del : List Char) (i : Nat) (h : del <+: str.drop i) :
    str.take i ++ del = str.take (i + del.length) := by
  rw [List.prefix_iff_eq_take] at h
  rw [List.take_add]
  congr 1

/-- Scan invariant behind the round trip: the pieces emitted so far, each followed
by the delimiter, spell the string up to `prev`. -/
theorem cutBody_spelled (str del : List Char) (s : CutState)
    (hfit : str.length + del.length < WORD) (hi : s.i < str.length)
    (h : s.prev ≤ s.i ∧ (s.v.map (· ++ del)).flatten = str.take s.prev) :
    (cutBody str del s).prev ≤ (cutBody str del s).i ∧
      ((cutBody str del s).v.map (· ++ del)).flatten = str.take (cutBody str del s).prev := by
  cases hm : matched str del s.i with
  | true =>
    rw [cutBody_of_matched str del s hfit hi hm]
    refine ⟨le_refl _, ?_⟩
    have hpre := (matched_iff_starts str del s.i (by omega)).1 hm
    simp only [List.map_append, List.flatten_append, List.map_cons, List.map_nil,
      List.flatten_cons, List.flatten_nil, List.append_nil]
    rw [h.2, ← List.append_assoc, take_append_slice str _ _ h.1,
      take_append_of_starts str del s.i hpre]
  | false =>
    rw [cutBody_of_unmatched str del s hfit hi hm]
    exact ⟨by simp only; omega, h.2⟩

/-- C1. Round trip of `cut`: for every string and every non-empty delimiter (both
held in one 64-bit address space), `cut` returns once the fuel exceeds the length of
the string, and joining the returned array with the delimiter as separator gives the
string back. -/
theorem cut_join_roundtrip (str del : List Char) (fuel : Nat)
    (hfit : str.length + del.length < WORD) (hd : del ≠ []) (hfuel : str.length < fuel) :
    ∃ pieces, cut fuel str del = .ok pieces ∧ List.intercalate del pieces = str := by
  obtain ⟨s', hrun, hinv, hend⟩ :=
    cutLoop_invariant str del hfit hd
      (fun s => s.prev ≤ s.i ∧ (s.v.map (· ++ del)).flatten = str.take s.prev)
      (fun s hs hi => cutBody_spelled str del s hfit hi hs)
      fuel { i := 0, prev := 0, v := [] } ⟨le_refl _, by simp⟩ (Nat.zero_le _)
      (by simpa using hfuel)
  refine ⟨s'.v ++ [slice str s'.prev str.length], ?_, ?_⟩
  · simp only [cut, hrun, Res.bind]
  · rw [intercalate_concat, hinv.2, take_append_slice str _ _ (by omega)]
    exact List.take_of_length_le (le_refl _)

/-- Witness of C1 on `cut("a,b,,c", ",")`. -/
theorem cut_join_roundtrip_witness :
    ∃ pieces, cut 7 "a,b,,c".toList ",".toList = .ok pieces ∧
      List.intercalate ",".toList pieces = "a,b,,c".toList :=
  cut_join_roundtrip "a,b,,c".toList ",".toList 7 (by decide) (by decide) (by decide)

/-! ## `cutn` against `cut` -/

theorem cutBody_v_grows (str del : List Char) (s : CutState) :
    s.v <+: (cutBody str del s).v := by
  unfold cutBody
  by_cases hm : matched str del s.i = true
  · simp only [hm, if_true]
    exact List.prefix_append _ _
  · simp only [hm]
    exact List.prefix_refl _

/-- The output vector only grows during the scan. -/
theorem cutLoop_v_grows (str del : List Char) :
    ∀ (fuel : Nat) (s s' : CutState), cutLoop str del fuel s = .ok s' → s.v <+: s'.v := by
  intro fuel
  induction fuel with
  | zero => intro s s' h; simp [cutLoop] at h
  | succ n ih =>
    intro s s' h
    by_cases hi : s.i < str.length
    · simp only [cutLoop, if_pos hi] at h
      exact (cutBody_v_grows str del s).trans (ih _ _ h)
    · simp only [cutLoop, if_neg hi, Res.ok.injEq] at h
      subst h
      exact List.prefix_refl _

/-- Simulation of the scan of `cut` by the scan of `cutn`: started in matching states
(`nmatch` the number of pieces emitted so far, the wanted piece not yet emitted),
`cutn` returns early with piece `nth` of the final vector of `cut` when that vector has
one, and otherwise leaves its loop in the state matching the final state of `cut`. -/
theorem cutnLoop_simulates (str del : List Char) (nth : Nat)
    (hfit : str.length + del.length < WORD) (hd : del ≠ []) :
    ∀ (fuel : Nat) (s s' : CutState), s.v.length ≤ s.i → s.v.length ≤ nth →
      cutLoop str del fuel s = .ok s' →
      cutnLoop str del nth fuel { i := s.i, prev := s.prev, nmatch := s.v.length } =
        .ok (match s'.v[nth]? with
             | some p => .inl p
             | none => .inr { i := s'.i, prev := s'.prev, nmatch := s'.v.length }) := by
  have hM : 0 < del.length := List.length_pos.2 hd
  intro fuel
  induction fuel with
  | zero => intro s s' _ _ h; simp [cutLoop] at h
  | succ n ih =>
    intro s s' hlen hnth h
    by_cases hi : s.i < str.length
    · simp only [cutLoop, if_pos hi] at h
      simp only [cutnLoop, if_pos hi]
      cases hm : matched str del s.i with
      | true =>
        rw [cutBody_of_matched str del s hfit hi hm] at h
        simp only [if_true]
        by_cases hn : nth = s.v.length
        · rw [if_pos hn]
          obtain ⟨t, ht⟩ := cutLoop_v_grows str del n _ _ h
          simp only at ht
          have hget : s'.v[nth]? = some (slice str s.prev s.i) := by
            rw [← ht, hn, List.append_assoc,
              List.getElem?_append_right (le_refl _), Nat.sub_self]
            simp
          rw [hget]
        · rw [if_neg hn]
          have hle := matched_length_le str del s.i (by omega) (by omega) hm
          have hlt : s.i + del.length < WORD := by omega
          have h1 : (s.i + del.length) % WORD = s.i + del.length := Nat.mod_eq_of_lt hlt
          have h2 : (s.v.length + 1) % WORD = s.v.length + 1 := Nat.mod_eq_of_lt (by omega)
          simp only [h1, h2, word_dec_inc _ hlt]
          have := ih { i := s.i + del.length, prev := s.i + del.length,
                       v := s.v ++ [slice str s.prev s.i] } s'
            (by simp only [List.length_append, List.length_singleton]; omega)
            (by simp only [List.length_append, List.length_singleton]; omega) h
          simpa using this
      | false =>
        rw [cutBody_of_unmatched str del s hfit hi hm] at h
        have h1 : (s.i + 1) % WORD = s.i + 1 := Nat.mod_eq_of_lt (by omega)
        simp only [h1, Bool.false_eq_true, if_false]
        exact ih { s with i := s.i + 1 } s' (by simp only; omega) hnth h
    · simp only [cutLoop, if_neg hi, Res.ok.injEq] at h
      subst h
      simp only [cutnLoop, if_neg hi]
      rw [List.getElem?_eq_none hnth]

/-- What `cutn` returns, read off the array of `cut`: the piece with index `nth` when
there is one, the exception otherwise. -/
theorem cutn_eq_lookup (str del : List Char) (fuel nth : Nat)
    (hfit : str.length + del.length < WORD) (hd : del ≠ []) (hfuel : str.length < fuel) :
    ∃ pieces, cut fuel str del = .ok pieces ∧
      cutn fuel str del nth =
        (match pieces[nth]? with
         | some p => .ok p
         | none => .error "Substring not found in 'cut'") := by
  obtain ⟨s', hrun, _, _⟩ :=
    cutLoop_invariant str del hfit hd (fun _ => True) (fun _ _ _ => trivial)
      fuel { i := 0, prev := 0, v := [] } trivial (Nat.zero_le _) (by simpa using hfuel)
  have hsim := cutnLoop_simulates str del nth hfit hd fuel { i := 0, prev := 0, v := [] } s'
    (by simp) (by simp) hrun
  simp only [List.length_nil] at hsim
  refine ⟨s'.v ++ [slice str s'.prev str.length], ?_, ?_⟩
  · simp only [cut, hrun, Res.bind]
  · simp only [cutn, hsim, Res.bind]
    rcases Nat.lt_trichotomy nth s'.v.length with h | h | h
    · rw [List.getElem?_append_left h, List.getElem?_eq_getElem h]
    · have e1 : s'.v[nth]? = none := List.getElem?_eq_none (by omega)
      have e2 : (s'.v ++ [slice str s'.prev str.length])[nth]?
          = some (slice str s'.prev str.length) := by
        rw [h]; simp
      rw [e1, e2]
      simp only [h, if_true]
    · have e1 : s'.v[nth]? = none := List.getElem?_eq_none (by omega)
      have e2 : (s'.v ++ [slice str s'.prev str.length])[nth]? = none :=
        List.getElem?_eq_none (by simp only [List.length_append, List.length_singleton]; omega)
      rw [e1, e2]
      simp only [if_neg (Nat.ne_of_gt h)]

/-- C2. `cutn` agrees with `cut`: for every string and non-empty delimiter, `cut`
returns an array, and for every index `nth` below the number of its pieces `cutn`
succeeds and returns exactly the piece with (zero-based) index `nth`. -/
theorem cutn_agrees_with_cut (str del : List Char) (fuel : Nat)
    (hfit : str.length + del.length < WORD) (hd : del ≠ []) (hfuel : str.length < fuel) :
    ∃ pieces, cut fuel str del = .ok pieces ∧
      ∀ (nth : Nat) (h : nth < pieces.length), cutn fuel str del nth = .ok pieces[nth] := by
  obtain ⟨pieces, hcut, _⟩ := cutn_eq_lookup str del fuel 0 hfit hd hfuel
  refine ⟨pieces, hcut, ?_⟩
  intro nth h
  obtain ⟨pieces', hcut', hn⟩ := cutn_eq_lookup str del fuel nth hfit hd hfuel
  rw [hcut] at hcut'
  simp only [Res.ok.injEq] at hcut'
  subst hcut'
  rw [hn, List.getElem?_eq_getElem h]

/-- Witness of C2 on `"a,b,,c"` split at `","`. -/
theorem cutn_agrees_with_cut_witness :
    ∃ pieces, cut 7 "a,b,,c".toList ",".toList = .ok pieces ∧
      ∀ (nth : Nat) (h : nth < pieces.length),
        cutn 7 "a,b,,c".toList ",".toList nth = .ok pieces[nth] :=
  cutn_agrees_with_cut "a,b,,c".toList ",".toList 7 (by decide) (by decide) (by decide)

/-- C3. `cutn` fails exactly when the piece is absent: for every string, non-empty
delimiter and index `nth`, `cutn` raises "Substring not found in 'cut'" if and only if
the array of `cut` has fewer than `nth + 1` pieces. -/
theorem cutn_error_iff_absent (str del : List Char) (fuel nth : Nat)
    (hfit : str.length + del.length < WORD) (hd : del ≠ []) (hfuel : str.length < fuel) :
    ∃ pieces, cut fuel str del = .ok pieces ∧
      (cutn fuel str del nth = .error "Substring not found in 'cut'" ↔
        pieces.length < nth + 1) := by
  obtain ⟨pieces, hcut, hn⟩ := cutn_eq_lookup str del fuel nth hfit hd hfuel
  refine ⟨pieces, hcut, ?_⟩
  rw [hn]
  by_cases h : nth < pieces.length
  · rw [List.getElem?_eq_getElem h]
    constructor
    · intro hx; exact absurd hx (by simp)
    · intro hx; omega
  · rw [List.getElem?_eq_none (by omega)]
    constructor
    · intro _; omega
    · intro _; rfl

/-- Witness of C3 on `cut("a,b", ",", 5)`, which raises the exception. -/
theorem cutn_error_iff_absent_witness :
    (∃ pieces, cut 4 "a,b".toList ",".toList = .ok pieces ∧
      (cutn 4 "a,b".toList ",".toList 5 = .error "Substring not found in 'cut'" ↔
        pieces.length < 5 + 1)) ∧
    cutn 4 "a,b".toList ",".toList 5 = .error "Substring not found in 'cut'" :=
  ⟨cutn_error_iff_absent "a,b".toList ",".toList 4 5 (by decide) (by decide) (by decide),
    by decide⟩

/-! ## Shape of the pieces -/

/-- A stretch of the string in which the scan found no match at any position does
not contain the delimiter. -/
theorem not_infix_slice (str del : List Char) (a b : Nat)
    (hfit : str.length + del.length < WORD) (hd : del ≠ [])
    (hb : b ≤ str.length)
    (hno : ∀ q, a ≤ q → q < b → matched str del q = false) :
    ¬ del <:+: slice str a b := by
  have hM : 0 < del.length := List.length_pos.2 hd
  rintro ⟨x, y, hxy⟩
  have hlen : (slice str a b).length = x.length + del.length + y.length := by
    rw [← hxy]; simp only [List.length_append]
  have hsl : (slice str a b).length ≤ b - a := by
    unfold slice; rw [List.length_take]; exact Nat.min_le_left _ _
  have hq : a + x.length < b := by omega
  have hpre : del <+: str.drop (a + x.length) := by
    have h1 : slice str a b ++ (str.drop a).drop (b - a) = str.drop a := by
      unfold slice; exact List.take_append_drop _ _
    rw [← List.drop_drop, ← h1, ← hxy]
    refine ⟨y ++ (str.drop a).drop (b - a), ?_⟩
    simp only [List.append_assoc, List.drop_left]
  have hm := (matched_iff_starts str del (a + x.length) (by omega)).2 hpre
  rw [hno (a + x.length) (by omega) hq] at hm
  exact absurd hm (by simp)

/-- Scan invariant behind the shape of the pieces: no emitted piece contains the
delimiter, and no position between `prev` and `i` matched. -/
theorem cutBody_pieces_free (str del : List Char) (s : CutState)
    (hfit : str.length + del.length < WORD) (hd : del ≠ []) (hi : s.i < str.length)
    (h : (∀ p ∈ s.v, ¬ del <:+: p) ∧
      ∀ q, s.prev ≤ q → q < s.i → matched str del q = false) :
    (∀ p ∈ (cutBody str del s).v, ¬ del <:+: p) ∧
      ∀ q, (cutBody str del s).prev ≤ q → q < (cutBody str del s).i →
        matched str del q = false := by
  cases hm : matched str del s.i with
  | true =>
    rw [cutBody_of_matched str del s hfit hi hm]
    refine ⟨?_, ?_⟩
    · intro p hp
      simp only [List.mem_append, List.mem_singleton] at hp
      rcases hp with hp | hp
      · exact h.1 p hp
      · rw [hp]
        exact not_infix_slice str del s.prev s.i hfit hd (by omega) h.2
    · intro q h1 h2
      simp only at h1 h2
      omega
  | false =>
    rw [cutBody_of_unmatched str del s hfit hi hm]
    refine ⟨h.1, ?_⟩
    intro q h1 h2
    simp only at h1 h2
    rcases Nat.eq_or_lt_of_le (Nat.le_of_lt_succ h2) with h3 | h3
    · rw [h3]; exact hm
    · exact h.2 q h1 h3

/-! ## Trailing delimiter -/

/-- Counterexample to C5. The string `"aaa"` ends with the delimiter `"aa"`, yet
`cut("aaa", "aa")` is `["", "a"]`: the scan consumes the occurrence at index 0, the
trailing occurrence at index 1 overlaps it and is never matched, so the last element
is `"a"`, not the empty string. -/
theorem cut_trailing_delimiter_counterexample :
    "aa".toList ≠ [] ∧ "aa".toList <:+ "aaa".toList ∧
    cut 4 "aaa".toList "aa".toList = .ok ["".toList, "a".toList] ∧
    ["".toList, "a".toList].getLast? ≠ some [] := by
  decide

/-- Scan invariant behind the trailing delimiter: as long as the trailing
occurrence is not overlapped from the left, the scan either still has the whole
trailing occurrence ahead of it or has just consumed it. -/
theorem cutBody_reaches_trailing (str del : List Char) (s : CutState)
    (hfit : str.length + del.length < WORD) (hd : del ≠ [])
    (hsuf : del <:+ str)
    (hno : ∀ q, q + del.length < str.length → str.length < q + 2 * del.length →
      ¬ del <+: str.drop q)
    (hi : s.i < str.length)
    (h : s.i + del.length ≤ str.length ∨ (s.i = str.length ∧ s.prev = str.length)) :
    (cutBody str del s).i + del.length ≤ str.length ∨
      ((cutBody str del s).i = str.length ∧ (cutBody str del s).prev = str.length) := by
  have hM : 0 < del.length := List.length_pos.2 hd
  have hle : s.i + del.length ≤ str.length := by omega
  have hlast : matched str del (str.length - del.length) = true := by
    rw [matched_iff_starts str del _ (by omega)]
    rw [List.suffix_iff_eq_drop] at hsuf
    rw [← hsuf]
  cases hm : matched str del s.i with
  | true =>
    rw [cutBody_of_matched str del s hfit hi hm]
    simp only
    by_cases he : s.i + del.length = str.length
    · right; exact ⟨he, he⟩
    · left
      have hpre := (matched_iff_starts str del s.i (by omega)).1 hm
      by_contra hc
      exact hno s.i (by omega) (by omega) hpre
  | false =>
    rw [cutBody_of_unmatched str del s hfit hi hm]
    simp only
    left
    by_contra hc
    have he : s.i = str.length - del.length := by omega
    rw [he, hlast] at hm
    exact absurd hm (by simp)

/-- C5, amended. For every string and non-empty delimiter such that the string ends
with the delimiter and no other occurrence of the delimiter in the string overlaps
that trailing occurrence, the last element of the array of `cut` is the empty
string. -/
theorem cut_trailing_delimiter (str del : List Char) (fuel : Nat)
    (hfit : str.length + del.length < WORD) (hd : del ≠ []) (hfuel : str.length < fuel)
    (hsuf : del <:+ str)
    (hno : ∀ q, q + del.length < str.length → str.length < q + 2 * del.length →
      ¬ del <+: str.drop q) :
    ∃ pieces, cut fuel str del = .ok pieces ∧ pieces.getLast? = some [] := by
  have hM : 0 < del.length := List.length_pos.2 hd
  have hlen : del.length ≤ str.length := hsuf.length_le
  obtain ⟨s', hrun, hinv, hend⟩ :=
    cutLoop_invariant str del hfit hd
      (fun s => s.i + del.length ≤ str.length ∨ (s.i = str.length ∧ s.prev = str.length))
      (fun s hs hi => cutBody_reaches_trailing str del s hfit hd hsuf hno hi hs)
      fuel { i := 0, prev := 0, v := [] }
      (Or.inl (by simpa using hlen)) (Nat.zero_le _) (by simpa using hfuel)
  refine ⟨s'.v ++ [slice str s'.prev str.length], ?_, ?_⟩
  · simp only [cut, hrun, Res.bind]
  · have hp : s'.prev = str.length := by
      rcases hinv with h | h
      · omega
      · exact h.2
    rw [List.getLast?_concat, hp]
    simp [slice]

/-- Witness of the amended C5 on `cut("a--b--", "--")`. -/
theorem cut_trailing_delimiter_witness :
    ∃ pieces, cut 7 "a--b--".toList "--".toList = .ok pieces ∧
      pieces.getLast? = some [] :=
  cut_trailing_delimiter "a--b--".toList "--".toList 7 (by decide) (by decide) (by decide)
    (by decide) (by
      intro q h1 h2
      have h3 : q = 3 := by
        simp only [String.toList, List.length_cons, List.length_nil] at h1 h2
        omega
      subst h3
      decide)

/-! ## Empty delimiter -/

/-- Counterexample to C6. With the empty string and the empty delimiter the outer
loop is not entered and `cut` returns the array `[""]`; no error is raised. -/
theorem cut_empty_delimiter_counterexample :
    cut 1 "".toList "".toList = .ok ["".toList] := by
  decide

/-- With an empty delimiter every position matches, and an iteration started at
`i = 0` ends at `i = 0` again (`i += 0`, `--i` wraps to `2 ^ 64 - 1`, `++i` wraps back
to `0`) with one more empty piece in the output. -/
theorem cutBody_empty_delimiter (str : List Char) (v : List (List Char)) :
    cutBody str [] { i := 0, prev := 0, v := v } = { i := 0, prev := 0, v := v ++ [[]] } := by
  simp [cutBody, matched, matchLoop, slice, WORD]

/-! ## `grep` and `grepif` -/

theorem grepSubLoop_eq (subs v : List (List Char)) : grepSubLoop v subs = v ++ subs := by
  induction subs generalizing v with
  | nil => simp [grepSubLoop]
  | cons a t ih => simp [grepSubLoop, ih]

/-- The outer loop of `grep` appends, match after match, what the specification
yields for that match. -/
theorem grepLoop_eq (ms : List Match) (v : List (List Char)) :
    grepLoop v ms = v ++ ms.flatMap grepYield := by
  induction ms generalizing v with
  | nil => simp [grepLoop]
  | cons m t ih =>
    have hstep : (if m.size = 1 then v ++ [m.full]
        else if m.size > 1 then grepSubLoop v (m.subs.drop 1) else v) = v ++ grepYield m := by
      cases hg : m.groups with
      | nil => simp [Match.size, grepYield, hg]
      | cons g gs => simp [Match.size, Match.subs, grepYield, hg, grepSubLoop_eq]
    simp only [grepLoop, hstep, ih, List.flatMap_cons, List.append_assoc]

/-- Every match contributes at least one element to the output of `grep`. -/
theorem grepYield_ne_nil (m : Match) : grepYield m ≠ [] := by
  unfold grepYield
  by_cases hg : m.groups = []
  · simp [hg]
  · simp [hg]

/-- On a valid cache and a pattern that compiles, the cache hands out the compiled
pattern, and the cache after the call is valid again. -/
theorem cacheGet_valid (lib : RegexLib) (cache : RegexCache lib) (regex : List Char)
    (re : lib.Regex) (hc : RegexCache.Valid lib cache) (hre : lib.compile regex = some re) :
    ∃ cache', cacheGet lib cache regex = .ok (re, cache') ∧ RegexCache.Valid lib cache' := by
  unfold cacheGet
  cases hl : cache.lookup regex with
  | some r0 =>
    have h0 := hc regex r0 hl
    rw [hre] at h0
    simp only [Option.some.injEq] at h0
    subst h0
    exact ⟨cache, rfl, hc⟩
  | none =>
    simp only [hre]
    refine ⟨(regex, re) :: cache, rfl, ?_⟩
    intro key r hk
    simp only [List.lookup] at hk
    by_cases hkey : key = regex
    · subst hkey
      simp only [beq_self_eq_true, Option.some.injEq] at hk
      rw [← hk]; exact hre
    · have hb : (key == regex) = false := by simpa using hkey
      simp only [hb] at hk
      exact hc key r hk

/-- C7. `grepif` and `grep` agree: for every string and every pattern that compiles
(matching abstracted as the list of successive matches with their groups), both calls
return, `grepif` writes 1 if and only if the array written by `grep` is non-empty, and
writes 0 if and only if it is empty. -/
theorem grepif_iff_grep_nonempty (lib : RegexLib) (cg ci : RegexCache lib)
    (str regex : List Char) (re : lib.Regex)
    (hg : RegexCache.Valid lib cg) (hi : RegexCache.Valid lib ci)
    (hre : lib.compile regex = some re) :
    ∃ out cg' flag ci',
      grep lib cg str regex = .ok (out, cg') ∧ grepif lib ci str regex = .ok (flag, ci') ∧
      (flag = 1 ↔ out ≠ []) ∧ (flag = 0 ↔ out = []) := by
  obtain ⟨cg', hcg, _⟩ := cacheGet_valid lib cg regex re hg hre
  obtain ⟨ci', hci, _⟩ := cacheGet_valid lib ci regex re hi hre
  refine ⟨grepLoop [] (lib.findAll re str),
    cg', if regex_search lib re str then 1 else 0, ci', ?_, ?_, ?_⟩
  · simp only [grep, hcg, Res.bind]
  · simp only [grepif, hci, Res.bind]
  · rw [grepLoop_eq, List.nil_append]
    unfold regex_search
    cases hm : lib.findAll re str with
    | nil => simp
    | cons m t =>
      have := grepYield_ne_nil m
      simp [this]

/-- Witness of C7 on the engine of scenario 6, both caches empty. -/
theorem grepif_iff_grep_nonempty_witness :
    ∃ out cg' flag ci',
      grep scenarioLib [] "x=1 y=2".toList "([a-z])=([0-9])".toList = .ok (out, cg') ∧
      grepif scenarioLib [] "x=1 y=2".toList "([a-z])=([0-9])".toList = .ok (flag, ci') ∧
      (flag = 1 ↔ out ≠ []) ∧ (flag = 0 ↔ out = []) :=
  grepif_iff_grep_nonempty scenarioLib [] [] "x=1 y=2".toList "([a-z])=([0-9])".toList ()
    (fun _ _ h => by simp [List.lookup] at h) (fun _ _ h => by simp [List.lookup] at h) rfl

/-- C8. Output shape of `grep`: for every string and every pattern that compiles, the
array written is the concatenation, over the successive matches in order, of the
full match alone when the match has no capture group and of the capture groups
1..k in order, without the full match, when it has k ≥ 1 of them. -/
theorem grep_output_shape (lib : RegexLib) (cache : RegexCache lib)
    (str regex : List Char) (re : lib.Regex)
    (hc : RegexCache.Valid lib cache) (hre : lib.compile regex = some re) :
    ∃ cache', grep lib cache str regex
      = .ok ((lib.findAll re str).flatMap
          (fun m => if m.groups = [] then [m.full] else m.groups), cache') := by
  obtain ⟨cache', hget, _⟩ := cacheGet_valid lib cache regex re hc hre
  refine ⟨cache', ?_⟩
  simp only [grep, hget, Res.bind, grepLoop_eq, List.nil_append]
  rfl

/-- Witness of C8 on scenario 6: with the matches `x=1` and `y=2` and their groups,
`grep("x=1 y=2", "([a-z])=([0-9])")` writes `["x","1","y","2"]`. -/
theorem grep_output_shape_witness :
    (∃ cache', grep scenarioLib [] "x=1 y=2".toList "([a-z])=([0-9])".toList
      = .ok ((scenarioLib.findAll () "x=1 y=2".toList).flatMap
          (fun m => if m.groups = [] then [m.full] else m.groups), cache')) ∧
    grep scenarioLib [] "x=1 y=2".toList "([a-z])=([0-9])".toList
      = .ok (["x".toList, "1".toList, "y".toList, "2".toList],
          [("([a-z])=([0-9])".toList, ())]) :=
  ⟨grep_output_shape scenarioLib [] "x=1 y=2".toList "([a-z])=([0-9])".toList ()
      (fun _ _ h => by simp [List.lookup] at h) rfl,
    rfl⟩

/-! ## The generator `GEN` -/

@[simp] theorem Res.bind_ok {α β : Type} (a : α) (f : α → Res β) : (Res.ok a).bind f = f a := rfl

theorem sem_succ (M : ObjModel) (f : Nat) :
    sem M (f + 1) = { run := runLoop M (sem M f), produce := produce (sem M f),
                      fill := fillLoop (sem M f) } := rfl

theorem lt_length_of_getElem? {α : Type} (l : List α) (n : Nat) (a : α) (h : l[n]? = some a) :
    n < l.length := by
  rcases Nat.lt_or_ge n l.length with h1 | h1
  · exact h1
  · rw [List.getElem?_eq_none h1] at h; exact absurd h (by simp)

theorem count_after_step (l ev : List Event) (a b c e : Event) (he : e ∉ ev) :
    (l ++ [a, b, c] ++ ev).count e = l.count e + [a, b, c].count e := by
  rw [List.count_append, List.count_append, List.count_eq_zero.2 he, Nat.add_zero]

/-- Counterexample to C9. The program `[GEN, ARR]` on a source with the two elements in
cells 0 and 1 (N = 2): draining the generator into the array evaluates the body
closure (closure 0 of the command whose object is cell 3) three times, not twice; the
third evaluation is made by the call of `next` on which the source reports `ok=false`.
The source, in cell 2, is stepped three times. -/
theorem gen_drain_counterexample :
    demoRuntime.heap[2]? = some (.seq .plain none (.iter [0, 1])) ∧
    ∃ r, execute_run bareModel 5 [genCmd, arrCmd] demoRuntime = .ok r ∧
      r.heap[4]? = some (.arr [5, 6]) ∧
      r.trace.count (Event.closure (some 3) 0) = 3 ∧
      r.trace.count (Event.next 2) = 3 :=
  ⟨rfl, _, rfl, rfl, rfl, rfl⟩

/-- One call of `next` on a generator whose body is the single command `VAR(slot)` and
whose source is a finite sequencer with an element left. -/
theorem gen_next_var (M : ObjModel) (f slot dst src x : Nat) (xs : List Nat)
    (tv t0 : TabType) (cv : List Closure) (ov : Ptr) (fv : Nat)
    (kd ks : SeqKind) (hd hs : Ptr) (r : Runtime)
    (hdst : r.heap[dst]? = some (.seq kd hd (.gen src (.UINT slot) (some dst)
      (.mk [.mk .VAR (.UINT slot) tv cv ov fv] t0))))
    (hsrc : r.heap[src]? = some (.seq ks hs (.iter (x :: xs))))
    (hslot : slot < r.vars.length) :
    (sem M (f + 2)).next dst r =
      .ok ({ vars := r.vars.set slot (some x), stack := r.stack,
             heap := r.heap.set src (.seq ks hs (.iter xs)),
             trace := r.trace ++ [Event.next dst, Event.next src,
               Event.closure (some dst) 0] }, some x, true) := by
  simp only [Sem.next, sem_succ, produce, genLambda, Runtime.log, hdst, hsrc, Res.bind_ok, Atom.asUInt,
    Runtime.set_var, Runtime.store, List.length_set, hslot, if_true, _exec_closure,
    Closure.code, runLoop, step, Command.cmd, Command.arg, Runtime.get_var,
    List.getElem?_set_self hslot, Runtime.push_back, Runtime.back, List.getLast?_concat]
  simp

theorem set_of_getElem? {α : Type} (l : List α) (n : Nat) (a : α) (h : l[n]? = some a) :
    l.set n a = l := by
  apply List.ext_getElem?
  intro i
  by_cases hi : n = i
  · subst hi
    have hl : n < l.length := by
      rcases Nat.lt_or_ge n l.length with h1 | h1
      · exact h1
      · rw [List.getElem?_eq_none h1] at h; exact absurd h (by simp)
    rw [List.getElem?_set_self hl, h]
  · rw [List.getElem?_set_ne hi]

/-- Stepping such a generator `k` times yields the first `k` element cells of its
source, in order. -/
theorem pull_gen_var (M : ObjModel) (f slot dst src : Nat)
    (tv t0 : TabType) (cv : List Closure) (ov : Ptr) (fv : Nat)
    (kd ks : SeqKind) (hd hs : Ptr) (hne : src ≠ dst) :
    ∀ (k : Nat) (xs : List Nat) (r : Runtime),
      r.heap[dst]? = some (.seq kd hd (.gen src (.UINT slot) (some dst)
        (.mk [.mk .VAR (.UINT slot) tv cv ov fv] t0))) →
      r.heap[src]? = some (.seq ks hs (.iter xs)) →
      slot < r.vars.length → k ≤ xs.length →
      ∃ rK, pull (sem M (f + 2)) dst k r = .ok (rK, (xs.take k).map fun x => (some x, true)) ∧
        rK.trace = r.trace ++ (List.replicate k
          [Event.next dst, Event.next src, Event.closure (some dst) 0]).flatten ∧
        rK.vars = (xs.take k).foldl (fun vs x => vs.set slot (some x)) r.vars ∧
        rK.stack = r.stack ∧
        rK.heap = r.heap.set src (.seq ks hs (.iter (xs.drop k))) := by
  intro k
  induction k with
  | zero =>
    intro xs r _ hsrc _ _
    refine ⟨r, rfl, by simp, rfl, rfl, ?_⟩
    simp only [List.drop_zero]
    exact (set_of_getElem? _ _ _ hsrc).symm
  | succ k ih =>
    intro xs r hdst hsrc hslot hk
    cases xs with
    | nil => simp at hk
    | cons x xs =>
      have hstep := gen_next_var M f slot dst src x xs tv t0 cv ov fv kd ks hd hs r
        hdst hsrc hslot
      have hsl : src < r.heap.length := by
        rcases Nat.lt_or_ge src r.heap.length with h | h
        · exact h
        · rw [List.getElem?_eq_none h] at hsrc; exact absurd hsrc (by simp)
      obtain ⟨rK, hp, ht, hv, hs', hh⟩ := ih xs
        { vars := r.vars.set slot (some x), stack := r.stack,
          heap := r.heap.set src (.seq ks hs (.iter xs)),
          trace := r.trace ++ [Event.next dst, Event.next src, Event.closure (some dst) 0] }
        (by simp only [List.getElem?_set_ne hne]; exact hdst)
        (by simp only [List.getElem?_set_self hsl])
        (by simp only [List.length_set]; exact hslot)
        (by simpa using hk)
      refine ⟨rK, ?_, ?_, ?_, ?_, ?_⟩
      · simp only [pull, hstep, Res.bind_ok, hp, List.take_succ_cons, List.map_cons]
      · rw [ht]
        simp only [List.replicate_succ, List.flatten_cons, List.append_assoc]
      · rw [hv]; simp only [List.take_succ_cons, List.foldl_cons]
      · rw [hs']
      · rw [hh]; simp only [List.set_set, List.drop_succ_cons]

/-- What a call of `next` on a generator does, whatever its body and source: it calls
`next` of the source once, stores the element in the loop slot, evaluates the body
closure and returns its value together with the `ok` of the source. -/
theorem gen_next_eq (M : ObjModel) (g slot dst src : Nat) (closure0 : Closure)
    (kd : SeqKind) (hd : Ptr) (r : Runtime)
    (hdst : r.heap[dst]? = some (.seq kd hd (.gen src (.UINT slot) (some dst) closure0))) :
    (sem M (g + 2)).next dst r =
      ((sem M (g + 1)).next src (r.log (.next dst))).bind fun (ra, x, ok) =>
        (ra.set_var slot x).bind fun rb =>
          (_exec_closure (sem M (g + 1)).run (some dst) 0 rb closure0).bind fun (rc, val) =>
            .ok (rc, val, ok) := by
  have hlog : (r.log (.next dst)).heap[dst]? =
      some (.seq kd hd (.gen src (.UINT slot) (some dst) closure0)) := hdst
  have h2 : (sem M (g + 2)).next dst r = produce (sem M (g + 1)) dst (r.log (.next dst)) := rfl
  rw [h2]
  simp only [produce, genLambda, hlog, Atom.asUInt, Res.bind_ok]

/-- C10. Capture semantics of `GEN`. Executing `GEN(slot)` evaluates the source closure
(closure 1) once, to the sequencer in cell `src`, installs in the result sequencer a
producer that holds `src`, and pushes the result sequencer. From then on closure 1 is
not evaluated again: every call of `next` on the result sequencer calls `next` of the
source once, stores the element in variable slot `slot`, evaluates the body closure
(closure 0) and returns its value. With the body `[VAR slot]` and a finite source, the
first `k` calls therefore yield, in order, the first `k` elements of the source. -/
theorem gen_capture (M : ObjModel) (f g k slot dst src fn : Nat)
    (ty : TabType) (closure0 closure1 : Closure)
    (kd ks : SeqKind) (hd hs : Ptr) (p0 : Producer) (xs : List Nat) (r r1 : Runtime)
    (h1 : _exec_closure (sem M f).run (some dst) 1 r closure1 = .ok (r1, some src))
    (hdst : r1.heap[dst]? = some (.seq kd hd p0))
    (hsrc : r1.heap[src]? = some (.seq ks hs (.iter xs)))
    (hne : src ≠ dst) (hslot : slot < r1.vars.length) (hk : k ≤ xs.length) :
    ∃ rG,
      step M (sem M f) (.mk .GEN (.UINT slot) ty [closure0, closure1] (some dst) fn) r
        = .ok rG ∧
      rG.stack = r1.stack ++ [some dst] ∧ rG.vars = r1.vars ∧ rG.trace = r1.trace ∧
      rG.heap = r1.heap.set dst (.seq kd hd (.gen src (.UINT slot) (some dst) closure0)) ∧
      (∀ r2 : Runtime, r2.heap[dst]? = rG.heap[dst]? →
        (sem M (g + 2)).next dst r2 =
          ((sem M (g + 1)).next src (r2.log (.next dst))).bind fun (ra, x, ok) =>
            (ra.set_var slot x).bind fun rb =>
              (_exec_closure (sem M (g + 1)).run (some dst) 0 rb closure0).bind
                fun (rc, val) => .ok (rc, val, ok)) ∧
      ((∃ tv cv ov fv, closure0.code = [.mk .VAR (.UINT slot) tv cv ov fv]) →
        ∃ rK, pull (sem M (g + 2)) dst k rG
            = .ok (rK, (xs.take k).map fun x => (some x, true)) ∧
          rK.trace = r1.trace ++ (List.replicate k
            [Event.next dst, Event.next src, Event.closure (some dst) 0]).flatten ∧
          rK.vars = (xs.take k).foldl (fun vs x => vs.set slot (some x)) r1.vars ∧
          rK.stack = rG.stack ∧
          rK.heap = rG.heap.set src (.seq ks hs (.iter (xs.drop k)))) := by
  have hdl : dst < r1.heap.length := lt_length_of_getElem? _ _ _ hdst
  have hG : step M (sem M f) (.mk .GEN (.UINT slot) ty [closure0, closure1] (some dst) fn) r
      = .ok { vars := r1.vars, stack := r1.stack ++ [some dst],
              heap := r1.heap.set dst
                (.seq kd hd (.gen src (.UINT slot) (some dst) closure0)),
              trace := r1.trace } := by
    simp [step, Command.cmd, Command.closure, Command.object, Command.arg, h1, getSequencer,
      hsrc, hdst, Runtime.store, Runtime.push_back]
  refine ⟨_, hG, rfl, rfl, rfl, rfl, ?_, ?_⟩
  · intro r2 h2
    simp only [List.getElem?_set_self hdl] at h2
    exact gen_next_eq M g slot dst src closure0 kd hd r2 h2
  · rintro ⟨tv, cv, ov, fv, hcode⟩
    obtain ⟨code, t0⟩ := closure0
    simp only [Closure.code] at hcode
    subst hcode
    exact pull_gen_var M g slot dst src tv t0 cv ov fv kd ks hd hs hne k xs
      { vars := r1.vars, stack := r1.stack ++ [some dst],
        heap := r1.heap.set dst (.seq kd hd (.gen src (.UINT slot) (some dst)
          (.mk [.mk .VAR (.UINT slot) tv cv ov fv] t0))),
        trace := r1.trace }
      (by simp only [List.getElem?_set_self hdl])
      (by simp only [List.getElem?_set_ne (Ne.symm hne)]; exact hsrc)
      hslot hk

/-- Witness of C10 on the generator of the example: executing `GEN` and stepping the
result twice yields the source's elements, cells 0 and 1, and the trace holds one
evaluation of closure 1, made by `GEN`. -/
theorem gen_capture_witness :
    ∃ rG rK, step bareModel (sem bareModel 2) genCmd demoRuntime = .ok rG ∧
      pull (sem bareModel 2) 3 2 rG = .ok (rK, [(some 0, true), (some 1, true)]) ∧
      rK.trace = [Event.closure (some 3) 1, Event.next 3, Event.next 2,
        Event.closure (some 3) 0, Event.next 3, Event.next 2, Event.closure (some 3) 0] := by
  obtain ⟨rG, hG, _, _, _, _, _, hpull⟩ :=
    gen_capture bareModel 2 0 2 1 3 2 0 seqOfInt (.mk [varCmd 1] (.mk .INT []))
      (.mk [varCmd 0] seqOfInt) .plain .plain none none .empty [0, 1] demoRuntime
      { demoRuntime with trace := [Event.closure (some 3) 1] } rfl rfl rfl (by decide)
      (by decide) (by decide)
  obtain ⟨rK, hp, ht, _⟩ := hpull ⟨_, _, _, _, rfl⟩
  exact ⟨rG, rK, hG, hp, ht⟩

/-! ## Integer operators and conversions -/

theorem getLast?_append_two {α : Type} (s : List α) (a b : α) :
    (s ++ [a, b]).getLast? = some b := by
  have : s ++ [a, b] = (s ++ [a]) ++ [b] := by simp
  rw [this, List.getLast?_concat]

theorem dropLast_append_two {α : Type} (s : List α) (a b : α) :
    (s ++ [a, b]).dropLast = s ++ [a] := by
  have : s ++ [a, b] = (s ++ [a]) ++ [b] := by simp
  rw [this, List.dropLast_concat]

/-- A binary operator on `Int` applied to a stack `[.., L, R]`: the operation is taken
with the left operand first, and its result, when there is one, overwrites the
object of the left operand, which is the new top. -/
theorem binInt_eq (op : Int → Int → Res Int) (r : Runtime) (s : List Ptr) (pl pr : Nat)
    (L R : Int) (hstack : r.stack = s ++ [some pl, some pr])
    (hL : r.heap[pl]? = some (.int L)) (hR : r.heap[pr]? = some (.int R)) :
    binInt op r = (op L R).bind fun v =>
      .ok { r with stack := s ++ [some pl], heap := r.heap.set pl (.int v),
                   trace := r.trace ++ [.pop (s.length + 1)] } := by
  simp [binInt, Runtime.back, Runtime.pop_back, hstack, getLast?_append_two,
    dropLast_append_two, getInt, hL, hR, Runtime.store, List.getLast?_concat]

/-- Counterexample to C11. The program `10 / 0` of scenario 8: `DIV_I` executes the
division `b.v / a.v` with the divisor 0. No exception is thrown, so the run does not
end in an error that the driver could report; the outcome is undefined behaviour. -/
theorem div_by_zero_counterexample :
    execute bareModel printDigits 1 divZeroProgram (.mk .INT []) 1 [] = .ub ∧
    ∀ msg, execute bareModel printDigits 1 divZeroProgram (.mk .INT []) 1 [] ≠ .error msg := by
  refine ⟨rfl, ?_⟩
  intro msg h
  have h1 : execute bareModel printDigits 1 divZeroProgram (.mk .INT []) 1 [] = .ub := rfl
  rw [h1] at h
  exact Res.noConfusion h

/-- C11, amended. For every stack whose top two elements are `Int`s with the top (the
right operand) equal to 0, executing `DIV_I` or `MOD` performs the machine division
unguarded: no value is produced and no exception is thrown; the outcome is the
undefined behaviour of a division by zero (a trap on the usual hardware). -/
theorem div_by_zero_unguarded (M : ObjModel) (rec : Sem) (c : Command) (r : Runtime)
    (s : List Ptr) (pl pr : Nat) (L : Int)
    (hc : c.cmd = .DIV_I ∨ c.cmd = .MOD)
    (hstack : r.stack = s ++ [some pl, some pr])
    (hL : r.heap[pl]? = some (.int L)) (hR : r.heap[pr]? = some (.int 0)) :
    step M rec c r = .ub := by
  rcases hc with hc | hc
  · simp only [step, hc, binInt_eq divInt r s pl pr L 0 hstack hL hR]
    simp [divInt, Res.bind]
  · simp only [step, hc, binInt_eq modInt r s pl pr L 0 hstack hL hR]
    simp [modInt, Res.bind]

/-- Witness of the amended C11: `DIV_I` on the stack `[10, 0]`. -/
theorem div_by_zero_unguarded_witness :
    step bareModel (sem bareModel 0) (opCmd .DIV_I)
      { vars := [], stack := [some 0, some 1], heap := [.int 10, .int 0], trace := [] } = .ub :=
  div_by_zero_unguarded bareModel (sem bareModel 0) (opCmd .DIV_I)
    { vars := [], stack := [some 0, some 1], heap := [.int 10, .int 0], trace := [] }
    [] 0 1 10 (Or.inl rfl) rfl rfl rfl

/-- Counterexample to C12. `DIV_I` on the stack `[L, R]` with `L` the least 64-bit value
and `R = -1`, a divisor other than 0: the quotient `2 ^ 63` is no 64-bit value, the
division is undefined and traps; the left operand does not come to hold `L / R`. -/
theorem binary_int_counterexample :
    step bareModel (sem bareModel 0) (opCmd .DIV_I)
      { vars := [], stack := [some 0, some 1],
        heap := [.int (-9223372036854775808), .int (-1)], trace := [] } = .ub := by
  rfl

/-- C12, amended. For every stack `[.., L, R]` of two `Int`s (`R` on top), executing
`SUB_I`, `ADD_I`, `MUL_I`, `AND`, `OR`, `XOR`, or `DIV_I` or `MOD` with `R` other than 0 and
not the least value divided by `-1`, leaves the stack one element shorter with the
same object `L` on top, now holding `L op R` (left operand first), and the elements
below unchanged. -/
theorem binary_int_in_place (M : ObjModel) (rec : Sem) (c : Command) (r : Runtime)
    (s : List Ptr) (pl pr : Nat) (L R v : Int)
    (hstack : r.stack = s ++ [some pl, some pr])
    (hL : r.heap[pl]? = some (.int L)) (hR : r.heap[pr]? = some (.int R))
    (hv : intResult c.cmd L R = some v) :
    step M rec c r =
      .ok { r with stack := s ++ [some pl], heap := r.heap.set pl (.int v),
                   trace := r.trace ++ [.pop (s.length + 1)] } := by
  have hbin := fun op => binInt_eq op r s pl pr L R hstack hL hR
  cases hc : c.cmd <;> rw [hc] at hv <;> simp only [intResult] at hv
  any_goals exact Option.noConfusion hv
  case MUL_I | ADD_I | SUB_I | AND | OR | XOR =>
    all_goals
      simp only [Option.some.injEq] at hv
      subst hv
      simp only [step, hc, hbin, Res.bind]
  case DIV_I | MOD =>
    all_goals
      split at hv
      · exact Option.noConfusion hv
      · rename_i hcond
        simp only [Option.some.injEq] at hv
        subst hv
        simp only [not_or, not_and] at hcond
        simp only [step, hc, hbin, divInt, modInt, if_neg hcond.1]
        have h2 : ¬ (L = -(2 ^ 63) ∧ R = -1) := fun h => hcond.2 h.1 h.2
        simp only [if_neg h2, Res.bind]

/-- Witness of the amended C12: `3 - 5` on the stack `[3, 5]` leaves `-2` in the left
operand (and not `5 - 3`); and the program `2 + 3 * 4` of scenario 2 prints `14`. -/
theorem binary_int_in_place_witness :
    step bareModel (sem bareModel 0) (opCmd .SUB_I)
        { vars := [], stack := [some 0, some 1], heap := [.int 3, .int 5], trace := [] }
      = .ok { vars := [], stack := [some 0], heap := [.int (-2), .int 5],
              trace := [.pop 1] } ∧
    execute bareModel printDigits 1 arithProgram (.mk .INT []) 1 [] = .ok "14\n".toList :=
  ⟨binary_int_in_place bareModel (sem bareModel 0) (opCmd .SUB_I)
      { vars := [], stack := [some 0, some 1], heap := [.int 3, .int 5], trace := [] }
      [] 0 1 3 5 (-2) rfl rfl rfl rfl,
    rfl⟩

theorem wrap64_range (m : Int) : -(2 ^ 63) ≤ wrap64 m ∧ wrap64 m < 2 ^ 63 := by
  unfold wrap64
  have h1 : 0 ≤ (m + 2 ^ 63) % 2 ^ 64 := Int.emod_nonneg _ (by norm_num)
  have h2 : (m + 2 ^ 63) % 2 ^ 64 < 2 ^ 64 := Int.emod_lt_of_pos _ (by norm_num)
  constructor <;> omega

theorem wrap64_congr (m : Int) : (2 : Int) ^ 64 ∣ wrap64 m - m := by
  unfold wrap64
  have h := Int.emod_add_ediv (m + 2 ^ 63) (2 ^ 64)
  refine ⟨-((m + 2 ^ 63) / 2 ^ 64), ?_⟩
  linarith

/-- C13. Integer arithmetic wraps: for all operands `L` and `R` on the stack `[.., L, R]`,
`ADD_I`, `SUB_I` and `MUL_I` return without error and store in the left operand the
one 64-bit signed value that differs from the mathematical result `m` by a multiple
of `2 ^ 64`. -/
theorem int_arith_wraps (M : ObjModel) (rec : Sem) (c : Command) (r : Runtime)
    (s : List Ptr) (pl pr : Nat) (L R m : Int)
    (hop : (c.cmd = .ADD_I ∧ m = L + R) ∨ (c.cmd = .SUB_I ∧ m = L - R) ∨
      (c.cmd = .MUL_I ∧ m = L * R))
    (hstack : r.stack = s ++ [some pl, some pr])
    (hL : r.heap[pl]? = some (.int L)) (hR : r.heap[pr]? = some (.int R)) :
    ∃ v : Int, -(2 ^ 63) ≤ v ∧ v < 2 ^ 63 ∧ (2 : Int) ^ 64 ∣ v - m ∧
      (∀ w : Int, -(2 ^ 63) ≤ w → w < 2 ^ 63 → (2 : Int) ^ 64 ∣ w - m → w = v) ∧
      step M rec c r =
        .ok { r with stack := s ++ [some pl], heap := r.heap.set pl (.int v),
                     trace := r.trace ++ [.pop (s.length + 1)] } := by
  have hbin := fun op => binInt_eq op r s pl pr L R hstack hL hR
  refine ⟨wrap64 m, (wrap64_range m).1, (wrap64_range m).2, wrap64_congr m, ?_, ?_⟩
  · intro w hw1 hw2 hw3
    have hr := wrap64_range m
    obtain ⟨k, hk⟩ := hw3
    obtain ⟨j, hj⟩ := wrap64_congr m
    have : w - wrap64 m = 2 ^ 64 * (k - j) := by linarith
    omega
  · rcases hop with ⟨hc, rfl⟩ | ⟨hc, rfl⟩ | ⟨hc, rfl⟩ <;>
      simp only [step, hc, hbin, Res.bind]

/-- Witness of C13: the greatest 64-bit value plus 1 wraps to the least. -/
theorem int_arith_wraps_witness :
    ∃ v : Int, -(2 ^ 63) ≤ v ∧ v < 2 ^ 63 ∧
      (2 : Int) ^ 64 ∣ v - (9223372036854775807 + 1) ∧
      (∀ w : Int, -(2 ^ 63) ≤ w → w < 2 ^ 63 →
        (2 : Int) ^ 64 ∣ w - (9223372036854775807 + 1) → w = v) ∧
      step bareModel (sem bareModel 0) (opCmd .ADD_I)
          { vars := [], stack := [some 0, some 1],
            heap := [.int 9223372036854775807, .int 1], trace := [] }
        = .ok { vars := [], stack := [some 0],
                heap := [Obj.int 9223372036854775807, .int 1].set 0 (.int v),
                trace := [.pop 1] } :=
  int_arith_wraps bareModel (sem bareModel 0) (opCmd .ADD_I)
    { vars := [], stack := [some 0, some 1],
      heap := [.int 9223372036854775807, .int 1], trace := [] }
    [] 0 1 9223372036854775807 1 (9223372036854775807 + 1) (Or.inl ⟨rfl, rfl⟩) rfl rfl rfl

theorem int_not_eq (x : Int) : Int.not x = -x - 1 := by
  cases x with
  | ofNat n => simp [Int.not, Int.negSucc_eq]; omega
  | negSucc n => simp [Int.not, Int.negSucc_eq]

/-- C14. Integer `NOT` is self-inverse: on a stack whose top is an `Int` holding `x`, one
`NOT` leaves the stack as it is and the top object holding the complement `-x - 1`;
a second `NOT` gives back the runtime before the first. -/
theorem not_self_inverse (M : ObjModel) (rec : Sem) (c : Command) (r : Runtime)
    (s : List Ptr) (p : Nat) (x : Int)
    (hc : c.cmd = .NOT) (hstack : r.stack = s ++ [some p])
    (hx : r.heap[p]? = some (.int x)) :
    step M rec c r = .ok { r with heap := r.heap.set p (.int (-x - 1)) } ∧
    step M rec c { r with heap := r.heap.set p (.int (-x - 1)) } = .ok r := by
  have hp : p < r.heap.length := lt_length_of_getElem? _ _ _ hx
  constructor
  · simp [step, hc, Runtime.back, hstack, getInt, hx, Runtime.store, int_not_eq]
  · have hback : (r.heap.set p (.int (-x - 1))).set p (.int x) = r.heap := by
      rw [List.set_set]; exact set_of_getElem? _ _ _ hx
    simp [step, hc, Runtime.back, hstack, getInt, List.getElem?_set_self hp, Runtime.store,
      int_not_eq, hback]
    rw [← hstack]

/-- Witness of C14: `NOT` twice on a stack holding 5. -/
theorem not_self_inverse_witness :
    step bareModel (sem bareModel 0) (opCmd .NOT)
        { vars := [], stack := [some 0], heap := [.int 5], trace := [] }
      = .ok { vars := [], stack := [some 0], heap := [.int (-6)], trace := [] } ∧
    step bareModel (sem bareModel 0) (opCmd .NOT)
        { vars := [], stack := [some 0], heap := [.int (-6)], trace := [] }
      = .ok { vars := [], stack := [some 0], heap := [.int 5], trace := [] } :=
  not_self_inverse bareModel (sem bareModel 0) (opCmd .NOT)
    { vars := [], stack := [some 0], heap := [.int 5], trace := [] } [] 0 5 rfl rfl rfl

/-- C17. `I2R_2` and `U2R_2` lift the second-from-top: on a stack `[.., a, x]` with `a` an
`Int` (for `I2R_2`) or a `UInt` (for `U2R_2`), the step yields the stack `[.., r, x]` where
`r` is the `Real` result cell of the command, now holding the value of `a` converted to
real; `x` is the same pointer as before and still on top, and everything below is
unchanged. -/
theorem lift_second_from_top (M : ObjModel) (rec : Sem) (c : Command) (r : Runtime)
    (s : List Ptr) (pa pr : Nat) (x : Ptr) (old conv : Float)
    (hc : (c.cmd = .I2R_2 ∧ ∃ a : Int, r.heap[pa]? = some (.int a) ∧ conv = Float.ofInt a) ∨
      (c.cmd = .U2R_2 ∧ ∃ a : Nat, r.heap[pa]? = some (.uint a) ∧ conv = Float.ofNat a))
    (hobj : c.object = some pr) (hstack : r.stack = s ++ [some pa, x])
    (hreal : r.heap[pr]? = some (.real old)) :
    step M rec c r =
      .ok { r with stack := s ++ [some pr, x], heap := r.heap.set pr (.real conv),
                   trace := r.trace ++ [.pop (s.length + 1), .pop s.length] } := by
  rcases hc with ⟨hc, a, ha, rfl⟩ | ⟨hc, a, ha, rfl⟩
  · simp [step, hc, Runtime.back, Runtime.pop_back, hstack, getLast?_append_two,
      dropLast_append_two, List.getLast?_concat, getInt, ha, storeReal, getReal, hobj, hreal,
      Runtime.store, Runtime.push_back]
  · simp [step, hc, Runtime.back, Runtime.pop_back, hstack, getLast?_append_two,
      dropLast_append_two, List.getLast?_concat, getUInt, ha, storeReal, getReal, hobj, hreal,
      Runtime.store, Runtime.push_back]

/-- Witness of C17: `I2R_2` on the stack `[7, x]` with `x` a `Real`. -/
theorem lift_second_from_top_witness :
    step bareModel (sem bareModel 0) (.mk .I2R_2 (.UINT 0) (.mk .REAL []) [] (some 2) 0)
        { vars := [], stack := [some 0, some 1],
          heap := [.int 7, .real 0, .real 0], trace := [] }
      = .ok { vars := [], stack := [some 2, some 1],
              heap := [Obj.int 7, .real 0, .real 0].set 2 (.real (Float.ofInt 7)),
              trace := [.pop 1, .pop 0] } :=
  lift_second_from_top bareModel (sem bareModel 0)
    (.mk .I2R_2 (.UINT 0) (.mk .REAL []) [] (some 2) 0)
    { vars := [], stack := [some 0, some 1],
      heap := [.int 7, .real 0, .real 0], trace := [] }
    [] 0 2 (some 1) 0 (Float.ofInt 7) (Or.inl ⟨rfl, 7, rfl, rfl⟩) rfl rfl rfl

/-! ## The command line -/

theorem appendArgs_of_pos (xs : List (List Char)) :
    ∀ text : List Char, text ≠ [] →
      appendArgs text xs = text ++ (xs.map fun a => ' ' :: a).flatten := by
  induction xs with
  | nil => intro text _; simp [appendArgs]
  | cons a rest ih =>
    intro text ht
    have hpos : text.length > 0 := List.length_pos.2 ht
    have hne : text ++ [' '] ++ a ≠ [] := by simp
    have h := ih (text ++ [' '] ++ a) hne
    simp only [appendArgs, List.foldl_cons, hpos, if_true] at h ⊢
    rw [h]
    simp

theorem intercalate_cons_space (a : List Char) (rest : List (List Char)) :
    List.intercalate [' '] (a :: rest) = a ++ (rest.map fun b => ' ' :: b).flatten := by
  induction rest generalizing a with
  | nil => simp [List.intercalate]
  | cons b rest ih =>
    have h := ih b
    simp only [List.intercalate] at h ⊢
    simp only [List.intersperse, List.flatten_cons, List.map_cons] at h ⊢
    rw [h]
    simp

/-- Appending arguments to the empty text: empty arguments in front leave the text
empty, and from the first non-empty argument on the arguments are joined by single
spaces. -/
theorem appendArgs_nil (xs : List (List Char)) :
    appendArgs [] xs = List.intercalate [' '] (xs.dropWhile fun a => a.isEmpty) := by
  induction xs with
  | nil => simp [appendArgs, List.intercalate]
  | cons a rest ih =>
    cases a with
    | nil =>
      have : appendArgs [] ([] :: rest) = appendArgs [] rest := by
        simp [appendArgs]
      rw [this, ih]
      simp [List.dropWhile]
    | cons ch a =>
      have h1 : appendArgs [] ((ch :: a) :: rest) = appendArgs (ch :: a) rest := by
        simp [appendArgs]
      rw [h1, appendArgs_of_pos rest (ch :: a) (by simp)]
      simp only [List.dropWhile, List.isEmpty_cons]
      rw [intercalate_cons_space]

theorem appendArgs_cons (text a : List Char) (xs : List (List Char)) :
    appendArgs text (a :: xs)
      = appendArgs ((if text.length > 0 then text ++ [' '] else text) ++ a) xs := by
  simp [appendArgs]

/-- The loop of `main` either stops at a trailing `-f` or hands on the text built from
the positional arguments. -/
theorem argLoop_program :
    ∀ (n : Nat) (args : List (List Char)) (st : CmdLine), args.length = n →
      argLoop args st = .error "The '-f' command line argument expects a filename argument." ∨
      ∃ st1, argLoop args st = .ok st1 ∧
        st1.program = appendArgs st.program (positional args) := by
  intro n
  induction n using Nat.strong_induction_on with
  | _ n ih =>
    intro args st hn
    match args, hn with
    | [], _ => exact Or.inr ⟨st, rfl, rfl⟩
    | [arg], _ =>
      by_cases h1 : arg = ['-', 'v']
      · right; simp [argLoop, positional, h1, appendArgs]
      by_cases h2 : arg = ['-', 'v', 'v']
      · right; simp [argLoop, positional, h1, h2, appendArgs]
      by_cases h3 : arg = ['-', 'v', 'v', 'v']
      · right; simp [argLoop, positional, h1, h2, h3, appendArgs]
      by_cases h4 : arg = ['-', 'f']
      · left; simp [argLoop, h1, h2, h3, h4]
      · right; simp [argLoop, positional, h1, h2, h3, h4, appendArgs]
    | arg :: next :: rest, hn =>
      have hlen1 : (next :: rest).length < n := by rw [← hn]; simp
      have hlen2 : rest.length < n := by rw [← hn]; simp; omega
      by_cases h1 : arg = ['-', 'v']
      · have := ih _ hlen1 (next :: rest) { st with debuglevel := 1 } rfl
        simpa [argLoop, positional, h1] using this
      by_cases h2 : arg = ['-', 'v', 'v']
      · have := ih _ hlen1 (next :: rest) { st with debuglevel := 2 } rfl
        simpa [argLoop, positional, h1, h2] using this
      by_cases h3 : arg = ['-', 'v', 'v', 'v']
      · have := ih _ hlen1 (next :: rest) { st with debuglevel := 3 } rfl
        simpa [argLoop, positional, h1, h2, h3] using this
      by_cases h4 : arg = ['-', 'f']
      · have := ih _ hlen2 rest { st with infile := next } rfl
        simpa [argLoop, positional, h1, h2, h3, h4] using this
      · have := ih _ hlen1 (next :: rest)
          { st with program := (if st.program.length > 0 then st.program ++ [' ']
              else st.program) ++ arg } rfl
        have e1 : "-v".toList = ['-', 'v'] := rfl
        have e2 : "-vv".toList = ['-', 'v', 'v'] := rfl
        have e3 : "-vvv".toList = ['-', 'v', 'v', 'v'] := rfl
        have e4 : "-f".toList = ['-', 'f'] := rfl
        simp only [argLoop, positional, e1, e2, e3, e4, h1, h2, h3, h4, if_false, or_self,
          appendArgs_cons]
        exact this

/-- Counterexample to C18. With the arguments `""` and `"x"`, both positional, the
program text is `"x"`: the guard `program.size() > 0` puts no space before `"x"`, since
the text is still empty. Joined with a single space the two arguments give `" x"`. -/
theorem program_text_counterexample :
    positional ["".toList, "x".toList] = ["".toList, "x".toList] ∧
    commandLine ["tab".toList, "".toList, "x".toList]
      = .ok { debuglevel := 0, program := "x".toList, infile := [] } ∧
    List.intercalate [' '] ["".toList, "x".toList] = " x".toList := by
  decide

/-- C18, amended. For every argument vector, `main` either prints its usage (no
argument), or throws at a trailing `-f`, or hands to the parser the positional
arguments (all arguments other than `-v`, `-vv`, `-vvv`, and `-f` together with the
filename that follows it), without the empty ones in front of the first non-empty
one, joined in order with a single space between consecutive arguments. -/
theorem program_text (argv : List (List Char)) :
    (argv.length < 2 ∧ commandLine argv = .error "Usage: <expression>") ∨
    commandLine argv
      = .error "The '-f' command line argument expects a filename argument." ∨
    ∃ st, commandLine argv = .ok st ∧
      st.program = List.intercalate [' ']
        ((positional (argv.drop 1)).dropWhile fun a => a.isEmpty) := by
  by_cases h : argv.length < 2
  · left; exact ⟨h, by simp [commandLine, h]⟩
  · right
    have hc : commandLine argv
        = argLoop (argv.drop 1) { debuglevel := 0, program := [], infile := [] } := by
      simp [commandLine, h]
    rcases argLoop_program _ (argv.drop 1) { debuglevel := 0, program := [], infile := [] } rfl
      with he | ⟨st, hok, hp⟩
    · left; rw [hc, he]
    · right
      refine ⟨st, by rw [hc, hok], ?_⟩
      rw [hp, appendArgs_nil]

/-! ## The end of the run -/

/-- C15. End-of-run stack check: when the init pass and the run pass have returned, the
run pass with the runtime `rt2`, `execute` throws "Sanity error: did not produce result"
if and only if the operand stack of `rt2` does not have size exactly 1; when the stack
is the single object `res`, `execute` prints `res` followed by a newline; and when the
size is 1 no exception leaves `execute`. -/
theorem execute_sanity (M : ObjModel) (print : Heap → Nat → List Char) (fuel : Nat)
    (commands : List Command) (type : TabType) (nvars : Nat) (inputs : List (List Char))
    (cs1 : List Command) (rt1 rt2 : Runtime)
    (hsetup : executeSetup M commands nvars inputs = .ok (cs1, rt1))
    (hrun : execute_run M fuel cs1 rt1 = .ok rt2) :
    (execute M print fuel commands type nvars inputs
        = .error "Sanity error: did not produce result" ↔ rt2.stack.length ≠ 1) ∧
    (∀ res, rt2.stack = [some res] →
      execute M print fuel commands type nvars inputs
        = .ok (print rt2.heap res ++ ['\n'])) ∧
    (rt2.stack.length = 1 →
      ∀ msg, execute M print fuel commands type nvars inputs ≠ .error msg) := by
  have hex : execute M print fuel commands type nvars inputs =
      if rt2.stack.length ≠ 1 then .error "Sanity error: did not produce result"
      else
        match rt2.stack[0]? with
        | some (some res) => .ok (print rt2.heap res ++ ['\n'])
        | _ => .ub := by
    simp only [execute, hsetup, Res.bind_ok, hrun]
  refine ⟨?_, ?_, ?_⟩
  · constructor
    · intro h
      by_contra hlen
      rw [hex, if_neg (not_not.mpr hlen)] at h
      split at h <;> exact Res.noConfusion h
    · intro hlen
      rw [hex, if_pos hlen]
  · intro res hres
    rw [hex, hres]
    simp
  · intro hlen msg h
    rw [hex, if_neg (not_not.mpr hlen)] at h
    split at h <;> exact Res.noConfusion h

/-- Witness of C15: the empty program leaves the stack empty and `execute` throws the
sanity error; the program `2 + 3 * 4` leaves one object and `execute` prints `14`. -/
theorem execute_sanity_witness :
    execute bareModel printDigits 1 [] (.mk .INT []) 1 []
      = .error "Sanity error: did not produce result" ∧
    execute bareModel printDigits 1 arithProgram (.mk .INT []) 1 [] = .ok "14\n".toList :=
  ⟨(execute_sanity bareModel printDigits 1 [] (.mk .INT []) 1 [] [] 
      { vars := [some 0], stack := [], heap := [.seq .file none (.iter [])], trace := [] }
      { vars := [some 0], stack := [], heap := [.seq .file none (.iter [])], trace := [] }
      rfl rfl).1.2 (by decide),
   (execute_sanity bareModel printDigits 1 arithProgram (.mk .INT []) 1 [] _ _
      { vars := [some 0], stack := [some 1],
        heap := [.seq .file none (.iter []), .int 14, .int 12, .int 4],
        trace := [.pop 2, .pop 1] }
      rfl rfl).2.1 1 rfl⟩

/-! ## The init pass -/

theorem getElem?_of_isPrefix {α : Type} {l1 l2 : List α} (h : l1 <+: l2) (n : Nat) (a : α)
    (hn : l1[n]? = some a) : l2[n]? = some a := by
  obtain ⟨t, rfl⟩ := h
  have hl : n < l1.length := lt_length_of_getElem? _ _ _ hn
  rw [List.getElem?_append_left hl, hn]

mutual
/-- The init pass only adds cells to the heap, and changes nothing of the commands but
their `object` fields. -/
theorem execute_init_grows (M : ObjModel) (hmake : ∀ t h, h <+: (M.make t h).2) :
    ∀ (cs : List Command) (heap : Heap),
      heap <+: (execute_init M cs heap).2 ∧
      stripCommands (execute_init M cs heap).1 = stripCommands cs
  | [], heap => by simp [execute_init, stripCommands]
  | c :: rest, heap => by
    have h1 := initCommand_grows M hmake c heap
    have h2 := execute_init_grows M hmake rest (initCommand M c heap).2
    simp only [execute_init, stripCommands]
    exact ⟨h1.1.trans h2.1, by rw [h1.2, h2.2]⟩
theorem initCommand_grows (M : ObjModel) (hmake : ∀ t h, h <+: (M.make t h).2) :
    ∀ (c : Command) (heap : Heap),
      heap <+: (initCommand M c heap).2 ∧
      stripCommand (initCommand M c heap).1 = stripCommand c
  | .mk cmd arg type closure object function, heap => by
    have h1 := initClosures_grows M hmake closure heap
    cases cmd <;> simp only [initCommand, stripCommand, alloc, h1.2, and_true] <;>
      first
      | exact h1.1
      | exact h1.1.trans (List.prefix_append _ _)
      | exact h1.1.trans (hmake _ _)
theorem initClosures_grows (M : ObjModel) (hmake : ∀ t h, h <+: (M.make t h).2) :
    ∀ (cl : List Closure) (heap : Heap),
      heap <+: (initClosures M cl heap).2 ∧
      stripClosures (initClosures M cl heap).1 = stripClosures cl
  | [], heap => by simp [initClosures, stripClosures]
  | .mk code type :: rest, heap => by
    have h1 := execute_init_grows M hmake code heap
    have h2 := initClosures_grows M hmake rest (execute_init M code heap).2
    simp only [initClosures, stripClosures]
    exact ⟨h1.1.trans h2.1, by rw [h1.2, h2.2]⟩
end

theorem getElem?_alloc_of_isPrefix (heap hf : Heap) (o : Obj) (h : heap ++ [o] <+: hf) :
    hf[heap.length]? = some o :=
  getElem?_of_isPrefix h heap.length o (by simp)

mutual
/-- What the init pass leaves in the commands, read in any heap that extends the heap
after the pass. -/
theorem execute_init_inited (M : ObjModel) (hmake : ∀ t h, h <+: (M.make t h).2) :
    ∀ (cs : List Command) (heap hf : Heap),
      AllCommands (fun c => c.object = none) cs → (execute_init M cs heap).2 <+: hf →
      AllCommands (Inited M hf) (execute_init M cs heap).1
  | [], heap, hf => by intro _ _; simp [execute_init, AllCommands]
  | c :: rest, heap, hf => by
    intro hfresh hpre
    simp only [AllCommands] at hfresh
    simp only [execute_init] at hpre ⊢
    have hg := (execute_init_grows M hmake rest (initCommand M c heap).2).1
    simp only [AllCommands]
    exact ⟨initCommand_inited M hmake c heap hf hfresh.1 (hg.trans hpre),
      execute_init_inited M hmake rest _ hf hfresh.2 hpre⟩
theorem initCommand_inited (M : ObjModel) (hmake : ∀ t h, h <+: (M.make t h).2) :
    ∀ (c : Command) (heap hf : Heap),
      AllCommand (fun c => c.object = none) c → (initCommand M c heap).2 <+: hf →
      AllCommand (Inited M hf) (initCommand M c heap).1
  | .mk cmd arg type closure object function, heap, hf => by
    intro hfresh hpre
    simp only [AllCommand, Command.object] at hfresh
    have hcl := fun h => initClosures_inited M hmake closure heap hf hfresh.2 h
    cases cmd <;> simp only [initCommand, alloc] at hpre ⊢ <;> simp only [AllCommand] <;>
      first
      | exact ⟨by simp only [Inited, Command.cmd, Command.object]; exact hfresh.1, hcl hpre⟩
      | exact ⟨by
            simp only [Inited, Command.cmd, Command.object, Command.arg]
            exact ⟨_, rfl, getElem?_alloc_of_isPrefix _ _ _ hpre⟩,
          hcl ((List.prefix_append _ _).trans hpre)⟩
      | exact ⟨by
            simp only [Inited, Command.cmd, Command.object, Command.type]
            exact ⟨_, rfl, hpre⟩,
          hcl ((hmake _ _).trans hpre)⟩
theorem initClosures_inited (M : ObjModel) (hmake : ∀ t h, h <+: (M.make t h).2) :
    ∀ (cl : List Closure) (heap hf : Heap),
      AllClosures (fun c => c.object = none) cl → (initClosures M cl heap).2 <+: hf →
      AllClosures (Inited M hf) (initClosures M cl heap).1
  | [], heap, hf => by intro _ _; simp [initClosures, AllClosures]
  | .mk code type :: rest, heap, hf => by
    intro hfresh hpre
    simp only [AllClosures] at hfresh
    simp only [initClosures] at hpre ⊢
    have hg := (initClosures_grows M hmake rest (execute_init M code heap).2).1
    simp only [AllClosures]
    exact ⟨execute_init_inited M hmake code heap hf hfresh.1 (hg.trans hpre),
      initClosures_inited M hmake rest _ hf hfresh.2 hpre⟩
end

theorem Res.bind_eq_ok {α β : Type} {x : Res α} {f : α → Res β} {b : β}
    (h : x.bind f = .ok b) : ∃ a, x = .ok a ∧ f a = .ok b := by
  cases x with
  | ok a => exact ⟨a, rfl, h⟩
  | error m => exact Res.noConfusion h
  | ub => exact Res.noConfusion h
  | timeout => exact Res.noConfusion h

theorem Framed.refl (r : Runtime) : Framed r r :=
  ⟨[], by simp, fun m hm _ => ⟨rfl, hm⟩⟩

theorem Framed.trans {r r1 r2 : Runtime} (h1 : Framed r r1) (h2 : Framed r1 r2) :
    Framed r r2 := by
  obtain ⟨ev1, ht1, hf1⟩ := h1
  obtain ⟨ev2, ht2, hf2⟩ := h2
  refine ⟨ev1 ++ ev2, by rw [ht2, ht1, List.append_assoc], ?_⟩
  intro m hm hpop
  obtain ⟨e1, l1⟩ := hf1 m hm (fun h hh => hpop h (List.mem_append_left _ hh))
  obtain ⟨e2, l2⟩ := hf2 m l1 (fun h hh => hpop h (List.mem_append_right _ hh))
  exact ⟨e2.trans e1, l2⟩

/-- A step that leaves stack and trace as they are is framed. -/
theorem Framed.of_eq {r r1 : Runtime} (hs : r1.stack = r.stack) (ht : r1.trace = r.trace) :
    Framed r r1 :=
  ⟨[], by simp [ht], fun m hm _ => ⟨by rw [hs], by rw [hs]; exact hm⟩⟩

theorem Framed.push (r : Runtime) (p : Ptr) : Framed r (r.push_back p) := by
  refine ⟨[], by simp [Runtime.push_back], ?_⟩
  intro m hm _
  simp only [Runtime.push_back, List.length_append, List.length_singleton]
  exact ⟨List.take_append_of_le_length hm, by omega⟩

theorem Framed.log (r : Runtime) (e : Event) : Framed r (r.log e) := by
  refine ⟨[e], rfl, ?_⟩
  intro m hm _
  exact ⟨rfl, hm⟩

theorem take_dropLast {α : Type} (l : List α) (m : Nat) (h : m ≤ l.length - 1) :
    l.dropLast.take m = l.take m := by
  rw [List.dropLast_eq_take, List.take_take, Nat.min_eq_left h]

theorem pop_back_eq {r r1 : Runtime} (h : r.pop_back = .ok r1) :
    r.stack ≠ [] ∧ r1 = { r with stack := r.stack.dropLast,
                                 trace := r.trace ++ [.pop (r.stack.length - 1)] } := by
  unfold Runtime.pop_back at h
  split at h
  · exact Res.noConfusion h
  · rename_i hne
    simp only [Res.ok.injEq] at h
    exact ⟨hne, h.symm⟩

theorem Framed.pop {r r1 : Runtime} (h : r.pop_back = .ok r1) : Framed r r1 := by
  obtain ⟨_, rfl⟩ := pop_back_eq h
  refine ⟨[.pop (r.stack.length - 1)], rfl, ?_⟩
  intro m _ hpop
  have hle : m ≤ r.stack.length - 1 := hpop _ (by simp)
  simp only [List.length_dropLast]
  exact ⟨take_dropLast _ _ hle, hle⟩

theorem back_eq {r : Runtime} {p : Ptr} (h : r.back = .ok p) : r.stack.getLast? = some p := by
  unfold Runtime.back at h
  split at h
  · rename_i q hq
    simp only [Res.ok.injEq] at h
    rw [hq, h]
  · exact Res.noConfusion h

theorem set_var_eq {r r1 : Runtime} {ix : Nat} {o : Ptr} (h : r.set_var ix o = .ok r1) :
    r1 = { r with vars := r.vars.set ix o } := by
  unfold Runtime.set_var at h
  split at h
  · simp only [Res.ok.injEq] at h; exact h.symm
  · exact Res.noConfusion h

theorem FramedEq.same (r : Runtime) : FramedEq r r := ⟨Framed.refl r, rfl⟩

theorem FramedEq.comp {r r1 r2 : Runtime} (h1 : FramedEq r r1) (h2 : FramedEq r1 r2) :
    FramedEq r r2 := ⟨h1.1.trans h2.1, h2.2.trans h1.2⟩

theorem FramedEq.of_same {r r1 : Runtime} (hs : r1.stack = r.stack) (ht : r1.trace = r.trace) :
    FramedEq r r1 := ⟨Framed.of_eq hs ht, by rw [hs]⟩

/-- A framed run from a runtime that differs from `r` in variables and heap only. -/
theorem FramedEq.from_eq {r r1 r2 : Runtime} (h : FramedEq r1 r2) (hs : r1.stack = r.stack)
    (ht : r1.trace = r.trace) : FramedEq r r2 := (FramedEq.of_same hs ht).comp h

theorem FramedEq.logged (r : Runtime) (e : Event) : FramedEq r (r.log e) :=
  ⟨Framed.log r e, rfl⟩

theorem exec_closure_framed {run : List Command → Runtime → Res Runtime}
    (hrun : ∀ cs r r1, run cs r = .ok r1 → Framed r r1) {owner : Ptr} {idx : Nat}
    {r r1 : Runtime} {cl : Closure} {p : Ptr}
    (h : _exec_closure run owner idx r cl = .ok (r1, p)) : FramedEq r r1 := by
  unfold _exec_closure at h
  obtain ⟨r2, h2, h⟩ := Res.bind_eq_ok h
  obtain ⟨o, _, h⟩ := Res.bind_eq_ok h
  split at h
  · rename_i hle
    simp only [Res.ok.injEq, Prod.mk.injEq] at h
    obtain ⟨rfl, _⟩ := h
    have hf : Framed r r2 := (Framed.log r _).trans (hrun _ _ _ h2)
    obtain ⟨ev, ht, hfr⟩ := hf
    refine ⟨⟨ev, ht, ?_⟩, ?_⟩
    · intro m hm hpop
      obtain ⟨e, l⟩ := hfr m hm hpop
      simp only [List.take_take, List.length_take]
      rw [Nat.min_eq_left hm]
      exact ⟨e, by omega⟩
    · simp only [List.length_take]
      omega
  · exact Res.noConfusion h

theorem next_framed {rec : Sem} (hrec : SemOK rec) {n : Nat} {r r1 : Runtime} {p : Ptr}
    {ok : Bool} (h : rec.next n r = .ok (r1, p, ok)) : FramedEq r r1 :=
  (FramedEq.logged r _).comp (hrec.2.1 _ _ _ _ _ h)

theorem genLambda_framed {rec : Sem} (hrec : SemOK rec) {seq : Nat} {arg : Atom} {owner : Ptr}
    {cl : Closure} {r r1 : Runtime} {p : Ptr} {ok : Bool}
    (h : genLambda rec seq arg owner cl r = .ok (r1, p, ok)) : FramedEq r r1 := by
  unfold genLambda at h
  obtain ⟨⟨ra, next, ok1⟩, ha, h⟩ := Res.bind_eq_ok h
  obtain ⟨slot, _, h⟩ := Res.bind_eq_ok h
  obtain ⟨rb, hb, h⟩ := Res.bind_eq_ok h
  obtain ⟨⟨rc, val⟩, hc, h⟩ := Res.bind_eq_ok h
  simp only [Res.ok.injEq, Prod.mk.injEq] at h
  obtain ⟨rfl, _, _⟩ := h
  have e := set_var_eq hb
  subst e
  exact (next_framed hrec ha).comp ((exec_closure_framed hrec.1 hc).from_eq rfl rfl)

theorem produce_framed {rec : Sem} (hrec : SemOK rec) {n : Nat} {r r1 : Runtime} {p : Ptr}
    {ok : Bool} (h : produce rec n r = .ok (r1, p, ok)) : FramedEq r r1 := by
  unfold produce at h
  split at h
  · rename_i kind holder pr _
    split at h
    · exact Res.noConfusion h
    · exact genLambda_framed hrec h
    · simp only [Res.ok.injEq, Prod.mk.injEq] at h
      obtain ⟨rfl, _, _⟩ := h
      exact FramedEq.same _
    · simp only [Res.ok.injEq, Prod.mk.injEq] at h
      obtain ⟨rfl, _, _⟩ := h
      exact FramedEq.of_same rfl rfl
    · split at h
      · obtain ⟨⟨ra, inner, ok1⟩, ha, h⟩ := Res.bind_eq_ok h
        simp only at h
        split at h
        · exact (next_framed hrec ha).comp ((hrec.2.1 _ _ _ _ _ h).from_eq rfl rfl)
        · simp only [Res.ok.injEq, Prod.mk.injEq] at h
          obtain ⟨rfl, _, _⟩ := h
          exact next_framed hrec ha
      · exact Res.noConfusion h
    · obtain ⟨⟨ra, x, ok1⟩, ha, h⟩ := Res.bind_eq_ok h
      simp only at h
      split at h
      · simp only [Res.ok.injEq, Prod.mk.injEq] at h
        obtain ⟨rfl, _, _⟩ := h
        exact next_framed hrec ha
      · exact (next_framed hrec ha).comp ((hrec.2.1 _ _ _ _ _ h).from_eq rfl rfl)
  · exact Res.noConfusion h

theorem fillLoop_framed {rec : Sem} (hrec : SemOK rec) {seq : Nat} {acc : List Nat}
    {r r1 : Runtime} {cells : List Nat}
    (h : fillLoop rec seq acc r = .ok (r1, cells)) : FramedEq r r1 := by
  unfold fillLoop at h
  obtain ⟨⟨ra, x, ok1⟩, ha, h⟩ := Res.bind_eq_ok h
  simp only at h
  split at h
  · split at h
    · exact (next_framed hrec ha).comp ((hrec.2.2 _ _ _ _ _ h).from_eq rfl rfl)
    · exact Res.noConfusion h
  · simp only [Res.ok.injEq, Prod.mk.injEq] at h
    obtain ⟨rfl, _⟩ := h
    exact next_framed hrec ha

theorem fill_framed {rec : Sem} (hrec : SemOK rec) {dst : Ptr} {seq : Nat}
    {r r1 : Runtime} (h : fill rec dst seq r = .ok r1) : FramedEq r r1 := by
  unfold fill at h
  split at h
  · split at h
    · obtain ⟨⟨ra, cells⟩, ha, h⟩ := Res.bind_eq_ok h
      simp only [Res.ok.injEq] at h
      subst h
      exact (fillLoop_framed hrec ha).comp (FramedEq.of_same rfl rfl)
    · obtain ⟨⟨ra, cells⟩, ha, h⟩ := Res.bind_eq_ok h
      simp only at h
      split at h
      · simp only [Res.ok.injEq] at h
        subst h
        exact (fillLoop_framed hrec ha).comp (FramedEq.of_same rfl rfl)
      · exact Res.noConfusion h
    · exact Res.noConfusion h
  · exact Res.noConfusion h

theorem effect_of_shape {r r1 : Runtime} {n : Nat} (pushed : List Ptr) (ev : List Event)
    {d : Int} (hn : n ≤ r.stack.length)
    (hs : r1.stack = r.stack.take (r.stack.length - n) ++ pushed)
    (ht : r1.trace = r.trace ++ ev) (hpop : 0 < n → Event.pop (r.stack.length - n) ∈ ev)
    (hd : (pushed.length : Int) = n + d) : Effect n d r r1 := by
  have hlen : (r.stack.take (r.stack.length - n)).length = r.stack.length - n := by
    rw [List.length_take]; omega
  refine ⟨hn, ?_, ?_, ev, ht, ?_⟩
  · rw [hs, List.take_append_of_le_length (by omega), List.take_take, Nat.min_self]
  · rw [hs, List.length_append, hlen]; push_cast; omega
  · intro m hm hp
    have hmk : m ≤ r.stack.length - n := by
      by_cases hlt : 0 < n
      · exact hp _ (hpop hlt)
      · omega
    refine ⟨?_, ?_⟩
    · rw [hs, List.take_append_of_le_length (by omega), List.take_take, Nat.min_eq_left hmk]
    · rw [hs, List.length_append, hlen]; omega

theorem storeReal_eq {o : Ptr} {v : Float} {r r1 : Runtime} (h : storeReal o v r = .ok r1) :
    r1.stack = r.stack ∧ r1.trace = r.trace := by
  unfold storeReal at h
  obtain ⟨⟨nb, _⟩, _, h⟩ := Res.bind_eq_ok h
  simp only [Res.ok.injEq] at h
  subst h
  exact ⟨rfl, rfl⟩

theorem wrap_eq {n : Nat} {src : Ptr} {r r1 : Runtime} (h : wrap n src r = .ok r1) :
    r1.stack = r.stack ∧ r1.trace = r.trace := by
  unfold wrap at h
  split at h
  · simp only [Res.ok.injEq] at h; subst h; exact ⟨rfl, rfl⟩
  · simp only [Res.ok.injEq] at h; subst h; exact ⟨rfl, rfl⟩
  · exact Res.noConfusion h

theorem tupleSet_eq {o : Ptr} {r r1 : Runtime} (h : tupleSet o r = .ok r1) :
    ∃ n fields, o = some n ∧ r.heap[n]? = some (.tuple fields) ∧
      fields.length ≤ r.stack.length ∧
      r1.stack = r.stack.take (r.stack.length - fields.length) ∧
      r1.trace = r.trace ++ [.pop (r.stack.length - fields.length)] := by
  unfold tupleSet at h
  split at h
  · rename_i n
    split at h
    · rename_i fields hf
      simp only at h
      split at h
      · rename_i hle
        simp only [Res.ok.injEq] at h
        subst h
        exact ⟨n, fields, rfl, hf, hle, rfl, rfl⟩
      · exact Res.noConfusion h
    · exact Res.noConfusion h
  · exact Res.noConfusion h

theorem length_pos_of_ne_nil {α : Type} {l : List α} (h : l ≠ []) : 1 ≤ l.length :=
  List.length_pos.mpr h

/-- The shape of the binary operators on `Int`. -/
theorem binInt_effect {op : Int → Int → Res Int} {r r1 : Runtime}
    (h : binInt op r = .ok r1) : Effect 1 (-1) r r1 := by
  unfold binInt at h
  obtain ⟨pa, _, h⟩ := Res.bind_eq_ok h
  obtain ⟨⟨_, a⟩, _, h⟩ := Res.bind_eq_ok h
  obtain ⟨r0, h0, h⟩ := Res.bind_eq_ok h
  obtain ⟨pb, _, h⟩ := Res.bind_eq_ok h
  obtain ⟨⟨nb, b⟩, _, h⟩ := Res.bind_eq_ok h
  obtain ⟨v, _, h⟩ := Res.bind_eq_ok h
  simp only [Res.ok.injEq] at h
  obtain ⟨hne, rfl⟩ := pop_back_eq h0
  subst h
  have := length_pos_of_ne_nil hne
  refine effect_of_shape [] [.pop (r.stack.length - 1)] (by omega) ?_ rfl
    (fun _ => by simp) (by simp)
  simp [Runtime.store, List.dropLast_eq_take]

/-- The shape of the binary operators on `Real`. -/
theorem binReal_effect {op : Float → Float → Float} {r r1 : Runtime}
    (h : binReal op r = .ok r1) : Effect 1 (-1) r r1 := by
  unfold binReal at h
  obtain ⟨pa, _, h⟩ := Res.bind_eq_ok h
  obtain ⟨⟨_, a⟩, _, h⟩ := Res.bind_eq_ok h
  obtain ⟨r0, h0, h⟩ := Res.bind_eq_ok h
  obtain ⟨pb, _, h⟩ := Res.bind_eq_ok h
  obtain ⟨⟨nb, b⟩, _, h⟩ := Res.bind_eq_ok h
  simp only [Res.ok.injEq] at h
  obtain ⟨hne, rfl⟩ := pop_back_eq h0
  subst h
  have := length_pos_of_ne_nil hne
  refine effect_of_shape [] [.pop (r.stack.length - 1)] (by omega) ?_ rfl
    (fun _ => by simp) (by simp)
  simp [Runtime.store, List.dropLast_eq_take]

/-- The shape of a pop followed by a push, with only the heap changed in between:
`SEQ`, `FLAT`, `I2R_1`, `U2R_1`. -/
theorem pop_push_effect {r r0 r1 : Runtime} {p : Ptr} (h0 : r.pop_back = .ok r0)
    (hs : r1.stack = r0.stack) (ht : r1.trace = r0.trace) :
    Effect 1 0 r (r1.push_back p) := by
  obtain ⟨hne, rfl⟩ := pop_back_eq h0
  have := length_pos_of_ne_nil hne
  refine effect_of_shape [p] [.pop (r.stack.length - 1)] (by omega) ?_ ?_
    (fun _ => by simp) (by simp)
  · simp [Runtime.push_back, hs, List.dropLast_eq_take]
  · simp [Runtime.push_back, ht]

/-- The shape of two pops followed by two pushes: `I2R_2`, `U2R_2`. -/
theorem pop2_push2_effect {r r0 r1 r2 : Runtime} {p x : Ptr} (h0 : r.pop_back = .ok r0)
    (h1 : r0.pop_back = .ok r1) (hs : r2.stack = r1.stack) (ht : r2.trace = r1.trace) :
    Effect 2 0 r ((r2.push_back p).push_back x) := by
  obtain ⟨hne, rfl⟩ := pop_back_eq h0
  obtain ⟨hne1, rfl⟩ := pop_back_eq h1
  have h1 := length_pos_of_ne_nil hne1
  simp only [List.length_dropLast] at h1
  refine effect_of_shape [p, x] [.pop (r.stack.length - 1), .pop (r.stack.length - 2)]
    (by omega) ?_ ?_ (fun _ => by simp) (by simp)
  · simp only [Runtime.push_back, hs, List.dropLast_eq_take, List.length_take,
      List.take_take, List.append_assoc, List.singleton_append]
    congr 2
    omega
  · simp only [Runtime.push_back, ht, List.length_dropLast, List.append_assoc,
      List.singleton_append]
    rfl

theorem stepEffect_of_effect {c : Command} {r r1 : Runtime}
    (h : Effect (removed r.heap c) (stackDelta r.heap c) r r1) : StepEffect c r r1 :=
  ⟨h.2.2.1, h.2.2.2, fun _ => ⟨h.1, h.2.1⟩⟩

theorem stepEffect_of_framed {c : Command} {r r1 : Runtime} (hre : reenters c.cmd = true)
    (hd : (r1.stack.length : Int) = r.stack.length + stackDelta r.heap c)
    (hf : Framed r r1) : StepEffect c r r1 :=
  ⟨hd, hf, fun h => by rw [hre] at h; exact Bool.noConfusion h⟩

theorem pop_length {r r1 : Runtime} (h : r.pop_back = .ok r1) :
    r1.stack.length + 1 = r.stack.length := by
  obtain ⟨hne, rfl⟩ := pop_back_eq h
  have := length_pos_of_ne_nil hne
  simp only [List.length_dropLast]
  omega

theorem push_effect (r : Runtime) (p : Ptr) : Effect 0 1 r (r.push_back p) :=
  effect_of_shape [p] [] (Nat.zero_le _) (by simp [Runtime.push_back]) (by simp [Runtime.push_back])
    (fun h => absurd h (Nat.lt_irrefl 0)) (by simp)

theorem step_effect {M : ObjModel} {rec : Sem} (hrec : SemOK rec) {c : Command}
    {r r1 : Runtime} (h : step M rec c r = .ok r1) : StepEffect c r r1 := by
  unfold step at h
  cases hc : c.cmd <;> rw [hc] at h <;> simp only at h
  case VAL =>
    simp only [Res.ok.injEq] at h
    subst h
    apply stepEffect_of_effect
    simp only [removed, stackDelta, hc]
    exact push_effect r _
  case VAR =>
    obtain ⟨ix, _, h⟩ := Res.bind_eq_ok h
    obtain ⟨p, _, h⟩ := Res.bind_eq_ok h
    simp only [Res.ok.injEq] at h
    subst h
    apply stepEffect_of_effect
    simp only [removed, stackDelta, hc]
    exact push_effect r _
  case VAW =>
    obtain ⟨ix, _, h⟩ := Res.bind_eq_ok h
    obtain ⟨p, _, h⟩ := Res.bind_eq_ok h
    obtain ⟨r0, h0, h⟩ := Res.bind_eq_ok h
    have e := set_var_eq h0
    subst e
    obtain ⟨hne, rfl⟩ := pop_back_eq h
    have := length_pos_of_ne_nil hne
    apply stepEffect_of_effect
    simp only [removed, stackDelta, hc]
    exact effect_of_shape [] [.pop (r.stack.length - 1)] this
      (by simp [List.dropLast_eq_take]) rfl (fun _ => by simp) (by simp)
  case EXP | MUL_R | DIV_R | ADD_R | SUB_R =>
    all_goals
      apply stepEffect_of_effect
      simp only [removed, stackDelta, hc]
      exact binReal_effect h
  case MUL_I | DIV_I | MOD | ADD_I | SUB_I | AND | OR | XOR =>
    all_goals
      apply stepEffect_of_effect
      simp only [removed, stackDelta, hc]
      exact binInt_effect h
  case NOT =>
    obtain ⟨p, _, h⟩ := Res.bind_eq_ok h
    obtain ⟨⟨n, v⟩, _, h⟩ := Res.bind_eq_ok h
    simp only [Res.ok.injEq] at h
    subst h
    apply stepEffect_of_effect
    simp only [removed, stackDelta, hc]
    exact effect_of_shape [] [] (Nat.zero_le _) (by simp [Runtime.store])
      (by simp [Runtime.store]) (fun h => absurd h (Nat.lt_irrefl 0)) (by simp)
  case I2R_1 =>
    obtain ⟨pa, _, h⟩ := Res.bind_eq_ok h
    obtain ⟨⟨_, a⟩, _, h⟩ := Res.bind_eq_ok h
    obtain ⟨r0, h0, h⟩ := Res.bind_eq_ok h
    obtain ⟨r2, h2, h⟩ := Res.bind_eq_ok h
    simp only [Res.ok.injEq] at h
    subst h
    apply stepEffect_of_effect
    simp only [removed, stackDelta, hc]
    exact pop_push_effect h0 (storeReal_eq h2).1 (storeReal_eq h2).2
  case U2R_1 =>
    obtain ⟨pa, _, h⟩ := Res.bind_eq_ok h
    obtain ⟨⟨_, a⟩, _, h⟩ := Res.bind_eq_ok h
    obtain ⟨r0, h0, h⟩ := Res.bind_eq_ok h
    obtain ⟨r2, h2, h⟩ := Res.bind_eq_ok h
    simp only [Res.ok.injEq] at h
    subst h
    apply stepEffect_of_effect
    simp only [removed, stackDelta, hc]
    exact pop_push_effect h0 (storeReal_eq h2).1 (storeReal_eq h2).2
  case I2R_2 =>
    obtain ⟨x, _, h⟩ := Res.bind_eq_ok h
    obtain ⟨r0, h0, h⟩ := Res.bind_eq_ok h
    obtain ⟨pa, _, h⟩ := Res.bind_eq_ok h
    obtain ⟨⟨_, a⟩, _, h⟩ := Res.bind_eq_ok h
    obtain ⟨r1a, h1, h⟩ := Res.bind_eq_ok h
    obtain ⟨r2, h2, h⟩ := Res.bind_eq_ok h
    simp only [Res.ok.injEq] at h
    subst h
    apply stepEffect_of_effect
    simp only [removed, stackDelta, hc]
    exact pop2_push2_effect h0 h1 (storeReal_eq h2).1 (storeReal_eq h2).2
  case U2R_2 =>
    obtain ⟨x, _, h⟩ := Res.bind_eq_ok h
    obtain ⟨r0, h0, h⟩ := Res.bind_eq_ok h
    obtain ⟨pa, _, h⟩ := Res.bind_eq_ok h
    obtain ⟨⟨_, a⟩, _, h⟩ := Res.bind_eq_ok h
    obtain ⟨r1a, h1, h⟩ := Res.bind_eq_ok h
    obtain ⟨r2, h2, h⟩ := Res.bind_eq_ok h
    simp only [Res.ok.injEq] at h
    subst h
    apply stepEffect_of_effect
    simp only [removed, stackDelta, hc]
    exact pop2_push2_effect h0 h1 (storeReal_eq h2).1 (storeReal_eq h2).2
  case SEQ =>
    obtain ⟨src, _, h⟩ := Res.bind_eq_ok h
    obtain ⟨r0, h0, h⟩ := Res.bind_eq_ok h
    obtain ⟨n, _, h⟩ := Res.bind_eq_ok h
    obtain ⟨r2, h2, h⟩ := Res.bind_eq_ok h
    simp only [Res.ok.injEq] at h
    subst h
    apply stepEffect_of_effect
    simp only [removed, stackDelta, hc]
    exact pop_push_effect h0 (wrap_eq h2).1 (wrap_eq h2).2
  case FLAT =>
    obtain ⟨p, _, h⟩ := Res.bind_eq_ok h
    obtain ⟨seq, _, h⟩ := Res.bind_eq_ok h
    obtain ⟨r0, h0, h⟩ := Res.bind_eq_ok h
    obtain ⟨f, _, h⟩ := Res.bind_eq_ok h
    split at h
    · simp only [Res.ok.injEq] at h
      subst h
      apply stepEffect_of_effect
      simp only [removed, stackDelta, hc]
      exact pop_push_effect h0 rfl rfl
    · exact Res.noConfusion h
  case TUP =>
    obtain ⟨r0, h0, h⟩ := Res.bind_eq_ok h
    simp only [Res.ok.injEq] at h
    subst h
    obtain ⟨n, fields, ho, hf, hle, hs, ht⟩ := tupleSet_eq h0
    apply stepEffect_of_effect
    simp only [removed, stackDelta, hc, ho, Option.some_bind, hf]
    exact effect_of_shape [some n] [.pop (r.stack.length - fields.length)] hle
      (by simp [Runtime.push_back, hs, ho]) (by simp [Runtime.push_back, ht])
      (fun _ => by simp) (by simp)
  case FUN =>
    split at h
    · obtain ⟨⟨ra, arg⟩, ha, h⟩ := Res.bind_eq_ok h
      obtain ⟨heap, _, h⟩ := Res.bind_eq_ok h
      simp only [Res.ok.injEq] at h
      subst h
      have hf := exec_closure_framed hrec.1 ha
      refine stepEffect_of_framed (by rw [hc]; rfl) ?_ (hf.1.trans ?_)
      · simp only [stackDelta, hc, Runtime.push_back, List.length_append,
          List.length_singleton, hf.2]
        push_cast; rfl
      · exact (Framed.of_eq rfl rfl).trans (Framed.push _ _)
    · exact Res.noConfusion h
  case IDX =>
    split at h
    · obtain ⟨⟨ra, key⟩, ha, h⟩ := Res.bind_eq_ok h
      obtain ⟨cont, _, h⟩ := Res.bind_eq_ok h
      obtain ⟨heap, _, h⟩ := Res.bind_eq_ok h
      obtain ⟨r2, h2, h⟩ := Res.bind_eq_ok h
      simp only [Res.ok.injEq] at h
      subst h
      have hf := exec_closure_framed hrec.1 ha
      have hl := pop_length h2
      simp only at hl
      refine stepEffect_of_framed (by rw [hc]; rfl) ?_ (hf.1.trans ?_)
      · simp only [stackDelta, hc, Runtime.push_back, List.length_append,
          List.length_singleton, hl, hf.2]
        omega
      · exact (Framed.of_eq rfl rfl).trans ((Framed.pop h2).trans (Framed.push _ _))
    · exact Res.noConfusion h
  case GEN =>
    split at h
    · obtain ⟨⟨ra, p⟩, ha, h⟩ := Res.bind_eq_ok h
      obtain ⟨seq, _, h⟩ := Res.bind_eq_ok h
      obtain ⟨dst, _, h⟩ := Res.bind_eq_ok h
      simp only at h
      split at h
      · simp only [Res.ok.injEq] at h
        subst h
        have hf := exec_closure_framed hrec.1 ha
        refine stepEffect_of_framed (by rw [hc]; rfl) ?_ (hf.1.trans ?_)
        · simp only [stackDelta, hc, Runtime.push_back, Runtime.store, List.length_append,
            List.length_singleton, hf.2]
          push_cast; rfl
        · exact (Framed.of_eq rfl rfl).trans (Framed.push _ _)
      · exact Res.noConfusion h
    · exact Res.noConfusion h
  case ARR =>
    obtain ⟨p, _, h⟩ := Res.bind_eq_ok h
    obtain ⟨seq, _, h⟩ := Res.bind_eq_ok h
    obtain ⟨r0, h0, h⟩ := Res.bind_eq_ok h
    obtain ⟨r2, h2, h⟩ := Res.bind_eq_ok h
    simp only [Res.ok.injEq] at h
    subst h
    have hf := fill_framed hrec h2
    have hl := pop_length h0
    refine stepEffect_of_framed (by rw [hc]; rfl) ?_
      ((Framed.pop h0).trans (hf.1.trans (Framed.push _ _)))
    simp only [stackDelta, hc, Runtime.push_back, List.length_append,
      List.length_singleton, hf.2]
    push_cast; omega
  case MAP =>
    obtain ⟨p, _, h⟩ := Res.bind_eq_ok h
    obtain ⟨seq, _, h⟩ := Res.bind_eq_ok h
    obtain ⟨r0, h0, h⟩ := Res.bind_eq_ok h
    obtain ⟨r2, h2, h⟩ := Res.bind_eq_ok h
    simp only [Res.ok.injEq] at h
    subst h
    have hf := fill_framed hrec h2
    have hl := pop_length h0
    refine stepEffect_of_framed (by rw [hc]; rfl) ?_
      ((Framed.pop h0).trans (hf.1.trans (Framed.push _ _)))
    simp only [stackDelta, hc, Runtime.push_back, List.length_append,
      List.length_singleton, hf.2]
    push_cast; omega

theorem runLoop_framed {M : ObjModel} {rec : Sem} (hrec : SemOK rec) :
    ∀ (cs : List Command) (r r1 : Runtime), runLoop M rec cs r = .ok r1 → Framed r r1
  | [], r, r1, h => by
    simp only [runLoop, Res.ok.injEq] at h
    subst h
    exact Framed.refl r
  | c :: rest, r, r1, h => by
    simp only [runLoop] at h
    obtain ⟨r0, h0, h⟩ := Res.bind_eq_ok h
    exact (step_effect hrec h0).2.1.trans (runLoop_framed hrec rest r0 r1 h)

/-- Every level of the interpreter keeps the frame. -/
theorem sem_ok (M : ObjModel) : ∀ fuel, SemOK (sem M fuel)
  | 0 => ⟨fun _ _ _ h => Res.noConfusion h, fun _ _ _ _ _ h => Res.noConfusion h,
         fun _ _ _ _ _ h => Res.noConfusion h⟩
  | fuel + 1 =>
    ⟨fun cs r r1 h => runLoop_framed (sem_ok M fuel) cs r r1 h,
     fun _ _ _ _ _ h => produce_framed (sem_ok M fuel) h,
     fun _ _ _ _ _ h => fillLoop_framed (sem_ok M fuel) h⟩

/-- C19. Closure evaluation restores the operand stack. When the run of the block of
a closure ends in `r1`, has made no removal that left the stack lower than it was at
entry, and ends with the stack higher than at entry, `_exec_closure` returns the top
of the stack of `r1` and leaves the stack of before the call. -/
theorem exec_closure_restores (M : ObjModel) (fuel : Nat) (owner : Ptr) (idx : Nat)
    (r r1 : Runtime) (closure : Closure) (ev : List Event)
    (hrun : (sem M fuel).run closure.code (r.log (.closure owner idx)) = .ok r1)
    (hev : r1.trace = r.trace ++ Event.closure owner idx :: ev)
    (hpop : ∀ k, Event.pop k ∈ ev → r.stack.length ≤ k)
    (habove : r.stack.length < r1.stack.length) :
    ∃ top, r1.stack.getLast? = some top ∧
      _exec_closure (sem M fuel).run owner idx r closure
        = .ok ({ r1 with stack := r.stack }, top) := by
  obtain ⟨ev1, ht, hf⟩ := (sem_ok M fuel).1 _ _ _ hrun
  have hev1 : ev1 = ev := by
    rw [hev] at ht
    simp only [Runtime.log, List.append_assoc, List.singleton_append] at ht
    exact ((List.cons.inj (List.append_cancel_left ht)).2).symm
  subst hev1
  have hk := (hf r.stack.length (Nat.le_refl _) hpop).1
  simp only [Runtime.log, List.take_length] at hk
  have hne : r1.stack ≠ [] := by
    intro e
    rw [e] at habove
    exact Nat.not_lt_zero _ habove
  refine ⟨r1.stack.getLast hne, List.getLast?_eq_getLast _ hne, ?_⟩
  unfold _exec_closure
  simp only [hrun, Res.bind_ok, Runtime.back, List.getLast?_eq_getLast _ hne,
    Nat.le_of_lt habove, if_true, hk]

/-- Witness of C19: the block `[VAL 2, VAL 3, ADD_I]` entered with one element on the
stack. Its run ends with two elements, the sum on top, after one removal that left
the stack at height 2; `_exec_closure` returns the sum and leaves the one element. -/
theorem exec_closure_restores_witness :
    (sem bareModel 1).run sumClosure.code (sumRuntime.log (.closure none 0)) = .ok sumAfter ∧
    ∃ top, sumAfter.stack.getLast? = some top ∧
      _exec_closure (sem bareModel 1).run none 0 sumRuntime sumClosure
        = .ok ({ sumAfter with stack := sumRuntime.stack }, top) :=
  ⟨rfl, exec_closure_restores bareModel 1 none 0 sumRuntime sumAfter sumClosure [.pop 2] rfl rfl
    (fun k hk => by
      simp only [List.mem_singleton, Event.pop.injEq] at hk
      subst hk
      decide)
    (by decide)⟩

/-! ## Re-evaluation of a closure block -/

/-- Counterexample to C21. The block of `1 + 2`, initialised on the empty heap, is
evaluated twice on the same runtime: both evaluations return the cell of the first
literal, which holds 3 after the first and 5 after the second, and in the second
evaluation `VAL` with the literal 1 pushes that cell while it holds 3. -/
theorem reeval_counterexample :
    ∃ (r1 r2 : Runtime) (c : Command),
      _exec_closure (sem plainModel 1).run none 0 onePlusTwoRuntime onePlusTwoClosure
        = .ok (r1, some 0) ∧
      _exec_closure (sem plainModel 1).run none 0 r1 onePlusTwoClosure = .ok (r2, some 0) ∧
      r1.heap[0]? = some (.int 3) ∧ r2.heap[0]? = some (.int 5) ∧
      onePlusTwoClosure.code.head? = some c ∧ c.cmd = .VAL ∧
      literalObj plainModel c.arg = .int 1 ∧
      step plainModel (sem plainModel 0) c r1 = .ok (r1.push_back (some 0)) :=
  ⟨_, _, _, rfl, rfl, rfl, rfl, rfl, rfl, rfl, rfl⟩

theorem binInt_stack {op : Int → Int → Res Int} {r r1 : Runtime}
    (h : binInt op r = .ok r1) : r1.stack = r.stack.dropLast := by
  unfold binInt at h
  obtain ⟨pa, _, h⟩ := Res.bind_eq_ok h
  obtain ⟨⟨_, a⟩, _, h⟩ := Res.bind_eq_ok h
  obtain ⟨r0, h0, h⟩ := Res.bind_eq_ok h
  obtain ⟨pb, _, h⟩ := Res.bind_eq_ok h
  obtain ⟨⟨nb, b⟩, _, h⟩ := Res.bind_eq_ok h
  obtain ⟨v, _, h⟩ := Res.bind_eq_ok h
  simp only [Res.ok.injEq] at h
  obtain ⟨_, rfl⟩ := pop_back_eq h0
  subst h
  rfl

theorem take_sub_dropLast {α : Type} (st : List α) (d : Nat) :
    (st.take (st.length - d)).dropLast = st.take (st.length - (d + 1)) := by
  rw [List.dropLast_eq_take, List.take_take, List.length_take]
  congr 1
  omega

/-- A step of a literal or an integer operator moves the stack as `netStep` says. -/
theorem step_net {M : ObjModel} {rec : Sem} {c : Command} {r r1 : Runtime}
    (hl : literalOrIntOp c.cmd = true) (h : step M rec c r = .ok r1)
    (st : List Ptr) (dp : Nat × List Ptr)
    (hs : r.stack = st.take (st.length - dp.1) ++ dp.2) :
    r1.stack = st.take (st.length - (netStep c dp).1) ++ (netStep c dp).2 := by
  have hbin : r1.stack = r.stack.dropLast →
      r1.stack = st.take (st.length - (if dp.2 = [] then (dp.1 + 1, []) else
        (dp.1, dp.2.dropLast)).1) ++ (if dp.2 = [] then ((dp.1 + 1, []) : Nat × List Ptr) else
        (dp.1, dp.2.dropLast)).2 := by
    intro e
    rw [e, hs]
    by_cases hp : dp.2 = []
    · simp only [hp, List.append_nil, if_true, take_sub_dropLast]
    · simp only [hp, if_false, List.dropLast_append_of_ne_nil _ hp]
  unfold step at h
  unfold netStep
  cases hc : c.cmd <;> rw [hc] at h hl <;> simp only at h ⊢
  case VAL =>
    simp only [Res.ok.injEq] at h
    subst h
    simp only [Runtime.push_back, hs, List.append_assoc]
  case NOT =>
    obtain ⟨p, _, h⟩ := Res.bind_eq_ok h
    obtain ⟨⟨n, v⟩, _, h⟩ := Res.bind_eq_ok h
    simp only [Res.ok.injEq] at h
    subst h
    exact hs
  case MUL_I | DIV_I | MOD | ADD_I | SUB_I | AND | OR | XOR =>
    all_goals exact hbin (binInt_stack h)
  all_goals exact absurd hl (by decide)

theorem runLoop_net {M : ObjModel} {rec : Sem} (st : List Ptr) :
    ∀ (cs : List Command) (r r1 : Runtime) (dp : Nat × List Ptr),
      (∀ c ∈ cs, literalOrIntOp c.cmd = true) → runLoop M rec cs r = .ok r1 →
      r.stack = st.take (st.length - dp.1) ++ dp.2 →
      r1.stack = st.take (st.length - (net cs dp).1) ++ (net cs dp).2
  | [], r, r1, dp, _, h, hs => by
    simp only [runLoop, Res.ok.injEq] at h
    subst h
    exact hs
  | c :: rest, r, r1, dp, hl, h, hs => by
    simp only [runLoop] at h
    obtain ⟨r0, h0, h⟩ := Res.bind_eq_ok h
    exact runLoop_net st rest r0 r1 (netStep c dp)
      (fun c1 hc1 => hl c1 (List.mem_cons_of_mem _ hc1)) h
      (step_net (hl c (List.mem_cons_self _ _)) h0 st dp hs)

/-- The stack that the run of a block of literals and integer operators ends with, at
every level of the interpreter. -/
theorem run_net (M : ObjModel) (fuel : Nat) (cs : List Command) (r r1 : Runtime)
    (hl : ∀ c ∈ cs, literalOrIntOp c.cmd = true) (h : (sem M fuel).run cs r = .ok r1) :
    r1.stack = r.stack.take (r.stack.length - (net cs (0, [])).1) ++ (net cs (0, [])).2 := by
  cases fuel with
  | zero => exact Res.noConfusion h
  | succ f =>
    exact runLoop_net r.stack cs r r1 (0, []) hl h (by simp)

theorem step_val_heap {M : ObjModel} {rec : Sem} {c : Command} {r r1 : Runtime}
    (hc : c.cmd = .VAL) (h : step M rec c r = .ok r1) : r1.heap = r.heap := by
  unfold step at h
  rw [hc] at h
  simp only [Res.ok.injEq] at h
  subst h
  rfl

theorem runLoop_val_heap {M : ObjModel} {rec : Sem} :
    ∀ (cs : List Command) (r r1 : Runtime), (∀ c ∈ cs, c.cmd = .VAL) →
      runLoop M rec cs r = .ok r1 → r1.heap = r.heap
  | [], r, r1, _, h => by
    simp only [runLoop, Res.ok.injEq] at h
    subst h
    rfl
  | c :: rest, r, r1, hl, h => by
    simp only [runLoop] at h
    obtain ⟨r0, h0, h⟩ := Res.bind_eq_ok h
    rw [runLoop_val_heap rest r0 r1 (fun c1 hc1 => hl c1 (List.mem_cons_of_mem _ hc1)) h,
      step_val_heap (hl c (List.mem_cons_self _ _)) h0]

theorem run_val_heap (M : ObjModel) (fuel : Nat) (cs : List Command) (r r1 : Runtime)
    (hl : ∀ c ∈ cs, c.cmd = .VAL) (h : (sem M fuel).run cs r = .ok r1) :
    r1.heap = r.heap := by
  cases fuel with
  | zero => exact Res.noConfusion h
  | succ f => exact runLoop_val_heap cs r r1 hl h

/-- What `_exec_closure` returns, taken apart: the run of the block ends in `ra`, the
pointer returned is on top of the stack of `ra`, which is at least as high as the
stack at entry, and the runtime returned is `ra` with the stack cut back. -/
theorem exec_closure_eq {run : List Command → Runtime → Res Runtime} {owner : Ptr}
    {idx : Nat} {r r1 : Runtime} {cl : Closure} {p : Ptr}
    (h : _exec_closure run owner idx r cl = .ok (r1, p)) :
    ∃ ra, run cl.code (r.log (.closure owner idx)) = .ok ra ∧
      ra.stack.getLast? = some p ∧ r.stack.length ≤ ra.stack.length ∧
      r1 = { ra with stack := ra.stack.take r.stack.length } := by
  unfold _exec_closure at h
  obtain ⟨ra, h2, h⟩ := Res.bind_eq_ok h
  obtain ⟨o, ho, h⟩ := Res.bind_eq_ok h
  split at h
  · rename_i hle
    simp only [Res.ok.injEq, Prod.mk.injEq] at h
    obtain ⟨rfl, rfl⟩ := h
    exact ⟨ra, h2, back_eq ho, hle, rfl⟩
  · exact Res.noConfusion h

/-- C21, amended. Re-evaluating a block made only of literals and integer operators
returns the same object both times and leaves the same stack, whatever the block and
the runtime; the value that the object holds is the same when the block has no
operator, since its run leaves the heap alone. `VAL` pushes the result cell of its
command, which holds the literal of `arg` as long as the heap is as the init pass
left that cell. -/
theorem reeval_same_object (M : ObjModel) (fuel : Nat) (owner : Ptr) (idx : Nat)
    (r r1 r2 : Runtime) (closure : Closure) (p1 p2 : Ptr)
    (hlit : ∀ c ∈ closure.code, literalOrIntOp c.cmd = true)
    (h1 : _exec_closure (sem M fuel).run owner idx r closure = .ok (r1, p1))
    (h2 : _exec_closure (sem M fuel).run owner idx r1 closure = .ok (r2, p2)) :
    p1 = p2 ∧ r2.stack = r1.stack ∧
    ((∀ c ∈ closure.code, c.cmd = .VAL) → r1.heap = r.heap ∧ r2.heap = r.heap) ∧
    (∀ (c : Command) (r0 : Runtime), c.cmd = .VAL → Inited M r0.heap c →
      ∃ n, step M (sem M fuel) c r0 = .ok (r0.push_back (some n)) ∧
        r0.heap[n]? = some (literalObj M c.arg)) := by
  obtain ⟨ra, hra, hpa, hla, rfl⟩ := exec_closure_eq h1
  obtain ⟨rb, hrb, hpb, hlb, rfl⟩ := exec_closure_eq h2
  have ea := run_net M fuel closure.code _ ra hlit hra
  have eb := run_net M fuel closure.code _ rb hlit hrb
  simp only [Runtime.log] at ea eb
  simp only at hlb hpb
  have hlen : (ra.stack.take r.stack.length).length = r.stack.length := by
    rw [List.length_take]; omega
  rw [hlen] at eb
  have hst : rb.stack = ra.stack := by
    rw [eb, List.take_take, Nat.min_eq_left (Nat.sub_le _ _)]
    have e : ra.stack.take (r.stack.length - (net closure.code (0, [])).1)
        = r.stack.take (r.stack.length - (net closure.code (0, [])).1) := by
      rw [ea, List.take_append_of_le_length (by rw [List.length_take]; omega),
        List.take_take, Nat.min_self]
    rw [e, ← ea]
  refine ⟨?_, ?_, ?_, ?_⟩
  · rw [hst, hpa] at hpb
    exact Option.some.inj hpb
  · simp only [hst, hlen]
  · intro hval
    have e1 := run_val_heap M fuel closure.code _ ra hval hra
    have e2 := run_val_heap M fuel closure.code _ rb hval hrb
    simp only [Runtime.log] at e1 e2
    exact ⟨e1, e2.trans e1⟩
  · intro c r0 hc hin
    unfold Inited at hin
    rw [hc] at hin
    obtain ⟨n, hn, hh⟩ := hin
    refine ⟨n, ?_, hh⟩
    unfold step
    rw [hc]
    simp only [hn]

/-- Witness of C21, amended, on the block of `1 + 2`: both evaluations return cell 0. -/
theorem reeval_same_object_witness :
    ∃ r1 r2 : Runtime,
      _exec_closure (sem plainModel 1).run none 0 onePlusTwoRuntime onePlusTwoClosure
        = .ok (r1, some 0) ∧
      _exec_closure (sem plainModel 1).run none 0 r1 onePlusTwoClosure = .ok (r2, some 0) ∧
      r2.stack = r1.stack :=
  ⟨_, _, rfl, rfl,
    (reeval_same_object plainModel 1 none 0 onePlusTwoRuntime _ _ onePlusTwoClosure
      (some 0) (some 0) (by decide) rfl rfl).2.1⟩

/-! ## Termination of `cut` and `cutn` -/

/-- The iterations of the outer loop are counted by the iterates of its body: with a
non-empty delimiter and more fuel than characters left, the loop is left after at
most as many iterations as there are characters left. -/
theorem cutLoop_iterates (str del : List Char)
    (hfit : str.length + del.length < WORD) (hd : del ≠ []) :
    ∀ (fuel : Nat) (s : CutState), s.i ≤ str.length → str.length - s.i < fuel →
      ∃ n, n ≤ str.length - s.i ∧ cutLoop str del fuel s = .ok ((cutBody str del)^[n] s) := by
  intro fuel
  induction fuel with
  | zero => intro s _ h; omega
  | succ k ih =>
    intro s hle hf
    by_cases hi : s.i < str.length
    · have hp := cutBody_progress str del s hfit hd hi
      obtain ⟨n, hn, hrun⟩ := ih (cutBody str del s) hp.2 (by omega)
      refine ⟨n + 1, by omega, ?_⟩
      simp only [cutLoop, if_pos hi, hrun, Function.iterate_succ_apply]
    · exact ⟨0, Nat.zero_le _, by simp only [cutLoop, if_neg hi, Function.iterate_zero, id]⟩

/-- The two ways the loop of `cutn` goes on: past the delimiter after a match that is
not the wanted one, by one without a match. -/
theorem cutnLoop_step (str del : List Char) (nth fuel : Nat) (s : CutnState)
    (hfit : str.length + del.length < WORD) (hi : s.i < str.length) :
    (matched str del s.i = true → nth ≠ s.nmatch →
      cutnLoop str del nth (fuel + 1) s = cutnLoop str del nth fuel
        { i := s.i + del.length, prev := s.i + del.length,
          nmatch := (s.nmatch + 1) % WORD }) ∧
    (matched str del s.i = false →
      cutnLoop str del nth (fuel + 1) s = cutnLoop str del nth fuel { s with i := s.i + 1 }) := by
  constructor
  · intro hm hn
    have hle := matched_length_le str del s.i (by omega) (by omega) hm
    have hlt : s.i + del.length < WORD := by omega
    simp only [cutnLoop, if_pos hi, hm, if_true, if_neg hn, Nat.mod_eq_of_lt hlt,
      word_dec_inc _ hlt]
  · intro hm
    have h1 : (s.i + 1) % WORD = s.i + 1 := Nat.mod_eq_of_lt (by omega)
    simp only [cutnLoop, if_pos hi, hm, h1, Bool.false_eq_true, if_false]

/-- C22. `cut` and `cutn` terminate for every string and every non-empty delimiter
(both held in one 64-bit address space). Every iteration of the outer loop moves the
scan index forward, by the length of the delimiter after a match and by one without;
the loop of `cut` is left after at most `str.length` iterations; and with more fuel
than the string has characters `cut` returns its array and `cutn` returns its piece
or throws, for every index asked for. -/
theorem cut_cutn_terminate (str del : List Char) (fuel : Nat)
    (hfit : str.length + del.length < WORD) (hd : del ≠ []) (hfuel : str.length < fuel) :
    (∀ s : CutState, s.i < str.length →
      (cutBody str del s).i = (if matched str del s.i then s.i + del.length else s.i + 1) ∧
      s.i < (cutBody str del s).i) ∧
    (∀ (nth f : Nat) (s : CutnState), s.i < str.length →
      (matched str del s.i = true → nth ≠ s.nmatch →
        cutnLoop str del nth (f + 1) s = cutnLoop str del nth f
          { i := s.i + del.length, prev := s.i + del.length,
            nmatch := (s.nmatch + 1) % WORD }) ∧
      (matched str del s.i = false →
        cutnLoop str del nth (f + 1) s = cutnLoop str del nth f { s with i := s.i + 1 })) ∧
    (∃ n, n ≤ str.length ∧
      cutLoop str del fuel { i := 0, prev := 0, v := [] }
        = .ok ((cutBody str del)^[n] { i := 0, prev := 0, v := [] })) ∧
    (∃ pieces, cut fuel str del = .ok pieces) ∧
    (∀ nth, (∃ piece, cutn fuel str del nth = .ok piece) ∨
      cutn fuel str del nth = .error "Substring not found in 'cut'") := by
  refine ⟨?_, ?_, ?_, ?_, ?_⟩
  · intro s hi
    refine ⟨?_, (cutBody_progress str del s hfit hd hi).1⟩
    cases hm : matched str del s.i with
    | true => rw [cutBody_of_matched str del s hfit hi hm]; simp
    | false => rw [cutBody_of_unmatched str del s hfit hi hm]; simp
  · intro nth f s hi
    exact cutnLoop_step str del nth f s hfit hi
  · obtain ⟨n, hn, hrun⟩ := cutLoop_iterates str del hfit hd fuel { i := 0, prev := 0, v := [] }
      (Nat.zero_le _) (by simpa using hfuel)
    exact ⟨n, by simpa using hn, hrun⟩
  · obtain ⟨pieces, hcut, _⟩ := cutn_eq_lookup str del fuel 0 hfit hd hfuel
    exact ⟨pieces, hcut⟩
  · intro nth
    obtain ⟨pieces, _, hn⟩ := cutn_eq_lookup str del fuel nth hfit hd hfuel
    rw [hn]
    cases pieces[nth]? with
    | some p => exact Or.inl ⟨p, rfl⟩
    | none => exact Or.inr rfl

/-- Witness of C22 on `"a,b,,c"` split at `","`, with the least fuel that is enough. -/
theorem cut_cutn_terminate_witness :
    (∃ n, n ≤ "a,b,,c".toList.length ∧
      cutLoop "a,b,,c".toList ",".toList 7 { i := 0, prev := 0, v := [] }
        = .ok ((cutBody "a,b,,c".toList ",".toList)^[n] { i := 0, prev := 0, v := [] })) ∧
    (∃ pieces, cut 7 "a,b,,c".toList ",".toList = .ok pieces) :=
  ⟨(cut_cutn_terminate "a,b,,c".toList ",".toList 7 (by decide) (by decide) (by decide)).2.2.1,
   (cut_cutn_terminate "a,b,,c".toList ",".toList 7 (by decide) (by decide) (by decide)).2.2.2.1⟩

/-! ## `cut` stays in range -/

/-- The checked inner loop never reads out of range: it returns the flag that the
inner loop computes. -/
theorem matchLoopChecked_eq (str del : List Char) (i : Nat) (hM : del.length < WORD) :
    ∀ (todo j : Nat), j + todo = del.length →
      matchLoopChecked str del i todo j = .ok (matchLoop str del i todo j) := by
  intro todo
  induction todo with
  | zero => intro j _; rfl
  | succ n ih =>
    intro j hj
    have hj2 : (j + 1) % WORD = j + 1 := Nat.mod_eq_of_lt (by omega)
    have hjd : j < del.length := by omega
    simp only [matchLoopChecked, matchLoop, hj2]
    by_cases hlt : (i + j) % WORD < str.length
    · rw [if_pos hlt, List.getElem?_eq_getElem hlt, List.getElem?_eq_getElem hjd]
      simp only [hlt, true_and, Option.some.injEq]
      by_cases he : str[(i + j) % WORD] = del[j]
      · rw [if_pos he, if_pos he]
        exact ih (j + 1) (by omega)
      · rw [if_neg he, if_neg he]
    · rw [if_neg hlt, if_neg (fun h => hlt h.1)]

/-- The checked body takes its slice within the string when the start of the piece is
not past the scan index. -/
theorem cutBodyChecked_eq (str del : List Char) (s : CutState)
    (hfit : str.length + del.length < WORD) (hi : s.i < str.length) (hp : s.prev ≤ s.i) :
    cutBodyChecked str del s = .ok (cutBody str del s) := by
  have hm := matchLoopChecked_eq str del s.i (by omega) del.length 0 (by omega)
  have hs : sliceChecked str s.prev s.i = .ok (slice str s.prev s.i) := by
    simp only [sliceChecked, if_pos (And.intro hp (Nat.le_of_lt hi))]
  unfold cutBodyChecked cutBody
  rw [hm]
  simp only [Res.bind_ok]
  cases hmm : matched str del s.i with
  | true =>
    have e : matchLoop str del s.i del.length 0 = true := hmm
    simp only [e, if_true, hs, Res.bind_ok]
  | false =>
    have e : matchLoop str del s.i del.length 0 = false := hmm
    simp only [e, Bool.false_eq_true, if_false]

theorem cutBody_prev_le (str del : List Char) (s : CutState)
    (hfit : str.length + del.length < WORD) (hi : s.i < str.length) (hp : s.prev ≤ s.i) :
    (cutBody str del s).prev ≤ (cutBody str del s).i := by
  cases hm : matched str del s.i with
  | true => rw [cutBody_of_matched str del s hfit hi hm]
  | false => rw [cutBody_of_unmatched str del s hfit hi hm]; simp only; omega

/-- The checked loop and the loop of `cut` run alike from every state in which the
start of the piece is not past the scan index. -/
theorem cutLoopChecked_eq (str del : List Char) (hfit : str.length + del.length < WORD) :
    ∀ (fuel : Nat) (s : CutState), s.prev ≤ s.i →
      cutLoopChecked str del fuel s = cutLoop str del fuel s := by
  intro fuel
  induction fuel with
  | zero => intro s _; rfl
  | succ n ih =>
    intro s hp
    by_cases hi : s.i < str.length
    · simp only [cutLoopChecked, cutLoop, if_pos hi, cutBodyChecked_eq str del s hfit hi hp,
        Res.bind_ok]
      exact ih _ (cutBody_prev_le str del s hfit hi hp)
    · simp only [cutLoopChecked, cutLoop, if_neg hi]

/-- C23. `cut` never indexes or slices out of range: for every string and every
non-empty delimiter (both held in one 64-bit address space), the inner loop with its
reads of `str[i+j]` and `del[j]` checked returns its flag at every scan index, every
iteration of the outer loop entered with `prev <= i < N` takes its slice within the
string and keeps `prev <= i`, and `cut` with every read and every slice checked
returns the array that `cut` returns: no check fails. -/
theorem cut_in_range (str del : List Char) (fuel : Nat)
    (hfit : str.length + del.length < WORD) (hd : del ≠ []) (hfuel : str.length < fuel) :
    (∀ i, matchLoopChecked str del i del.length 0 = .ok (matched str del i)) ∧
    (∀ s : CutState, s.prev ≤ s.i → s.i < str.length →
      cutBodyChecked str del s = .ok (cutBody str del s) ∧
      (cutBody str del s).prev ≤ (cutBody str del s).i ∧
      (cutBody str del s).i ≤ str.length) ∧
    ∃ s', cutLoopChecked str del fuel { i := 0, prev := 0, v := [] } = .ok s' ∧
      s'.prev ≤ str.length ∧
      cutChecked fuel str del = .ok (s'.v ++ [slice str s'.prev str.length]) ∧
      cut fuel str del = .ok (s'.v ++ [slice str s'.prev str.length]) := by
  refine ⟨?_, ?_, ?_⟩
  · intro i
    exact matchLoopChecked_eq str del i (by omega) del.length 0 (by omega)
  · intro s hp hi
    exact ⟨cutBodyChecked_eq str del s hfit hi hp, cutBody_prev_le str del s hfit hi hp,
      (cutBody_progress str del s hfit hd hi).2⟩
  · obtain ⟨s', hrun, hinv, hend⟩ :=
      cutLoop_invariant str del hfit hd (fun s => s.prev ≤ s.i)
        (fun s hs hi => cutBody_prev_le str del s hfit hi hs)
        fuel { i := 0, prev := 0, v := [] } (Nat.le_refl _) (Nat.zero_le _)
        (by simpa using hfuel)
    have hle : s'.prev ≤ str.length := by
      have h : s'.prev ≤ s'.i := hinv
      omega
    have hc : cutLoopChecked str del fuel { i := 0, prev := 0, v := [] } = .ok s' := by
      rw [cutLoopChecked_eq str del hfit fuel _ (Nat.le_refl _), hrun]
    refine ⟨s', hc, hle, ?_, ?_⟩
    · simp only [cutChecked, hc, Res.bind_ok, sliceChecked,
        if_pos (And.intro hle (Nat.le_refl _))]
    · simp only [cut, hrun, Res.bind_ok]

/-- Witness of C23 on `"aaa"` split at `"aa"`, where the delimiter is tried once more
on the last character. -/
theorem cut_in_range_witness :
    ∃ s', cutLoopChecked "aaa".toList "aa".toList 4 { i := 0, prev := 0, v := [] } = .ok s' ∧
      s'.prev ≤ "aaa".toList.length ∧
      cutChecked 4 "aaa".toList "aa".toList
        = .ok (s'.v ++ [slice "aaa".toList s'.prev "aaa".toList.length]) ∧
      cut 4 "aaa".toList "aa".toList
        = .ok (s'.v ++ [slice "aaa".toList s'.prev "aaa".toList.length]) :=
  (cut_in_range "aaa".toList "aa".toList 4 (by decide) (by decide) (by decide)).2.2

/-! ## Maximal pieces -/

/-- More fuel does not change what the loop of `cut` returns. -/
theorem cutLoop_mono (str del : List Char) :
    ∀ (f : Nat) (s s' : CutState), cutLoop str del f s = .ok s' →
      ∀ k, cutLoop str del (f + k) s = .ok s' := by
  intro f
  induction f with
  | zero => intro s s' h; exact Res.noConfusion h
  | succ n ih =>
    intro s s' h k
    have e : n + 1 + k = (n + k) + 1 := by omega
    rw [e]
    by_cases hi : s.i < str.length
    · simp only [cutLoop, if_pos hi] at h ⊢
      exact ih _ _ h k
    · simp only [cutLoop, if_neg hi] at h ⊢
      exact h

/-- A stretch without a match is scanned one index at a time and changes nothing
else. -/
theorem cutLoop_skip (str del : List Char) (hfit : str.length + del.length < WORD) :
    ∀ (n : Nat) (fuel : Nat) (s : CutState), s.i + n ≤ str.length →
      (∀ q, s.i ≤ q → q < s.i + n → matched str del q = false) →
      cutLoop str del (fuel + n) s = cutLoop str del fuel { s with i := s.i + n } := by
  intro n
  induction n with
  | zero => intro fuel s _ _; rfl
  | succ n ih =>
    intro fuel s hle hno
    have hi : s.i < str.length := by omega
    have e : fuel + (n + 1) = (fuel + n) + 1 := by omega
    rw [e]
    simp only [cutLoop, if_pos hi,
      cutBody_of_unmatched str del s hfit hi (hno s.i (Nat.le_refl _) (by omega))]
    rw [ih fuel { s with i := s.i + 1 } (by simp only; omega)
      (fun q h1 h2 => hno q (by simp only at h1; omega) (by simp only at h2; omega))]
    simp only [Nat.add_assoc, Nat.add_comm 1 n]

theorem slice_drop (str : List Char) (k a b : Nat) :
    slice str (k + a) (k + b) = slice (str.drop k) a b := by
  unfold slice
  have e1 : k + b - (k + a) = b - a := by omega
  rw [List.drop_drop, e1]

theorem matched_drop (str del : List Char) (k i : Nat)
    (hfit : str.length + del.length < WORD) (hi : k + i ≤ str.length) :
    matched str del (k + i) = matched (str.drop k) del i := by
  have h1 := matched_iff_starts str del (k + i) (by omega)
  have h2 := matched_iff_starts (str.drop k) del i (by omega)
  have e : (str.drop k).drop i = str.drop (k + i) := by
    rw [List.drop_drop]
  rw [e] at h2
  cases ha : matched str del (k + i) <;> cases hb : matched (str.drop k) del i <;> simp_all

/-- The scan of a string from index `k` on is the scan of the string without its
first `k` characters, with the indices moved by `k` and the pieces found before
kept. -/
theorem cutLoop_drop (str del : List Char) (k : Nat) (v0 : List (List Char))
    (hfit : str.length + del.length < WORD) (hk : k ≤ str.length) :
    ∀ (fuel : Nat) (s : CutState),
      cutLoop str del fuel { i := k + s.i, prev := k + s.prev, v := v0 ++ s.v } =
        (cutLoop (str.drop k) del fuel s).bind fun t =>
          .ok { i := k + t.i, prev := k + t.prev, v := v0 ++ t.v } := by
  have hfit2 : (str.drop k).length + del.length < WORD := by
    rw [List.length_drop]; omega
  intro fuel
  induction fuel with
  | zero => intro s; rfl
  | succ n ih =>
    intro s
    by_cases hi : s.i < (str.drop k).length
    · have hi2 : k + s.i < str.length := by rw [List.length_drop] at hi; omega
      have hm := matched_drop str del k s.i hfit (Nat.le_of_lt hi2)
      simp only [cutLoop, if_pos hi, if_pos hi2]
      cases hb : matched (str.drop k) del s.i with
      | true =>
        rw [hb] at hm
        rw [cutBody_of_matched str del _ hfit hi2 hm,
          cutBody_of_matched (str.drop k) del s hfit2 hi hb]
        have := ih { i := s.i + del.length, prev := s.i + del.length,
                     v := s.v ++ [slice (str.drop k) s.prev s.i] }
        simp only [slice_drop, Nat.add_assoc, List.append_assoc] at this ⊢
        exact this
      | false =>
        rw [hb] at hm
        rw [cutBody_of_unmatched str del _ hfit hi2 hm,
          cutBody_of_unmatched (str.drop k) del s hfit2 hi hb]
        have := ih { s with i := s.i + 1 }
        simp only [Nat.add_assoc] at this ⊢
        exact this
    · have hi2 : ¬ k + s.i < str.length := by rw [List.length_drop] at hi; omega
      simp only [cutLoop, if_neg hi, if_neg hi2, Res.bind_ok]

/-- A string in which the scan finds no match is returned whole. -/
theorem cut_of_no_match (str del : List Char) (fuel : Nat)
    (hfit : str.length + del.length < WORD) (hfuel : str.length < fuel)
    (hno : ∀ q, q < str.length → matched str del q = false) :
    cut fuel str del = .ok [str] := by
  obtain ⟨f, rfl⟩ : ∃ f, fuel = (f + 1) + str.length := ⟨fuel - str.length - 1, by omega⟩
  have h := cutLoop_skip str del hfit str.length (f + 1) { i := 0, prev := 0, v := [] }
    (by simp) (fun q _ h2 => hno q (by simpa using h2))
  simp only [cut, h, cutLoop, Nat.zero_add, Nat.lt_irrefl, if_false, Res.bind_ok,
    List.nil_append, slice, List.drop_zero, Nat.sub_zero, List.take_length]

/-- The first piece: when the first match of the scan is at the end of `p`, the array
of `cut` is `p` followed by the array of what comes after the delimiter. -/
theorem cut_first_piece (p del rest : List Char) (fuel : Nat)
    (hfit : (p ++ del ++ rest).length + del.length < WORD) (hd : del ≠ [])
    (hfuel : (p ++ del ++ rest).length < fuel)
    (hno : ∀ q, q < p.length → matched (p ++ del ++ rest) del q = false) :
    ∃ more, cut fuel rest del = .ok more ∧ cut fuel (p ++ del ++ rest) del = .ok (p :: more) := by
  have hM : 0 < del.length := List.length_pos.2 hd
  have hN : (p ++ del ++ rest).length = p.length + del.length + rest.length := by
    simp only [List.length_append]
  have hdrop : (p ++ del ++ rest).drop (p.length + del.length) = rest := by
    rw [← List.length_append]; exact List.drop_left _ _
  have hfitr : rest.length + del.length < WORD := by omega
  obtain ⟨f, hf⟩ : ∃ f, fuel = (f + 1) + p.length := ⟨fuel - p.length - 1, by omega⟩
  -- the scan of the rest
  obtain ⟨t, ht, _, _⟩ :=
    cutLoop_invariant rest del hfitr hd (fun _ => True) (fun _ _ _ => trivial)
      f { i := 0, prev := 0, v := [] } trivial (Nat.zero_le _) (by simp only; omega)
  have ht2 : cutLoop rest del fuel { i := 0, prev := 0, v := [] } = .ok t := by
    rw [hf, Nat.add_assoc]
    exact cutLoop_mono rest del f _ _ ht _
  -- the scan up to the first match
  have hskip := cutLoop_skip (p ++ del ++ rest) del hfit p.length (f + 1)
    { i := 0, prev := 0, v := [] } (by simp only; omega)
    (fun q _ h2 => hno q (by simpa using h2))
  have hi : p.length < (p ++ del ++ rest).length := by omega
  have hm : matched (p ++ del ++ rest) del p.length = true := by
    rw [matched_iff_starts _ _ _ (by omega)]
    rw [List.append_assoc, List.drop_left]
    exact List.prefix_append _ _
  have hp : slice (p ++ del ++ rest) 0 p.length = p := by
    simp only [slice, List.drop_zero, Nat.sub_zero, List.append_assoc, List.take_left]
  have hstep : cutLoop (p ++ del ++ rest) del fuel { i := 0, prev := 0, v := [] }
      = cutLoop (p ++ del ++ rest) del f
          { i := p.length + del.length, prev := p.length + del.length, v := [p] } := by
    rw [hf, hskip]
    simp only [Nat.zero_add, cutLoop, if_pos hi]
    rw [cutBody_of_matched _ _ _ hfit hi hm]
    simp only [hp, List.nil_append]
  have hshift := cutLoop_drop (p ++ del ++ rest) del (p.length + del.length) [p] hfit
    (by omega) f { i := 0, prev := 0, v := [] }
  rw [hdrop, ht] at hshift
  simp only [Nat.add_zero, List.append_nil, Res.bind_ok] at hshift
  refine ⟨t.v ++ [slice rest t.prev rest.length], ?_, ?_⟩
  · simp only [cut, ht2, Res.bind_ok]
  · have hsl : slice (p ++ del ++ rest) (p.length + del.length + t.prev)
        (p ++ del ++ rest).length = slice rest t.prev rest.length := by
      have e : (p ++ del ++ rest).length = (p.length + del.length) + rest.length := hN
      rw [e, slice_drop, hdrop]
    simp only [cut, hstep, hshift, Res.bind_ok, hsl, List.singleton_append,
      List.cons_append, List.nil_append]

/-- Where the delimiter does not occur in `p ++ del` before its end, the scan finds
no match before the end of `p`. -/
theorem no_match_before (p del rest : List Char)
    (hfit : (p ++ del ++ rest).length + del.length < WORD)
    (hfirst : ¬ del <:+: (p ++ del).dropLast) :
    ∀ q, q < p.length → matched (p ++ del ++ rest) del q = false := by
  intro q hq
  cases hm : matched (p ++ del ++ rest) del q with
  | false => rfl
  | true =>
    exfalso
    apply hfirst
    have hpre := (matched_iff_starts _ _ q (by
      simp only [List.length_append] at hfit ⊢; omega)).1 hm
    rw [List.prefix_iff_eq_take] at hpre
    have hL : (p ++ del).dropLast = (p ++ del ++ rest).take (p.length + del.length - 1) := by
      rw [List.dropLast_eq_take, List.length_append]
      exact (List.take_append_of_le_length
        (by simp only [List.length_append]; omega)).symm
    have hdel : (((p ++ del ++ rest).take (p.length + del.length - 1)).drop q).take
        del.length = del := by
      rw [List.drop_take, List.take_take, Nat.min_eq_left (by omega)]
      exact hpre.symm
    have hin : (((p ++ del ++ rest).take (p.length + del.length - 1)).drop q).take
        del.length <:+: (p ++ del ++ rest).take (p.length + del.length - 1) :=
      (List.take_prefix _ _).isInfix.trans (List.drop_suffix _ _).isInfix
    rw [hdel] at hin
    rw [hL]
    exact hin

/-- C4. `cut` splits into maximal pieces separated by the delimiter: for every string
and non-empty delimiter `cut` returns an array such that no element contains the
delimiter as a substring; the elements joined with the delimiter between them spell
the string, so nothing between two delimiters is dropped; a string without the
delimiter is returned whole, as one piece; and when the delimiter first occurs in
the string right after `p`, the array is `p` followed by the array of what comes
after that occurrence. Hence an empty piece is kept between adjacent delimiters: when
what comes after is the delimiter again, the array is `p`, the empty piece, and the
array of the rest. -/
theorem cut_maximal_pieces (str del : List Char) (fuel : Nat)
    (hfit : str.length + del.length < WORD) (hd : del ≠ []) (hfuel : str.length < fuel) :
    ∃ pieces, cut fuel str del = .ok pieces ∧
      (∀ p ∈ pieces, ¬ del <:+: p) ∧
      List.intercalate del pieces = str ∧
      (¬ del <:+: str → pieces = [str]) ∧
      (∀ p rest, str = p ++ del ++ rest → ¬ del <:+: (p ++ del).dropLast →
        ∃ more, cut fuel rest del = .ok more ∧ pieces = p :: more) ∧
      (∀ p rest, str = p ++ del ++ (del ++ rest) → ¬ del <:+: (p ++ del).dropLast →
        ∃ more, cut fuel rest del = .ok more ∧ pieces = p :: [] :: more) := by
  have hM : 0 < del.length := List.length_pos.2 hd
  obtain ⟨s', hrun, hinv, hend⟩ :=
    cutLoop_invariant str del hfit hd
      (fun s => ((∀ p ∈ s.v, ¬ del <:+: p) ∧
          ∀ q, s.prev ≤ q → q < s.i → matched str del q = false) ∧
        (s.prev ≤ s.i ∧ (s.v.map (· ++ del)).flatten = str.take s.prev))
      (fun s hs hi => ⟨cutBody_pieces_free str del s hfit hd hi hs.1,
        cutBody_spelled str del s hfit hi hs.2⟩)
      fuel { i := 0, prev := 0, v := [] }
      ⟨⟨by simp, by intro q _ h; simp only at h; omega⟩, le_refl _, by simp⟩ (Nat.zero_le _)
      (by simpa using hfuel)
  have hcut : cut fuel str del = .ok (s'.v ++ [slice str s'.prev str.length]) := by
    simp only [cut, hrun, Res.bind]
  refine ⟨s'.v ++ [slice str s'.prev str.length], hcut, ?_, ?_, ?_, ?_, ?_⟩
  · intro p hp
    simp only [List.mem_append, List.mem_singleton] at hp
    rcases hp with hp | hp
    · exact hinv.1.1 p hp
    · rw [hp]
      refine not_infix_slice str del s'.prev str.length hfit hd (le_refl _) ?_
      intro q h1 h2
      exact hinv.1.2 q h1 (by omega)
  · rw [intercalate_concat, hinv.2.2, take_append_slice str _ _ (by have := hinv.2.1; omega)]
    exact List.take_of_length_le (le_refl _)
  · intro hno
    have h1 := cut_of_no_match str del fuel hfit hfuel (by
      intro q hq
      cases hm : matched str del q with
      | false => rfl
      | true =>
        exact absurd (((matched_iff_starts str del q (by omega)).1 hm).isInfix.trans
          (List.drop_suffix q str).isInfix) hno)
    rw [hcut] at h1
    exact Res.ok.inj h1
  · intro p rest hstr hfirst
    subst hstr
    obtain ⟨more, hm1, hm2⟩ := cut_first_piece p del rest fuel hfit hd hfuel
      (no_match_before p del rest hfit hfirst)
    rw [hcut] at hm2
    exact ⟨more, hm1, Res.ok.inj hm2⟩
  · intro p rest hstr hfirst
    subst hstr
    have hlen : (p ++ del ++ (del ++ rest)).length
        = p.length + del.length + (del.length + rest.length) := by
      simp only [List.length_append]
    obtain ⟨more1, hm1, hm2⟩ := cut_first_piece p del (del ++ rest) fuel hfit hd hfuel
      (no_match_before p del (del ++ rest) hfit hfirst)
    have hfit2 : (([] : List Char) ++ del ++ rest).length + del.length < WORD := by
      simp only [List.nil_append, List.length_append]; omega
    obtain ⟨more, hn1, hn2⟩ := cut_first_piece [] del rest fuel hfit2 hd
      (by simp only [List.nil_append, List.length_append]; omega)
      (fun q hq => absurd hq (Nat.not_lt_zero q))
    simp only [List.nil_append] at hn2
    rw [hm1] at hn2
    rw [hcut] at hm2
    refine ⟨more, hn1, ?_⟩
    rw [Res.ok.inj hm2, Res.ok.inj hn2]

/-- Witness of C4 on `cut("a,b,,c", ",")`, whose value `["a","b","","c"]` keeps the
empty piece between the two adjacent delimiters. -/
theorem cut_maximal_pieces_witness :
    (∃ pieces, cut 7 "a,b,,c".toList ",".toList = .ok pieces ∧
      (∀ p ∈ pieces, ¬ ",".toList <:+: p) ∧
      List.intercalate ",".toList pieces = "a,b,,c".toList ∧
      (¬ ",".toList <:+: "a,b,,c".toList → pieces = ["a,b,,c".toList]) ∧
      (∀ p rest, "a,b,,c".toList = p ++ ",".toList ++ rest →
        ¬ ",".toList <:+: (p ++ ",".toList).dropLast →
        ∃ more, cut 7 rest ",".toList = .ok more ∧ pieces = p :: more) ∧
      (∀ p rest, "a,b,,c".toList = p ++ ",".toList ++ (",".toList ++ rest) →
        ¬ ",".toList <:+: (p ++ ",".toList).dropLast →
        ∃ more, cut 7 rest ",".toList = .ok more ∧ pieces = p :: [] :: more)) ∧
    cut 7 "a,b,,c".toList ",".toList
      = .ok ["a".toList, "b".toList, "".toList, "c".toList] :=
  ⟨cut_maximal_pieces "a,b,,c".toList ",".toList 7 (by decide) (by decide) (by decide),
    by decide⟩

/-! ## Empty delimiter and the growth of the output vector -/

/-- While the output vector has room, an iteration with the bounded vector is an
iteration of `cut`. -/
theorem cutBodyBounded_of_room (cap : Nat) (what : String) (str del : List Char) (s : CutState)
    (h : s.v.length < cap) :
    cutBodyBounded cap what str del s = .ok (cutBody str del s) := by
  unfold cutBodyBounded cutBody
  by_cases hm : matched str del s.i = true
  · simp only [hm, if_true, if_pos h]
  · simp only [hm, Bool.false_eq_true, if_false]

/-- With a non-empty delimiter the output vector never holds more pieces than the scan
index counts characters. -/
theorem cutBody_v_le (str del : List Char) (s : CutState)
    (hfit : str.length + del.length < WORD) (hd : del ≠ []) (hi : s.i < str.length)
    (h : s.v.length ≤ s.i) : (cutBody str del s).v.length ≤ (cutBody str del s).i := by
  have hM : 0 < del.length := List.length_pos.2 hd
  cases hm : matched str del s.i with
  | true =>
    rw [cutBody_of_matched str del s hfit hi hm]
    simp only [List.length_append, List.length_singleton]
    omega
  | false =>
    rw [cutBody_of_unmatched str del s hfit hi hm]
    simp only
    omega

theorem cutLoopBounded_eq (cap : Nat) (what : String) (str del : List Char)
    (hfit : str.length + del.length < WORD) (hd : del ≠ []) (hcap : str.length ≤ cap) :
    ∀ (fuel : Nat) (s : CutState), s.v.length ≤ s.i →
      cutLoopBounded cap what str del fuel s = cutLoop str del fuel s := by
  intro fuel
  induction fuel with
  | zero => intro s _; rfl
  | succ n ih =>
    intro s hv
    by_cases hi : s.i < str.length
    · simp only [cutLoopBounded, cutLoop, if_pos hi,
        cutBodyBounded_of_room cap what str del s (by omega), Res.bind_ok]
      exact ih _ (cutBody_v_le str del s hfit hd hi hv)
    · simp only [cutLoopBounded, cutLoop, if_neg hi]

/-- With a non-empty delimiter and an output vector that can hold more elements than
the string has characters, `cut` with the bounded vector is `cut`. -/
theorem cutBounded_eq_cut (cap : Nat) (what : String) (str del : List Char) (fuel : Nat)
    (hfit : str.length + del.length < WORD) (hd : del ≠ []) (hfuel : str.length < fuel)
    (hcap : str.length < cap) :
    cutBounded cap what fuel str del = cut fuel str del := by
  obtain ⟨s', hrun, hinv, hend⟩ :=
    cutLoop_invariant str del hfit hd (fun s => s.v.length ≤ s.i)
      (fun s hs hi => cutBody_v_le str del s hfit hd hi hs)
      fuel { i := 0, prev := 0, v := [] } (Nat.le_refl _) (Nat.zero_le _)
      (by simpa using hfuel)
  have hlt : s'.v.length < cap := by
    have h : s'.v.length ≤ s'.i := hinv
    omega
  have hb := cutLoopBounded_eq cap what str del hfit hd (Nat.le_of_lt hcap) fuel
    { i := 0, prev := 0, v := [] } (Nat.le_refl _)
  simp only [cutBounded, cut, hb, hrun, Res.bind_ok, if_pos hlt]

/-- With an empty delimiter an iteration started at `i = 0` appends an empty piece
when the vector has room and throws when it has none. -/
theorem cutBodyBounded_empty_delimiter (cap : Nat) (what : String) (str : List Char)
    (v : List (List Char)) :
    cutBodyBounded cap what str [] { i := 0, prev := 0, v := v } =
      if v.length < cap then .ok { i := 0, prev := 0, v := v ++ [[]] } else .error what := by
  simp [cutBodyBounded, matched, matchLoop, slice, WORD]

/-- With an empty delimiter and a non-empty string the loop with the bounded vector
runs until the vector is full and is left by the exception of the next
`emplace_back`. -/
theorem cutLoopBounded_empty_delimiter (cap : Nat) (what : String) (str : List Char)
    (hs : str ≠ []) :
    ∀ (fuel : Nat) (v : List (List Char)), v.length ≤ cap →
      cutLoopBounded cap what str [] fuel { i := 0, prev := 0, v := v } =
        if cap - v.length < fuel then .error what else .timeout := by
  have hN : 0 < str.length := List.length_pos.2 hs
  intro fuel
  induction fuel with
  | zero => intro v _; simp [cutLoopBounded]
  | succ n ih =>
    intro v hv
    simp only [cutLoopBounded, if_pos hN, cutBodyBounded_empty_delimiter]
    by_cases hlt : v.length < cap
    · rw [if_pos hlt]
      simp only [Res.bind_ok]
      rw [ih (v ++ [[]]) (by simp only [List.length_append, List.length_singleton]; omega)]
      simp only [List.length_append, List.length_singleton]
      by_cases h1 : cap - (v.length + 1) < n
      · rw [if_pos h1, if_pos (by omega)]
      · rw [if_neg h1, if_neg (by omega)]
    · rw [if_neg hlt, if_pos (by omega)]
      rfl

/-- C6, amended. `cut` has no check for an empty delimiter. On the empty string it
returns the one-element array `[""]` (the loop is not entered) and no error is
raised. On every non-empty string each iteration of the outer loop appends one empty
piece and leaves the scan index at 0 again; with an output vector that can hold
`cap + 1` elements no array is returned: the loop is left when the vector is full, by
the exception that `emplace_back` then throws, and until then it is still running. -/
theorem cut_empty_delimiter (str : List Char) (cap fuel : Nat) (what : String)
    (v : List (List Char)) :
    cutBody str [] { i := 0, prev := 0, v := v } = { i := 0, prev := 0, v := v ++ [[]] } ∧
    cut (fuel + 1) [] [] = .ok [[]] ∧
    cutBounded (cap + 1) what (fuel + 1) str [] =
      if str = [] then .ok [[]]
      else if cap + 1 < fuel + 1 then .error what else .timeout := by
  refine ⟨cutBody_empty_delimiter str v, by simp [cut, cutLoop, Res.bind, slice], ?_⟩
  by_cases hs : str = []
  · subst hs
    simp [cutBounded, cutLoopBounded, slice]
  · rw [if_neg hs]
    simp only [cutBounded, cutLoopBounded_empty_delimiter (cap + 1) what str hs (fuel + 1) []
      (Nat.zero_le _), List.length_nil, Nat.sub_zero]
    by_cases h : cap + 1 < fuel + 1
    · simp only [if_pos h]; rfl
    · simp only [if_neg h]; rfl

/-! ## The drain of a generator -/

/-- One call of `next` on a generator over a finite source: the lambda steps the
source, binds the loop slot and evaluates the body in the runtime `bodyEntry`; `ok` is
what the source reported. -/
theorem gen_next_entry (M : ObjModel) (f slot dst src : Nat) (body : Closure)
    (kd ks : SeqKind) (hd hs : Ptr) (xs : List Nat) (r : Runtime)
    (hdst : r.heap[dst]? = some (.seq kd hd (.gen src (.UINT slot) (some dst) body)))
    (hsrc : r.heap[src]? = some (.seq ks hs (.iter xs)))
    (hslot : slot < r.vars.length) :
    (sem M (f + 2)).next dst r =
      (_exec_closure (sem M (f + 1)).run (some dst) 0
        (bodyEntry dst src slot ks hs xs r) body).bind fun (rc, val) =>
          .ok (rc, val, !xs.isEmpty) := by
  cases xs with
  | nil =>
    simp only [Sem.next, sem_succ, produce, genLambda, Runtime.log, hdst, hsrc, Res.bind_ok,
      Atom.asUInt, Runtime.set_var, hslot, if_true, List.append_assoc,
      List.singleton_append, bodyEntry]
    rfl
  | cons x xs =>
    simp only [Sem.next, sem_succ, produce, genLambda, Runtime.log, hdst, hsrc, Res.bind_ok,
      Atom.asUInt, Runtime.set_var, Runtime.store, hslot, if_true, List.append_assoc,
      List.singleton_append, bodyEntry]
    rfl

theorem gen_ne_of_cells {heap : Heap} {dst src slot : Nat} {body : Closure}
    {kd ks : SeqKind} {hd hs : Ptr} {xs : List Nat}
    (hdst : heap[dst]? = some (.seq kd hd (.gen src (.UINT slot) (some dst) body)))
    (hsrc : heap[src]? = some (.seq ks hs (.iter xs))) : src ≠ dst := by
  intro e
  subst e
  rw [hdst] at hsrc
  simp at hsrc

/-- The drain loop of `fill` on a generator under a drain invariant: the loop returns
after `xs.length + 1` calls of `next`, each of which steps the source once and
evaluates the body once. -/
theorem fillLoop_gen_inv (M : ObjModel) (fb slot dst src : Nat) (body : Closure)
    (kd ks : SeqKind) (hd hs : Ptr) (Inv : List Nat → Runtime → Prop)
    (hB : DrainInvariant M fb dst src slot body kd ks hd hs Inv) :
    ∀ (xs : List Nat) (f : Nat) (acc : List Nat) (r : Runtime),
      fb + xs.length ≤ f → Inv xs r →
      ∃ r1 cells, fillLoop (sem M (f + 2)) dst acc r = .ok (r1, cells) ∧
        cells.length = acc.length + xs.length ∧
        r1.trace.count (Event.closure (some dst) 0)
          = r.trace.count (Event.closure (some dst) 0) + (xs.length + 1) ∧
        r1.trace.count (Event.next src) = r.trace.count (Event.next src) + (xs.length + 1) := by
  intro xs
  induction xs with
  | nil =>
    intro f acc r hf hI
    obtain ⟨hdst, hsrc, hslot, r1, v, hrun, ⟨ev, ht, he1, he2⟩, _⟩ := hB (f + 1) [] r (by omega) hI
    have hne := gen_ne_of_cells hdst hsrc
    have hnext := gen_next_entry M f slot dst src body kd ks hd hs [] r hdst hsrc hslot
    rw [hrun] at hnext
    have ht2 : r1.trace = r.trace ++ [Event.next dst, Event.next src,
        Event.closure (some dst) 0] ++ ev := by
      rw [ht]; simp [bodyEntry]
    refine ⟨r1, acc, ?_, by simp, ?_, ?_⟩
    · simp only [fillLoop, hnext, Res.bind_ok, List.isEmpty_nil, Bool.not_true]
      rfl
    · rw [ht2, count_after_step _ _ _ _ _ _ he2]
      simp [List.count_cons]
    · rw [ht2, count_after_step _ _ _ _ _ _ he1]
      simp [List.count_cons, hne]
  | cons x xs ih =>
    intro f acc r hf hI
    obtain ⟨hdst, hsrc, hslot, r1, v, hrun, ⟨ev, ht, he1, he2⟩, hval⟩ :=
      hB (f + 1) (x :: xs) r (by omega) hI
    obtain ⟨y, o, hy, ho, hI2⟩ := hval x xs rfl
    have hne := gen_ne_of_cells hdst hsrc
    have hnext := gen_next_entry M f slot dst src body kd ks hd hs (x :: xs) r hdst hsrc hslot
    rw [hrun] at hnext
    have ht2 : r1.trace = r.trace ++ [Event.next dst, Event.next src,
        Event.closure (some dst) 0] ++ ev := by
      rw [ht]; simp [bodyEntry]
    simp only [List.length_cons] at hf
    obtain ⟨f', hf'⟩ : ∃ f', f = f' + 1 := ⟨f - 1, by omega⟩
    subst hf'
    obtain ⟨r2, cells, hfill, hc, hcnt1, hcnt2⟩ := ih f' (acc ++ [r1.heap.length])
      { r1 with heap := r1.heap ++ [o] } (by omega) hI2
    refine ⟨r2, cells, ?_, ?_, ?_, ?_⟩
    · have hlevel : (sem M (f' + 1 + 2)).fill = fillLoop (sem M (f' + 2)) := rfl
      simp only [fillLoop, hnext, Res.bind_ok, List.isEmpty_cons, Bool.not_false, if_true, hy,
        Option.some_bind, ho, hlevel]
      exact hfill
    · simp only [List.length_append, List.length_singleton, List.length_cons,
        List.length_nil] at hc ⊢
      omega
    · rw [hcnt1]
      simp only
      rw [ht2, count_after_step _ _ _ _ _ _ he2]
      simp [List.count_cons]
      omega
    · rw [hcnt2]
      simp only
      rw [ht2, count_after_step _ _ _ _ _ _ he1]
      simp [List.count_cons, hne]
      omega

/-- C9, amended. For every generator whose source is a finite sequencer with N elements
left and whose body, in the runtimes that the drain passes through, returns and leaves
the generator and its source alone, the drain loop of `fill` (the loop of `ARR`)
returns with N elements collected, having evaluated the body closure (closure 0)
exactly N + 1 times and called `next` of the source exactly N + 1 times: the last call
of `next` on the generator, on which the source reports `ok=false`, evaluates the body
once more. -/
theorem gen_drain_counts (M : ObjModel) (fb fuel slot dst src : Nat) (body : Closure)
    (kd ks : SeqKind) (hd hs : Ptr) (Inv : List Nat → Runtime → Prop) (xs : List Nat)
    (r : Runtime)
    (hB : DrainInvariant M fb dst src slot body kd ks hd hs Inv) (hI : Inv xs r)
    (hfuel : fb + xs.length + 2 ≤ fuel) :
    ∃ r1 cells, fillLoop (sem M fuel) dst [] r = .ok (r1, cells) ∧
      cells.length = xs.length ∧
      r1.trace.count (Event.closure (some dst) 0)
        = r.trace.count (Event.closure (some dst) 0) + (xs.length + 1) ∧
      r1.trace.count (Event.next src) = r.trace.count (Event.next src) + (xs.length + 1) := by
  obtain ⟨f, rfl⟩ : ∃ f, fuel = f + 2 := ⟨fuel - 2, by omega⟩
  obtain ⟨r1, cells, h1, h2, h3, h4⟩ :=
    fillLoop_gen_inv M fb slot dst src body kd ks hd hs Inv hB xs f [] r (by omega) hI
  exact ⟨r1, cells, h1, by simpa using h2, h3, h4⟩

/-- The body `[VAR slot]` returns in every runtime of a drain over cells of the heap and
leaves every generator and source alone. -/
theorem drainInvariant_var (M : ObjModel) (dst src slot fv : Nat) (tv t0 : TabType)
    (cv : List Closure) (ov : Ptr) (kd ks : SeqKind) (hd hs : Ptr) :
    DrainInvariant M 1 dst src slot (.mk [.mk .VAR (.UINT slot) tv cv ov fv] t0) kd ks hd hs
      (cellsInv dst src slot (.mk [.mk .VAR (.UINT slot) tv cv ov fv] t0) kd ks hd hs) := by
  intro f xs r hf hI
  obtain ⟨hdst, hsrc, hslot, hcells⟩ := hI
  have hne := gen_ne_of_cells hdst hsrc
  have hdl := lt_length_of_getElem? _ _ _ hdst
  have hsl := lt_length_of_getElem? _ _ _ hsrc
  obtain ⟨f', rfl⟩ : ∃ f', f = f' + 1 := ⟨f - 1, by omega⟩
  refine ⟨hdst, hsrc, hslot, ?_⟩
  cases xs with
  | nil =>
    refine ⟨{ vars := r.vars.set slot hs, stack := r.stack, heap := r.heap,
              trace := r.trace ++ [Event.next dst, Event.next src]
                ++ [Event.closure (some dst) 0] }, hs, ?_, ⟨[], rfl, by simp, by simp⟩, ?_⟩
    · simp [_exec_closure, sem_succ, Closure.code, runLoop, step, Command.cmd, Command.arg,
        Atom.asUInt, Runtime.get_var, Runtime.log, Runtime.push_back, Runtime.back, bodyEntry,
        List.getElem?_set_self hslot]
    · intro x rest h
      exact absurd h (by simp)
  | cons x rest =>
    have hx : x < r.heap.length := hcells x (List.mem_cons_self _ _)
    have hxl : x < (r.heap.set src (.seq ks hs (.iter rest))).length := by
      simpa only [List.length_set] using hx
    refine ⟨{ vars := r.vars.set slot (some x), stack := r.stack,
              heap := r.heap.set src (.seq ks hs (.iter rest)),
              trace := r.trace ++ [Event.next dst, Event.next src]
                ++ [Event.closure (some dst) 0] }, some x, ?_, ⟨[], rfl, by simp, by simp⟩, ?_⟩
    · simp [_exec_closure, sem_succ, Closure.code, runLoop, step, Command.cmd, Command.arg,
        Atom.asUInt, Runtime.get_var, Runtime.log, Runtime.push_back, Runtime.back, bodyEntry,
        List.getElem?_set_self hslot]
    · intro x' rest' h
      simp only [List.cons.injEq] at h
      obtain ⟨rfl, rfl⟩ := h
      refine ⟨x, (r.heap.set src (.seq ks hs (.iter rest)))[x], rfl,
        List.getElem?_eq_getElem hxl, ?_, ?_, ?_, ?_⟩
      · simp only
        rw [List.getElem?_append_left (by simpa only [List.length_set] using hdl),
          List.getElem?_set_ne hne]
        exact hdst
      · simp only
        rw [List.getElem?_append_left (by simpa only [List.length_set] using hsl),
          List.getElem?_set_self hsl]
      · simpa only [List.length_set] using hslot
      · intro z hz
        have := hcells z (List.mem_cons_of_mem _ hz)
        simp only [List.length_append, List.length_set, List.length_singleton]
        omega

/-- An `Int` is still an `Int` after the source has been stepped, an `Int` cell has been
overwritten with an `Int`, and a cell has been added to the heap. -/
theorem isInt_keep {heap : Heap} {p : Ptr} {src x : Nat} {ks : SeqKind} {hs : Ptr}
    {xs : List Nat} (S : Obj) (w : Int) (o : Obj)
    (hp : IsInt heap p) (hsrc : heap[src]? = some (.seq ks hs (.iter xs))) :
    IsInt ((heap.set src S).set x (.int w) ++ [o]) p := by
  obtain ⟨n, v, rfl, hn⟩ := hp
  have hnl := lt_length_of_getElem? _ _ _ hn
  have hns : src ≠ n := by
    intro e; subst e; rw [hsrc] at hn; simp at hn
  by_cases hx : x = n
  · subst hx
    refine ⟨x, w, rfl, ?_⟩
    rw [List.getElem?_append_left (by simpa only [List.length_set] using hnl),
      List.getElem?_set_self (by simpa only [List.length_set] using hnl)]
  · refine ⟨n, v, rfl, ?_⟩
    rw [List.getElem?_append_left (by simpa only [List.length_set] using hnl),
      List.getElem?_set_ne hx, List.getElem?_set_ne hns]
    exact hn

/-- One evaluation of the body `[VAR slot, NOT]` in a runtime whose loop slot holds an
`Int`: the `Int` is complemented in place and returned. -/
theorem exec_var_not (M : ObjModel) (f slot dst fv fn : Nat) (tv tn t0 : TabType)
    (cv cn : List Closure) (ov onn : Ptr) (an : Atom) (r : Runtime) (x : Nat) (v : Int)
    (hslot : r.vars[slot]? = some (some x)) (hx : r.heap[x]? = some (.int v)) :
    _exec_closure (sem M (f + 1)).run (some dst) 0 r
        (.mk [.mk .VAR (.UINT slot) tv cv ov fv, .mk .NOT an tn cn onn fn] t0) =
      .ok ({ r with heap := r.heap.set x (.int (Int.not v)),
                    trace := r.trace ++ [Event.closure (some dst) 0] }, some x) := by
  simp [_exec_closure, sem_succ, Closure.code, runLoop, step, Command.cmd, Command.arg,
    Atom.asUInt, Runtime.get_var, Runtime.log, Runtime.push_back, Runtime.back, hslot,
    getInt, hx, Runtime.store, List.getLast?_concat]

/-- The body `[VAR slot, NOT]`, which uses the loop variable as an `Int`, returns in
every runtime of a drain over `Int` cells with an `Int` holder and leaves every
generator and source alone. -/
theorem drainInvariant_var_not (M : ObjModel) (dst src slot fv fn : Nat)
    (tv tn t0 : TabType) (cv cn : List Closure) (ov onn : Ptr) (an : Atom)
    (kd ks : SeqKind) (hd hs : Ptr) :
    DrainInvariant M 1 dst src slot
      (.mk [.mk .VAR (.UINT slot) tv cv ov fv, .mk .NOT an tn cn onn fn] t0) kd ks hd hs
      (intCellsInv dst src slot
        (.mk [.mk .VAR (.UINT slot) tv cv ov fv, .mk .NOT an tn cn onn fn] t0) kd ks hd hs) := by
  intro f xs r hf hI
  obtain ⟨hdst, hsrc, hslot, hints, hholder⟩ := hI
  have hne := gen_ne_of_cells hdst hsrc
  have hdl := lt_length_of_getElem? _ _ _ hdst
  have hsl := lt_length_of_getElem? _ _ _ hsrc
  obtain ⟨f', rfl⟩ : ∃ f', f = f' + 1 := ⟨f - 1, by omega⟩
  refine ⟨hdst, hsrc, hslot, ?_⟩
  cases xs with
  | nil =>
    obtain ⟨h, v, rfl, hh⟩ := hholder
    have hrun := exec_var_not M f' slot dst fv fn tv tn t0 cv cn ov onn an
      (bodyEntry dst src slot ks (some h) [] r) h v
      (by simp only [bodyEntry, List.getElem?_set_self hslot]) hh
    refine ⟨_, _, hrun, ⟨[], rfl, by simp, by simp⟩, ?_⟩
    intro x rest e
    exact absurd e (by simp)
  | cons x rest =>
    obtain ⟨n, v, hn, hxv⟩ := hints x (List.mem_cons_self _ _)
    have e : n = x := (Option.some.inj hn).symm
    subst e
    have hxl := lt_length_of_getElem? _ _ _ hxv
    have hxs : src ≠ n := by
      intro e; subst e; rw [hsrc] at hxv; simp at hxv
    have hxd : n ≠ dst := by
      intro e; subst e; rw [hdst] at hxv; simp at hxv
    have hrun := exec_var_not M f' slot dst fv fn tv tn t0 cv cn ov onn an
      (bodyEntry dst src slot ks hs (n :: rest) r) n v
      (by simp only [bodyEntry, List.getElem?_set_self hslot])
      (by simp only [bodyEntry, List.getElem?_set_ne hxs]; exact hxv)
    refine ⟨_, _, hrun, ⟨[], rfl, by simp, by simp⟩, ?_⟩
    intro x' rest' e
    simp only [List.cons.injEq] at e
    obtain ⟨rfl, rfl⟩ := e
    refine ⟨n, .int (Int.not v), rfl, ?_, ?_, ?_, ?_, ?_, ?_⟩
    · simp only [bodyEntry]
      rw [List.getElem?_set_self (by simpa only [List.length_set] using hxl)]
    · simp only [bodyEntry]
      rw [List.getElem?_append_left (by simpa only [List.length_set] using hdl),
        List.getElem?_set_ne hxd, List.getElem?_set_ne hne]
      exact hdst
    · simp only [bodyEntry]
      rw [List.getElem?_append_left (by simpa only [List.length_set] using hsl),
        List.getElem?_set_ne (Ne.symm hxs), List.getElem?_set_self hsl]
    · simpa only [bodyEntry, List.length_set] using hslot
    · intro z hz
      exact isInt_keep _ _ _ (hints z (List.mem_cons_of_mem _ hz)) hsrc
    · exact isInt_keep _ _ _ hholder hsrc

/-- Witness of the amended C9, N = 2: on the generator of the example, whose body is
`[VAR 1]`, and on a generator whose body `[VAR 1, NOT]` uses the loop variable as an
`Int`, over a source with an `Int` holder. -/
theorem gen_drain_counts_witness :
    (∃ r1 cells, fillLoop (sem bareModel 5) 3 [] demoAfterGen = .ok (r1, cells) ∧
      cells.length = 2 ∧
      r1.trace.count (Event.closure (some 3) 0)
        = demoAfterGen.trace.count (Event.closure (some 3) 0) + (2 + 1) ∧
      r1.trace.count (Event.next 2) = demoAfterGen.trace.count (Event.next 2) + (2 + 1)) ∧
    (∃ r1 cells, fillLoop (sem bareModel 5) 3 [] demoNotRuntime = .ok (r1, cells) ∧
      cells.length = 2 ∧
      r1.trace.count (Event.closure (some 3) 0)
        = demoNotRuntime.trace.count (Event.closure (some 3) 0) + (2 + 1) ∧
      r1.trace.count (Event.next 2) = demoNotRuntime.trace.count (Event.next 2) + (2 + 1)) :=
  ⟨gen_drain_counts bareModel 1 5 1 3 2 (.mk [varCmd 1] (.mk .INT [])) .plain .plain none
      none (cellsInv 3 2 1 (.mk [varCmd 1] (.mk .INT [])) .plain .plain none none) [0, 1]
      demoAfterGen
      (drainInvariant_var bareModel 3 2 1 0 (.mk .INT []) (.mk .INT []) [] none
        .plain .plain none none)
      ⟨rfl, rfl, by decide, by decide⟩ (by decide),
    gen_drain_counts bareModel 1 5 1 3 2 notBody .plain .plain none (some 5)
      (intCellsInv 3 2 1 notBody .plain .plain none (some 5)) [0, 1] demoNotRuntime
      (drainInvariant_var_not bareModel 3 2 1 0 0 (.mk .INT []) (.mk .INT []) (.mk .INT [])
        [] [] none none (.UINT 0) .plain .plain none (some 5))
      ⟨rfl, rfl, by decide, fun x hx => by
          simp only [List.mem_cons, List.mem_singleton, List.not_mem_nil, or_false] at hx
          rcases hx with rfl | rfl
          · exact ⟨0, 10, rfl, rfl⟩
          · exact ⟨1, 20, rfl, rfl⟩,
        ⟨5, 0, rfl, rfl⟩⟩ (by decide)⟩

/-! ## Readiness and the net effect of a step -/

theorem binReal_eq (op : Float → Float → Float) (r : Runtime) (s : List Ptr) (pl pr : Nat)
    (L R : Float) (hstack : r.stack = s ++ [some pl, some pr])
    (hL : r.heap[pl]? = some (.real L)) (hR : r.heap[pr]? = some (.real R)) :
    binReal op r =
      .ok { r with stack := s ++ [some pl], heap := r.heap.set pl (.real (op L R)),
                   trace := r.trace ++ [.pop (s.length + 1)] } := by
  simp [binReal, Runtime.back, Runtime.pop_back, hstack, getLast?_append_two,
    dropLast_append_two, getReal, hL, hR, Runtime.store, List.getLast?_concat]

theorem binInt_returns (op : Int → Int → Res Int) (r : Runtime)
    (hop : ∀ L R, ∃ v, op L R = .ok v)
    (h : ∃ s pl pr, r.stack = s ++ [pl, pr] ∧ IsInt r.heap pl ∧ IsInt r.heap pr) :
    ∃ r1, binInt op r = .ok r1 := by
  obtain ⟨s, pl, pr, hs, ⟨nl, L, rfl, hL⟩, ⟨nr, R, rfl, hR⟩⟩ := h
  obtain ⟨v, hv⟩ := hop L R
  rw [binInt_eq op r s nl nr L R hs hL hR, hv]
  exact ⟨_, rfl⟩

theorem binInt_returns_div (op : Int → Int → Res Int) (r : Runtime)
    (hop : ∀ L R, R ≠ 0 → ¬ (L = -(2 ^ 63) ∧ R = -1) → ∃ v, op L R = .ok v)
    (h : ∃ s pl pr L R, r.stack = s ++ [some pl, some pr] ∧ r.heap[pl]? = some (.int L) ∧
      r.heap[pr]? = some (.int R) ∧ R ≠ 0 ∧ ¬ (L = -(2 ^ 63) ∧ R = -1)) :
    ∃ r1, binInt op r = .ok r1 := by
  obtain ⟨s, nl, nr, L, R, hs, hL, hR, h0, h1⟩ := h
  obtain ⟨v, hv⟩ := hop L R h0 h1
  rw [binInt_eq op r s nl nr L R hs hL hR, hv]
  exact ⟨_, rfl⟩

theorem binReal_returns (op : Float → Float → Float) (r : Runtime)
    (h : ∃ s pl pr, r.stack = s ++ [pl, pr] ∧ IsReal r.heap pl ∧ IsReal r.heap pr) :
    ∃ r1, binReal op r = .ok r1 := by
  obtain ⟨s, pl, pr, hs, ⟨nl, L, rfl, hL⟩, ⟨nr, R, rfl, hR⟩⟩ := h
  rw [binReal_eq op r s nl nr L R hs hL hR]
  exact ⟨_, rfl⟩

theorem divInt_returns (L R : Int) (h0 : R ≠ 0) (h1 : ¬ (L = -(2 ^ 63) ∧ R = -1)) :
    ∃ v, divInt L R = .ok v := by
  unfold divInt
  rw [if_neg h0, if_neg h1]
  exact ⟨_, rfl⟩

theorem modInt_returns (L R : Int) (h0 : R ≠ 0) (h1 : ¬ (L = -(2 ^ 63) ∧ R = -1)) :
    ∃ v, modInt L R = .ok v := by
  unfold modInt
  rw [if_neg h0, if_neg h1]
  exact ⟨_, rfl⟩

/-- The pop of the top of a stack that has one. -/
theorem pop_back_concat (r : Runtime) (s : List Ptr) (p : Ptr) (hs : r.stack = s ++ [p]) :
    r.pop_back = .ok { r with stack := s, trace := r.trace ++ [.pop s.length] } := by
  simp [Runtime.pop_back, hs]

theorem back_concat (r : Runtime) (s : List Ptr) (p : Ptr) (hs : r.stack = s ++ [p]) :
    r.back = .ok p := by
  simp [Runtime.back, hs, List.getLast?_concat]

theorem storeReal_returns (o : Ptr) (v : Float) (r : Runtime) (h : IsReal r.heap o) :
    ∃ r1, storeReal o v r = .ok r1 := by
  obtain ⟨n, w, rfl, hn⟩ := h
  simp [storeReal, getReal, hn]

theorem getInt_of_isInt (heap : Heap) (p : Ptr) (h : IsInt heap p) :
    ∃ n v, getInt heap p = .ok (n, v) := by
  obtain ⟨n, v, rfl, hn⟩ := h
  exact ⟨n, v, by simp [getInt, hn]⟩

theorem getUInt_of_isUInt (heap : Heap) (p : Ptr) (h : IsUInt heap p) :
    ∃ n v, getUInt heap p = .ok (n, v) := by
  obtain ⟨n, v, rfl, hn⟩ := h
  exact ⟨n, v, by simp [getUInt, hn]⟩

theorem getSequencer_of_isSeq (heap : Heap) (p : Ptr) (h : IsSeq heap p) :
    ∃ n kind holder v, p = some n ∧ heap[n]? = some (.seq kind holder v) ∧
      getSequencer heap p = .ok n := by
  obtain ⟨n, kind, holder, v, rfl, hn⟩ := h
  exact ⟨n, kind, holder, v, rfl, hn, by simp [getSequencer, hn]⟩

theorem wrap_returns (n : Nat) (src : Ptr) (r : Runtime) (kind : SeqKind) (holder : Ptr)
    (v : Producer) (hn : r.heap[n]? = some (.seq kind holder v))
    (hsrc : IsContainer r.heap src) : ∃ r1, wrap n src r = .ok r1 := by
  obtain ⟨q, rfl, hq | hq⟩ := hsrc
  · obtain ⟨elems, he⟩ := hq
    simp [wrap, hn, he]
  · obtain ⟨entries, he⟩ := hq
    simp [wrap, hn, he]

/-- The case of a command returns in every runtime that is ready for it. -/
theorem step_returns {M : ObjModel} {rec : Sem} {c : Command} {r : Runtime}
    (h : Ready M rec c r) : ∃ r1, step M rec c r = .ok r1 := by
  unfold Ready at h
  unfold step
  cases hc : c.cmd <;> rw [hc] at h <;> simp only at h ⊢
  case VAL => exact ⟨_, rfl⟩
  case VAR =>
    obtain ⟨ix, ha, hlt⟩ := h
    simp [ha, Atom.asUInt, Runtime.get_var, List.getElem?_eq_getElem hlt]
  case VAW =>
    obtain ⟨ix, ha, hlt, hne⟩ := h
    obtain ⟨p, hp⟩ : ∃ p, r.stack.getLast? = some p :=
      ⟨_, List.getLast?_eq_getLast _ hne⟩
    simp [ha, Atom.asUInt, Runtime.back, hp, Runtime.set_var, hlt, Runtime.pop_back, hne]
  case TUP =>
    obtain ⟨n, fields, ho, hf, hle⟩ := h
    simp [tupleSet, ho, hf, hle]
  case SEQ =>
    obtain ⟨s, src, hs, hsrc, hobj⟩ := h
    obtain ⟨n, kind, holder, v, ho, hn, hget⟩ := getSequencer_of_isSeq _ _ hobj
    obtain ⟨r2, hw⟩ := wrap_returns n src
      { r with stack := s, trace := r.trace ++ [.pop s.length] } kind holder v hn hsrc
    simp only [back_concat r s src hs, pop_back_concat r s src hs, Res.bind_ok, hget, hw]
    exact ⟨_, rfl⟩
  case FLAT =>
    obtain ⟨s, p, hs, hp, hobj⟩ := h
    obtain ⟨n, kind, holder, v, _, _, hget⟩ := getSequencer_of_isSeq _ _ hp
    obtain ⟨f, holder2, v2, ho, hf⟩ := hobj
    simp only [back_concat r s p hs, pop_back_concat r s p hs, Res.bind_ok, hget]
    simp [getSequencerFlatten, ho, hf]
  case EXP | MUL_R | DIV_R | ADD_R | SUB_R =>
    all_goals exact binReal_returns _ r h
  case MUL_I | ADD_I | SUB_I | AND | OR | XOR =>
    all_goals exact binInt_returns _ r (fun _ _ => ⟨_, rfl⟩) h
  case DIV_I => exact binInt_returns_div _ r divInt_returns h
  case MOD => exact binInt_returns_div _ r modInt_returns h
  case NOT =>
    obtain ⟨s, p, hs, hp⟩ := h
    obtain ⟨n, v, hget⟩ := getInt_of_isInt _ _ hp
    simp only [back_concat r s p hs, Res.bind_ok, hget]
    exact ⟨_, rfl⟩
  case I2R_1 =>
    obtain ⟨s, p, hs, hp, hobj⟩ := h
    obtain ⟨n, v, hget⟩ := getInt_of_isInt _ _ hp
    obtain ⟨r2, h2⟩ := storeReal_returns c.object (Float.ofInt v)
      { r with stack := s, trace := r.trace ++ [.pop s.length] } hobj
    simp only [back_concat r s p hs, pop_back_concat r s p hs, Res.bind_ok, hget, h2]
    exact ⟨_, rfl⟩
  case U2R_1 =>
    obtain ⟨s, p, hs, hp, hobj⟩ := h
    obtain ⟨n, v, hget⟩ := getUInt_of_isUInt _ _ hp
    obtain ⟨r2, h2⟩ := storeReal_returns c.object (Float.ofNat v)
      { r with stack := s, trace := r.trace ++ [.pop s.length] } hobj
    simp only [back_concat r s p hs, pop_back_concat r s p hs, Res.bind_ok, hget, h2]
    exact ⟨_, rfl⟩
  case I2R_2 =>
    obtain ⟨s, p, x, hs, hp, hobj⟩ := h
    obtain ⟨n, v, hget⟩ := getInt_of_isInt _ _ hp
    have hs2 : r.stack = (s ++ [p]) ++ [x] := by rw [hs]; simp
    obtain ⟨r2, h2⟩ := storeReal_returns c.object (Float.ofInt v)
      { r with stack := s, trace := r.trace ++ [.pop (s ++ [p]).length] ++ [.pop s.length] } hobj
    have hb := back_concat
      ⟨r.vars, s ++ [p], r.heap, r.trace ++ [.pop (s ++ [p]).length]⟩ s p rfl
    have hp2 := pop_back_concat
      ⟨r.vars, s ++ [p], r.heap, r.trace ++ [.pop (s ++ [p]).length]⟩ s p rfl
    simp only [back_concat r _ x hs2, pop_back_concat r _ x hs2, Res.bind_ok, hb, hp2,
      hget, h2]
    exact ⟨_, rfl⟩
  case U2R_2 =>
    obtain ⟨s, p, x, hs, hp, hobj⟩ := h
    obtain ⟨n, v, hget⟩ := getUInt_of_isUInt _ _ hp
    have hs2 : r.stack = (s ++ [p]) ++ [x] := by rw [hs]; simp
    obtain ⟨r2, h2⟩ := storeReal_returns c.object (Float.ofNat v)
      { r with stack := s, trace := r.trace ++ [.pop (s ++ [p]).length] ++ [.pop s.length] } hobj
    have hb := back_concat
      ⟨r.vars, s ++ [p], r.heap, r.trace ++ [.pop (s ++ [p]).length]⟩ s p rfl
    have hp2 := pop_back_concat
      ⟨r.vars, s ++ [p], r.heap, r.trace ++ [.pop (s ++ [p]).length]⟩ s p rfl
    simp only [back_concat r _ x hs2, pop_back_concat r _ x hs2, Res.bind_ok, hb, hp2,
      hget, h2]
    exact ⟨_, rfl⟩
  case FUN =>
    obtain ⟨closure, ra, arg, heap, hcl, hex, hcall⟩ := h
    simp only [hcl, hex, Res.bind_ok, hcall]
    exact ⟨_, rfl⟩
  case IDX =>
    obtain ⟨closure, ra, key, cont, heap, hcl, hex, hback, hidx⟩ := h
    have hne : ra.stack ≠ [] := by
      intro e; rw [e] at hback; simp at hback
    simp [hcl, hex, Runtime.back, hback, hidx, Runtime.pop_back, hne]
  case GEN =>
    obtain ⟨closure1, closure0, ra, p, hc1, hc0, hex, hp, hobj⟩ := h
    obtain ⟨n, kind, holder, v, _, _, hget⟩ := getSequencer_of_isSeq _ _ hp
    obtain ⟨d, kind2, holder2, v2, _, hd, hget2⟩ := getSequencer_of_isSeq _ _ hobj
    simp only [hc1, hc0, hex, Res.bind_ok, hget, hget2, hd]
    exact ⟨_, rfl⟩
  case ARR =>
    obtain ⟨s, n, r2, hs, hp, hfill⟩ := h
    obtain ⟨m, kind, holder, v, hm, _, hget⟩ := getSequencer_of_isSeq _ _ hp
    have e : m = n := (Option.some.inj hm).symm
    subst e
    simp only [back_concat r s _ hs, pop_back_concat r s _ hs, Res.bind_ok, hget, hfill]
    exact ⟨_, rfl⟩
  case MAP =>
    obtain ⟨s, n, r2, hs, hp, hfill⟩ := h
    obtain ⟨m, kind, holder, v, hm, _, hget⟩ := getSequencer_of_isSeq _ _ hp
    have e : m = n := (Option.some.inj hm).symm
    subst e
    simp only [back_concat r s _ hs, pop_back_concat r s _ hs, Res.bind_ok, hget, hfill]
    exact ⟨_, rfl⟩

/-- Counterexample to C16. The stack holds the two operands of `DIV_I`, both `Int`s, the
divisor 0 on top: the case divides unguarded and does not run to its end, so there is
no stack of after the step, one element shorter or other. -/
theorem net_stack_effect_counterexample :
    divZeroRuntime.stack = [some 0, some 1] ∧
    IsInt divZeroRuntime.heap (some 0) ∧ IsInt divZeroRuntime.heap (some 1) ∧
    step bareModel (sem bareModel 1) (opCmd .DIV_I) divZeroRuntime = .ub ∧
    ¬ ∃ r1, step bareModel (sem bareModel 1) (opCmd .DIV_I) divZeroRuntime = .ok r1 ∧
      (r1.stack.length : Int)
        = divZeroRuntime.stack.length + stackDelta divZeroRuntime.heap (opCmd .DIV_I) := by
  have h : step bareModel (sem bareModel 1) (opCmd .DIV_I) divZeroRuntime = .ub := rfl
  refine ⟨rfl, ⟨0, 10, rfl, rfl⟩, ⟨1, 0, rfl, rfl⟩, h, ?_⟩
  rintro ⟨r1, h1, _⟩
  rw [h] at h1
  exact Res.noConfusion h1

/-- C16, amended. Net stack effect per opcode. In every runtime that is ready for the
command (the stack holds enough operands of the expected variants, the division of
`DIV_I` and `MOD` is defined, and what the case hands control to returns), the case of
the command in `execute_run` returns; the stack is then as long as before plus the
delta of the opcode; the opcodes that do not re-enter the interpreter take off only
their own operands and the elements below those are unchanged; and for every opcode
the elements below every height that all removals of the step stayed above are
unchanged. -/
theorem net_stack_effect (M : ObjModel) (fuel : Nat) (c : Command) (r : Runtime)
    (h : Ready M (sem M fuel) c r) :
    ∃ r1, step M (sem M fuel) c r = .ok r1 ∧
      (r1.stack.length : Int) = r.stack.length + stackDelta r.heap c ∧
      (reenters c.cmd = false → removed r.heap c ≤ r.stack.length ∧
        r1.stack.take (r.stack.length - removed r.heap c)
          = r.stack.take (r.stack.length - removed r.heap c)) ∧
      ∃ ev, r1.trace = r.trace ++ ev ∧
        ∀ m, m ≤ r.stack.length → (∀ k, Event.pop k ∈ ev → m ≤ k) →
          r1.stack.take m = r.stack.take m := by
  obtain ⟨r1, hstep⟩ := step_returns h
  obtain ⟨hd, ⟨ev, ht, hf⟩, hl⟩ := step_effect (sem_ok M fuel) hstep
  exact ⟨r1, hstep, hd, hl, ev, ht, fun m hm hp => (hf m hm hp).1⟩

/-- Witness of the amended C16, on an opcode that does not re-enter and on two that
do: `TUP` with a tuple of two fields on a stack of three elements, where the stack
ends one element shorter, the two fields are taken off and the lowest element stays;
`GEN` of the example, whose source block is run and whose sequencer is pushed; and
`ARR` of the example, which drains the generator above one more element. -/
theorem net_stack_effect_witness :
    (∃ r1, step bareModel (sem bareModel 0) tupCmd tupRuntime = .ok r1 ∧
      (r1.stack.length : Int) = tupRuntime.stack.length + stackDelta tupRuntime.heap tupCmd ∧
      (reenters tupCmd.cmd = false → removed tupRuntime.heap tupCmd ≤ tupRuntime.stack.length ∧
        r1.stack.take (tupRuntime.stack.length - removed tupRuntime.heap tupCmd)
          = tupRuntime.stack.take (tupRuntime.stack.length - removed tupRuntime.heap tupCmd)) ∧
      ∃ ev, r1.trace = tupRuntime.trace ++ ev ∧
        ∀ m, m ≤ tupRuntime.stack.length → (∀ k, Event.pop k ∈ ev → m ≤ k) →
          r1.stack.take m = tupRuntime.stack.take m) ∧
    step bareModel (sem bareModel 0) tupCmd tupRuntime = .ok tupAfter ∧
    stackDelta tupRuntime.heap tupCmd = 1 - 2 ∧ removed tupRuntime.heap tupCmd = 2 ∧
    (∃ r1, step bareModel (sem bareModel 2) genCmd demoRuntime = .ok r1 ∧
      (r1.stack.length : Int) = demoRuntime.stack.length + stackDelta demoRuntime.heap genCmd ∧
      (reenters genCmd.cmd = false → removed demoRuntime.heap genCmd ≤ demoRuntime.stack.length ∧
        r1.stack.take (demoRuntime.stack.length - removed demoRuntime.heap genCmd)
          = demoRuntime.stack.take (demoRuntime.stack.length - removed demoRuntime.heap genCmd)) ∧
      ∃ ev, r1.trace = demoRuntime.trace ++ ev ∧
        ∀ m, m ≤ demoRuntime.stack.length → (∀ k, Event.pop k ∈ ev → m ≤ k) →
          r1.stack.take m = demoRuntime.stack.take m) ∧
    (∃ r1, step bareModel (sem bareModel 5) arrCmd demoBeforeArr = .ok r1 ∧
      (r1.stack.length : Int)
        = demoBeforeArr.stack.length + stackDelta demoBeforeArr.heap arrCmd ∧
      (reenters arrCmd.cmd = false →
        removed demoBeforeArr.heap arrCmd ≤ demoBeforeArr.stack.length ∧
        r1.stack.take (demoBeforeArr.stack.length - removed demoBeforeArr.heap arrCmd)
          = demoBeforeArr.stack.take
              (demoBeforeArr.stack.length - removed demoBeforeArr.heap arrCmd)) ∧
      ∃ ev, r1.trace = demoBeforeArr.trace ++ ev ∧
        ∀ m, m ≤ demoBeforeArr.stack.length → (∀ k, Event.pop k ∈ ev → m ≤ k) →
          r1.stack.take m = demoBeforeArr.stack.take m) :=
  ⟨net_stack_effect bareModel 0 tupCmd tupRuntime ⟨3, [none, none], rfl, rfl, by decide⟩,
    rfl, rfl, rfl,
    net_stack_effect bareModel 2 genCmd demoRuntime
      ⟨_, _, _, _, rfl, rfl, rfl, ⟨2, _, _, _, rfl, rfl⟩, ⟨3, _, _, _, rfl, rfl⟩⟩,
    net_stack_effect bareModel 5 arrCmd demoBeforeArr
      ⟨[some 0], 3, _, rfl, ⟨3, _, _, _, rfl, rfl⟩, rfl⟩⟩

end Tab
